import Mathlib

/-!
Timing matcher of the relay: registry, scheduler, balance cache, matching round

A shallow embedding of `src/miner/timing_matcher/timing_matcher.go`.

* Go maps that are only looked up, written and deleted (`MatchedOrders`,
  `MinedRings`, `accounts`, `Tokens`, the local `matchedOrderHashes`) are
  functions into `Option`; a nil map reads as the empty map.
* Go maps that are ranged over (`AtoBOrders`, `BtoAOrders`) are association
  lists with one pair per key; the list order stands for the order in which
  `range` visits the keys.
* `*big.Int` is `Int`, `*big.Rat` is `ℚ`, `common.Hash` and `common.Address`
  are `Nat`.
* A runtime panic of the Go code is the result `none`; a map that may be nil when
  it is written (`accounts`) is an `Option`, `none` being nil.
* `blockTrigger` starts one goroutine per market. With one market the single
  goroutine is run to its end. With two or more the goroutines run concurrently
  (and read `MatchedOrders` without the mutex while others write it): the model
  stops at the fan-out (`Round.raced`) and `SharedRun` says what the goroutines can
  do to the matcher in any interleaving.
* Every pointer stored in a map is taken to point to an object of its own
  (no two keys share an `OrderMatchState` or a backing array). The one pointer
  that is shared in the Go code is the `orderState` that `addMatchedOrder` keeps
  in a new registry entry: it is the order state of the filled order, whose
  amounts later fills can change. No statement of the source reads that field,
  and the model keeps it as a copy.
-/

namespace Relay

/-! ## Data model -/

abbrev Hash := Nat

abbrev Address := Nat

/-- Go map used through lookup, assignment and `delete` only. -/
abbrev GoMap (K V : Type) := K → Option V

/-- Map without keys: `make(map[K]V)`, and also the nil map as far as reads go. -/
def GoMap.empty {K V : Type} : GoMap K V := fun _ => none

/-- Assignment `m[k] = v`. -/
def GoMap.set {K V : Type} [DecidableEq K] (m : GoMap K V) (k : K) (v : V) : GoMap K V :=
  fun x => if x = k then some v else m x

/-- Builtin `delete(m, k)`. -/
def GoMap.delete {K V : Type} [DecidableEq K] (m : GoMap K V) (k : K) : GoMap K V :=
  fun x => if x = k then none else m x

/-- Go `error` value; `Option GoError` is an `error` that may be nil. -/
structure GoError where
  msg : String
deriving DecidableEq, Repr

/-- Modelled from the spec: `types.Order` is declared outside the sources at hand;
these are the fields the matcher reads. -/
structure Order where
  Hash : Hash
  TokenS : Address
  TokenB : Address
  Owner : Address
  AmountS : Int
  AmountB : Int
deriving DecidableEq, Repr

/-- Modelled from the spec: `types.OrderState`, the mutable view on an order with the
cumulative dealt amounts. -/
structure OrderState where
  RawOrder : Order
  DealtAmountS : Int
  DealtAmountB : Int
deriving DecidableEq, Repr

/-- Modelled from the spec: `types.FilledOrder`, an order state with the proposed
fill amounts (exact rationals). -/
structure FilledOrder where
  OrderState : OrderState
  FillAmountS : ℚ
  FillAmountB : ℚ
deriving DecidableEq, Repr

/-- Modelled from the spec: `types.Ring`, as far as the matcher reads it. -/
structure Ring where
  Hash : Hash
  Orders : List FilledOrder
deriving DecidableEq, Repr

/-- Modelled from the spec: `types.RingSubmitInfo`, opaque to the matcher except for
`Received` and `RawRing`. -/
structure RingSubmitInfo where
  RawRing : Ring
  Received : Int
deriving DecidableEq, Repr

/-- Modelled from the spec: `miner.TokenBalance`. -/
structure TokenBalance where
  Balance : Int
  Allowance : Int
deriving DecidableEq, Repr

/-- Modelled from the spec: `miner.Account`, the per-owner table of token balances. -/
structure Account where
  Tokens : GoMap Address TokenBalance

structure minedRing where
  ringHash : Hash
  orderHashes : List Hash
deriving DecidableEq, Repr

structure RoundState where
  round : Int
  ringHash : Hash
  matchedAmountS : ℚ
  matchedAmountB : ℚ
deriving DecidableEq, Repr

structure OrderMatchState where
  orderState : OrderState
  rounds : List RoundState
deriving DecidableEq, Repr

structure Market where
  protocolAddress : Address
  lrcAddress : Address
  TokenA : Address
  TokenB : Address
  AtoBOrders : List (Hash × OrderState)
  BtoAOrders : List (Hash × OrderState)
  AtoBOrderHashesExcludeNextRound : List Hash
  BtoAOrderHashesExcludeNextRound : List Hash
deriving DecidableEq, Repr

/-- State of the matcher. The mutex, the channels and the watchers carry no data;
the collaborators (`submitter`, `evaluator`, `accountManager`, the order manager)
are passed to the operations that call them. -/
structure TimingMatcher where
  MatchedOrders : GoMap Hash OrderMatchState
  MinedRings : GoMap Hash minedRing
  markets : List Market
  lastBlockNumber : Int
  duration : Int
  roundOrderCount : Int
  delayedNumber : Int
  accounts : Option (GoMap Address Account)

/-! ## Registry: `addMatchedOrder` and `afterSubmit` -/

/-- Rounds stored under an order hash, the empty list when the hash has no entry. -/
def roundsOf (m : TimingMatcher) (orderHash : Hash) : List RoundState :=
  match m.MatchedOrders orderHash with
  | some st => st.rounds
  | none => []

def addMatchedOrder (matcher : TimingMatcher) (filledOrder : FilledOrder) (ringiHash : Hash) :
    TimingMatcher :=
  let matchState : OrderMatchState :=
    match matcher.MatchedOrders filledOrder.OrderState.RawOrder.Hash with
    | none => { orderState := filledOrder.OrderState, rounds := [] }
    | some matchState1 => matchState1
  let roundState : RoundState :=
    { round := matcher.lastBlockNumber
      ringHash := ringiHash
      matchedAmountB := filledOrder.FillAmountB
      matchedAmountS := filledOrder.FillAmountS }
  let matchState := { matchState with rounds := matchState.rounds ++ [roundState] }
  { matcher with
    MatchedOrders := matcher.MatchedOrders.set filledOrder.OrderState.RawOrder.Hash matchState }

/-- One `append(rounds[:idx], rounds[idx+1:]...)` on the backing array `arr`, the
slice `rounds` being its first `len` slots. The result has `len - 1` elements and fits
the capacity, so `append` writes in place: slots `idx .. len-2` receive the old slots
`idx+1 .. len-1`, every other slot keeps its value. -/
def spliceArr (arr : List RoundState) (len idx : Nat) : List RoundState :=
  arr.take idx ++ (arr.drop (idx + 1)).take (len - (idx + 1)) ++ arr.drop (len - 1)

/-- The loop `for idx, s := range minedState.rounds` of `afterSubmit`, from index `idx`
with `k` iterations left. `range` evaluates the slice once, so the loop visits every
index of the original length and reads `s` from the shared backing array `arr`, while
`len` is the length of `minedState.rounds` as reassigned so far. `rounds[idx+1:]`
panics when `idx + 1` exceeds that length. -/
def spliceLoop (ringHash : Hash) :
    Nat → Nat → List RoundState → Nat → Option (List RoundState × Nat)
  | 0, _, arr, len => some (arr, len)
  | k + 1, idx, arr, len =>
    match arr[idx]? with
    | none => none
    | some s =>
      if s.ringHash = ringHash then
        if idx + 1 ≤ len then
          spliceLoop ringHash k (idx + 1) (spliceArr arr len idx) (len - 1)
        else none
      else spliceLoop ringHash k (idx + 1) arr len

/-- Value of `minedState.rounds` after the splice loop, `none` when the loop panics. -/
def spliceRounds (ringHash : Hash) (rounds : List RoundState) : Option (List RoundState) :=
  (spliceLoop ringHash rounds.length 0 rounds rounds.length).map fun r => r.1.take r.2

/-- Body of `for _, orderHash := range ringState.orderHashes` in `afterSubmit`. -/
def afterSubmitOrder (ringHash : Hash) (matcher : TimingMatcher) (orderHash : Hash) :
    Option TimingMatcher :=
  match matcher.MatchedOrders orderHash with
  | some minedState =>
    if minedState.rounds.length ≤ 1 then
      some { matcher with MatchedOrders := matcher.MatchedOrders.delete orderHash }
    else
      (spliceRounds ringHash minedState.rounds).map fun round1 =>
        { matcher with
          MatchedOrders :=
            matcher.MatchedOrders.set orderHash { minedState with rounds := round1 } }
  | none => some matcher

/-- Handler of the ring-mined and ring-submit-failed events, for an event carrying
`ringHash`. The result is the new state with the returned `error`; `none` is a
runtime panic. -/
def afterSubmit (matcher : TimingMatcher) (ringHash : Hash) :
    Option (TimingMatcher × Option GoError) :=
  match matcher.MinedRings ringHash with
  | some ringState =>
    (ringState.orderHashes.foldlM (afterSubmitOrder ringHash)
      { matcher with MinedRings := matcher.MinedRings.delete ringHash }).map
      fun m => (m, none)
  | none => some (matcher, none)


/-! ## Collaborators -/

/-- Modelled from the spec: the collaborators the matcher calls and whose code is
outside the sources at hand (order manager, `miner` helpers, evaluator, submitter,
account manager). Each is an arbitrary function. The account manager answers from the
list of the queries made so far, so that its answer to one query may change over
time. -/
structure Collaborators where
  MinerOrders : Address → Address → Address → Int → List Hash → Int → List OrderState
  IsOrderFullFinished : OrderState → Bool
  PriceValid : OrderState → OrderState → Bool
  Available : TokenBalance → Int
  ConvertOrderStateToFilledOrder : OrderState → Int → Int → FilledOrder
  NewRing : List FilledOrder → Ring
  ComputeRing : Ring → Ring
  GenerateRingSubmitInfo : Ring → Except GoError RingSubmitInfo
  GetBalanceByTokenAddress :
    List (Address × Address) → Address → Address → Except GoError (Int × Int)

/-- The matcher together with the record of the calls of `GetBalanceByTokenAddress`
made so far (oldest first). The record is not a field of the Go program: it is what
the statements about the number of account-manager calls speak of. -/
structure World where
  matcher : TimingMatcher
  amCalls : List (Address × Address)

/-! ## Balance cache -/

def getAccountBalance (env : Collaborators) (w : World) (address tokenAddress : Address) :
    Option (World × Except GoError TokenBalance) :=
  match w.matcher.accounts with
  | none =>
    -- `matcher.accounts[address] = account` on a nil map
    none
  | some accounts =>
    let (account, accounts) :=
      match accounts address with
      | some account => (account, accounts)
      | none =>
        let account : Account := { Tokens := GoMap.empty }
        (account, accounts.set address account)
    match account.Tokens tokenAddress with
    | none =>
      let w1 : World :=
        { matcher := { w.matcher with accounts := some accounts }
          amCalls := w.amCalls ++ [(address, tokenAddress)] }
      match env.GetBalanceByTokenAddress w.amCalls address tokenAddress with
      | .error err => some (w1, .error err)
      | .ok (balance, allowance) =>
        let b : TokenBalance := { Allowance := balance, Balance := allowance }
        let account : Account := { Tokens := account.Tokens.set tokenAddress b }
        some ({ w1 with
                matcher := { w1.matcher with accounts := some (accounts.set address account) } },
              .ok b)
    | some b =>
      some ({ w with matcher := { w.matcher with accounts := some accounts } }, .ok b)

/-! ## Market round -/

/-- Go `new(big.Int).Div(rat.Num(), rat.Denom())`: `Div` is Euclidean division. -/
def intFromRat (rat : ℚ) : Int :=
  Int.ediv rat.num (rat.den : Int)

/-- Assignment `m[k] = v` on a map that is ranged over: an existing key keeps its
place, a new key is added. -/
def sideSet (m : List (Hash × OrderState)) (k : Hash) (v : OrderState) :
    List (Hash × OrderState) :=
  match m with
  | [] => [(k, v)]
  | (k1, v1) :: rest => if k1 = k then (k, v) :: rest else (k1, v1) :: sideSet rest k v

/-- Lookup `m[k]` on a map that is ranged over. -/
def sideGet (m : List (Hash × OrderState)) (k : Hash) : Option OrderState :=
  match m with
  | [] => none
  | (k1, v1) :: rest => if k1 = k then some v1 else sideGet rest k

def reduceRemainedAmountBeforeMatch (matcher : TimingMatcher) (orderState : OrderState) :
    OrderState :=
  match matcher.MatchedOrders orderState.RawOrder.Hash with
  | some matchedOrder =>
    matchedOrder.rounds.foldl
      (fun orderState matchedRound =>
        { orderState with
          DealtAmountB := orderState.DealtAmountB + intFromRat matchedRound.matchedAmountB
          DealtAmountS := orderState.DealtAmountS + intFromRat matchedRound.matchedAmountS })
      orderState
  | none => orderState

/-- One of the two loops over the fetched orders in `getOrdersForMatching`: `side` is
the side map and `excl` the exclude-next-round list the loop fills. -/
def fetchLoop (env : Collaborators) (matcher : TimingMatcher) :
    List OrderState → List (Hash × OrderState) → List Hash →
      List (Hash × OrderState) × List Hash
  | [], side, excl => (side, excl)
  | order :: rest, side, excl =>
    let order := reduceRemainedAmountBeforeMatch matcher order
    if !env.IsOrderFullFinished order then
      fetchLoop env matcher rest (sideSet side order.RawOrder.Hash order) excl
    else
      fetchLoop env matcher rest side (excl ++ [order.RawOrder.Hash])

def getOrdersForMatching (env : Collaborators) (matcher : TimingMatcher) (market : Market)
    (protocolAddress : Address) : Market :=
  let atoBOrders :=
    env.MinerOrders protocolAddress market.TokenA market.TokenB matcher.roundOrderCount
      market.AtoBOrderHashesExcludeNextRound matcher.delayedNumber
  let btoAOrders :=
    env.MinerOrders protocolAddress market.TokenB market.TokenA matcher.roundOrderCount
      market.BtoAOrderHashesExcludeNextRound matcher.delayedNumber
  let a := fetchLoop env matcher atoBOrders [] []
  let b := fetchLoop env matcher btoAOrders [] []
  { market with
    AtoBOrders := a.1
    BtoAOrders := b.1
    AtoBOrderHashesExcludeNextRound := a.2
    BtoAOrderHashesExcludeNextRound := b.2 }

/-- Result: the market with the side-map entry updated in place, and that entry.
`none` is the nil dereference when the side map has no entry for the hash. -/
def reduceAmountAfterFilled (market : Market) (filledOrder : FilledOrder) :
    Option (Market × OrderState) :=
  let filledOrderState := filledOrder.OrderState
  if filledOrderState.RawOrder.TokenS = market.TokenA then
    match sideGet market.AtoBOrders filledOrderState.RawOrder.Hash with
    | none => none
    | some orderState =>
      let orderState : OrderState :=
        { orderState with
          DealtAmountB := orderState.DealtAmountB + intFromRat filledOrder.FillAmountB
          DealtAmountS := orderState.DealtAmountS + intFromRat filledOrder.FillAmountS }
      some ({ market with
              AtoBOrders := sideSet market.AtoBOrders filledOrderState.RawOrder.Hash orderState },
            orderState)
  else
    match sideGet market.BtoAOrders filledOrderState.RawOrder.Hash with
    | none => none
    | some orderState =>
      let orderState : OrderState :=
        { orderState with
          DealtAmountB := orderState.DealtAmountB + intFromRat filledOrder.FillAmountB
          DealtAmountS := orderState.DealtAmountS + intFromRat filledOrder.FillAmountS }
      some ({ market with
              BtoAOrders := sideSet market.BtoAOrders filledOrderState.RawOrder.Hash orderState },
            orderState)


/-- The test `nil == ringForSubmit || ringForSubmit.Received.Cmp(ringForSubmitTmp.Received) < 0`
with the assignment it guards. -/
def keepBetter (ringForSubmit : Option RingSubmitInfo) (ringForSubmitTmp : RingSubmitInfo) :
    Option RingSubmitInfo :=
  match ringForSubmit with
  | none => some ringForSubmitTmp
  | some cur => if cur.Received < ringForSubmitTmp.Received then some ringForSubmitTmp else some cur

/-- Body of the inner loop of `match` up to the candidate: `some (w, some r)` when the
submitter returned `r` without error, `some (w, none)` when the pair is skipped (price
not valid, a balance query failed, the submitter failed), `none` on a panic. -/
def tryPair (env : Collaborators) (market : Market) (w : World) (a2BOrder b2AOrder : OrderState) :
    Option (World × Option RingSubmitInfo) :=
  if env.PriceValid a2BOrder b2AOrder then
    match getAccountBalance env w a2BOrder.RawOrder.Owner market.lrcAddress with
    | none => none
    | some (w, .error _) => some (w, none)
    | some (w, .ok a2BLrcToken) =>
    match getAccountBalance env w a2BOrder.RawOrder.Owner a2BOrder.RawOrder.TokenS with
    | none => none
    | some (w, .error _) => some (w, none)
    | some (w, .ok a2BTokenS) =>
    let fa :=
      env.ConvertOrderStateToFilledOrder a2BOrder (env.Available a2BLrcToken)
        (env.Available a2BTokenS)
    match getAccountBalance env w b2AOrder.RawOrder.Owner market.lrcAddress with
    | none => none
    | some (w, .error _) => some (w, none)
    | some (w, .ok b2ALrcToken) =>
    match getAccountBalance env w b2AOrder.RawOrder.Owner b2AOrder.RawOrder.TokenS with
    | none => none
    | some (w, .error _) => some (w, none)
    | some (w, .ok b2ATokenS) =>
    let fb :=
      env.ConvertOrderStateToFilledOrder b2AOrder (env.Available b2ALrcToken)
        (env.Available b2ATokenS)
    let ringTmp := env.ComputeRing (env.NewRing [fa, fb])
    match env.GenerateRingSubmitInfo ringTmp with
    | .error _ => some (w, none)
    | .ok ringForSubmitTmp => some (w, some ringForSubmitTmp)
  else some (w, none)

/-- Inner loop `for _, b2AOrder := range market.BtoAOrders` for the seed `a2BOrder`,
over the counterparties in the order the loop visits them. -/
def innerLoop (env : Collaborators) (market : Market) (a2BOrder : OrderState) :
    List OrderState → World → Option RingSubmitInfo → Option (World × Option RingSubmitInfo)
  | [], w, ringForSubmit => some (w, ringForSubmit)
  | b2AOrder :: rest, w, ringForSubmit =>
    match tryPair env market w a2BOrder b2AOrder with
    | none => none
    | some (w, none) => innerLoop env market a2BOrder rest w ringForSubmit
    | some (w, some ringForSubmitTmp) =>
      innerLoop env market a2BOrder rest w (keepBetter ringForSubmit ringForSubmitTmp)

/-- The candidates the inner loop obtains from the submitter without error, in the
order of the iterations. -/
def candidates (env : Collaborators) (market : Market) (a2BOrder : OrderState) :
    List OrderState → World → List RingSubmitInfo
  | [], _ => []
  | b2AOrder :: rest, w =>
    match tryPair env market w a2BOrder b2AOrder with
    | none => []
    | some (w, none) => candidates env market a2BOrder rest w
    | some (w, some ringForSubmitTmp) =>
      ringForSubmitTmp :: candidates env market a2BOrder rest w

/-- Variables of one run of `match`: the matcher, the market, and the locals
`matchedOrderHashes` and `ringStates`. -/
structure RoundVars where
  w : World
  market : Market
  matchedOrderHashes : GoMap Hash Bool
  ringStates : List RingSubmitInfo

/-- The loop `for _, filledOrder := range ringForSubmit.RawRing.Orders` of `match`. -/
def recordFills (env : Collaborators) (ringHash : Hash) :
    List FilledOrder → RoundVars → Option RoundVars
  | [], st => some st
  | filledOrder :: rest, st =>
    match reduceAmountAfterFilled st.market filledOrder with
    | none => none
    | some (market, orderState) =>
      recordFills env ringHash rest
        { st with
          market := market
          matchedOrderHashes :=
            st.matchedOrderHashes.set filledOrder.OrderState.RawOrder.Hash
              (env.IsOrderFullFinished orderState)
          w := { st.w with matcher := addMatchedOrder st.w.matcher filledOrder ringHash } }

/-- What `match` does with the ring kept for a seed. -/
def recordRing (env : Collaborators) (st : RoundVars) (ringForSubmit : Option RingSubmitInfo) :
    Option RoundVars :=
  match ringForSubmit with
  | none => some st
  | some ring =>
    (recordFills env ring.RawRing.Hash ring.RawRing.Orders st).map fun st =>
      { st with ringStates := st.ringStates ++ [ring] }

/-- One iteration of `for _, a2BOrder := range market.AtoBOrders`, for the key
`aHash`. The seed is read through its pointer, that is as the side map holds it at
that time; the first `none` stands for a key without entry, which `range` never
yields. -/
def seedStep (env : Collaborators) (st : RoundVars) (aHash : Hash) : Option RoundVars :=
  match sideGet st.market.AtoBOrders aHash with
  | none => none
  | some a2BOrder =>
    match innerLoop env st.market a2BOrder (st.market.BtoAOrders.map Prod.snd) st.w none with
    | none => none
    | some (w, ringForSubmit) => recordRing env { st with w := w } ringForSubmit

/-- The test `!exists || fullFilled` of the two closing loops of `match`. -/
def excludeNext (matchedOrderHashes : GoMap Hash Bool) (orderHash : Hash) : Bool :=
  match matchedOrderHashes orderHash with
  | none => true
  | some fullFilled => fullFilled

/-- The seed loop of `match`, after `getOrdersForMatching`. -/
def matchSeeds (env : Collaborators) (w : World) (market : Market) : Option RoundVars :=
  (market.AtoBOrders.map Prod.fst).foldlM (seedStep env)
    { w := w, market := market, matchedOrderHashes := GoMap.empty, ringStates := [] }

/-- The two closing loops of `match`. -/
def excludeUpdate (market : Market) (matchedOrderHashes : GoMap Hash Bool) : Market :=
  { market with
    AtoBOrderHashesExcludeNextRound :=
      market.AtoBOrderHashesExcludeNextRound ++
        (market.AtoBOrders.map Prod.fst).filter (excludeNext matchedOrderHashes)
    BtoAOrderHashesExcludeNextRound :=
      market.BtoAOrderHashesExcludeNextRound ++
        (market.BtoAOrders.map Prod.fst).filter (excludeNext matchedOrderHashes) }

/-- `Market.match`: the result is the new state of the matcher and of the market and
the batch emitted on `Miner_NewRing`. -/
def marketMatch (env : Collaborators) (w : World) (market : Market) :
    Option (World × Market × List RingSubmitInfo) :=
  match matchSeeds env w (getOrdersForMatching env w.matcher market market.protocolAddress) with
  | none => none
  | some st => some (st.w, excludeUpdate st.market st.matchedOrderHashes, st.ringStates)

/-! ## Scheduler -/

/-- What the goroutines of a round can do to the matcher, in any interleaving and for
any number of markets: the statements of `match` that write the matcher are the calls
of `getAccountBalance` and of `addMatchedOrder`, each under the mutex, so the matcher
goes through a sequence of such calls. -/
inductive SharedRun (env : Collaborators) : World → World → Prop
  | stop (w : World) : SharedRun env w w
  | query (w w1 w2 : World) (address tokenAddress : Address)
      (res : Except GoError TokenBalance) :
      getAccountBalance env w address tokenAddress = some (w1, res) →
      SharedRun env w1 w2 → SharedRun env w w2
  | record (w w2 : World) (filledOrder : FilledOrder) (ringHash : Hash) :
      SharedRun env { w with matcher := addMatchedOrder w.matcher filledOrder ringHash } w2 →
      SharedRun env w w2

/-- Outcome of the handler of `Block_New`: it returned (`ended`), a goroutine ran into a
runtime panic (`died`), or two or more goroutines were started on the state `w0` for
the markets `markets` (`raced`); what these do concurrently is not followed. -/
inductive Round (α : Type) where
  | ended (a : α) : Round α
  | died : Round α
  | raced (w0 : World) (markets : List Market) : Round α

/-- The value with which the handler returned, if it did. -/
def Round.result {α : Type} : Round α → Option α
  | .ended a => some a
  | .died => none
  | .raced _ _ => none

/-- The fan-out of `blockTrigger` over `matcher.markets` with `wg.Wait()`: no goroutine
for no market, the run of `match` for a single market, a race of goroutines for two or
more. The result lists the markets as `match` left them and the batches emitted. -/
def fanOut (env : Collaborators) :
    List Market → World → Round (World × List Market × List (List RingSubmitInfo))
  | [], w => .ended (w, [], [])
  | [market], w =>
    match marketMatch env w market with
    | none => .died
    | some (w, market, batch) => .ended (w, [market], [batch])
  | market :: market2 :: rest, w => .raced w (market :: market2 :: rest)

/-- The body of the `if` of `blockTrigger`: a round for the block `blockNumber`. -/
def beginRound (env : Collaborators) (w : World) (blockNumber : Int) :
    Round (World × List (List RingSubmitInfo)) :=
  let matcher : TimingMatcher :=
    { w.matcher with lastBlockNumber := blockNumber, accounts := some GoMap.empty }
  match fanOut env matcher.markets { w with matcher := matcher } with
  | .ended r => .ended ({ r.1 with matcher := { r.1.matcher with markets := r.2.1 } }, r.2.2)
  | .died => .died
  | .raced w0 markets => .raced w0 markets

/-- Handler of `Block_New` for an event with block number `blockNumber`: when it
returns, the new state, the returned `error`, and the batches emitted by the markets
matched. -/
def blockTrigger (env : Collaborators) (w : World) (blockNumber : Int) :
    Round (World × Option GoError × List (List RingSubmitInfo)) :=
  let nextBlockNumber := w.matcher.duration + w.matcher.lastBlockNumber
  if nextBlockNumber ≤ blockNumber then
    match beginRound env w blockNumber with
    | .ended r => .ended (r.1, none, r.2)
    | .died => .died
    | .raced w0 markets => .raced w0 markets
  else .ended (w, none, [])

/-! ## Construction -/

/-- Modelled from the spec: `config.TimingMatcher`, the options read by the constructor. -/
structure TimingMatcherOptions where
  RoundOrdersCount : Int
  Duration : Int
  DelayedNumber : Int
deriving DecidableEq, Repr

/-- Modelled from the spec: an element of `marketUtilLib.AllTokenPairs`. -/
structure TokenPair where
  TokenS : Address
  TokenB : Address
deriving DecidableEq, Repr

/-- Modelled from the spec: an element of `submitter.Accessor.ProtocolAddresses`. -/
structure ProtocolAddress where
  ContractAddress : Address
  LrcTokenAddress : Address
deriving DecidableEq, Repr

/-- The loop over the protocol addresses in `NewTimingMatcher`, for one token pair. -/
def addMarkets (pair : TokenPair) :
    List ProtocolAddress → GoMap Address Address × List Market →
      GoMap Address Address × List Market
  | [], acc => acc
  | protocolAddress :: rest, (pairs, markets) =>
    let m : Market :=
      { protocolAddress := protocolAddress.ContractAddress
        lrcAddress := protocolAddress.LrcTokenAddress
        TokenA := pair.TokenS
        TokenB := pair.TokenB
        AtoBOrders := []
        BtoAOrders := []
        AtoBOrderHashesExcludeNextRound := []
        BtoAOrderHashesExcludeNextRound := [] }
    addMarkets pair rest (pairs.set pair.TokenS pair.TokenB, markets ++ [m])

/-- The test `_, ok := pairs[k]; !ok || addr != v`. -/
def notPaired (pairs : GoMap Address Address) (k v : Address) : Bool :=
  match pairs k with
  | none => true
  | some addr => addr ≠ v

/-- The loop over `AllTokenPairs` in `NewTimingMatcher`. -/
def pairLoop (protocolAddresses : List ProtocolAddress) :
    List TokenPair → GoMap Address Address × List Market →
      GoMap Address Address × List Market
  | [], acc => acc
  | pair :: rest, acc =>
    if notPaired acc.1 pair.TokenS pair.TokenB then
      if notPaired acc.1 pair.TokenB pair.TokenS then
        pairLoop protocolAddresses rest (addMarkets pair protocolAddresses acc)
      else pairLoop protocolAddresses rest acc
    else pairLoop protocolAddresses rest acc

/-- The constructor. `MinedRings` and `accounts` are not assigned and stay nil. -/
def NewTimingMatcher (matcherOptions : TimingMatcherOptions)
    (protocolAddresses : List ProtocolAddress) (allTokenPairs : List TokenPair) :
    TimingMatcher :=
  { MatchedOrders := GoMap.empty
    MinedRings := GoMap.empty
    markets := (pairLoop protocolAddresses allTokenPairs (GoMap.empty, [])).2
    lastBlockNumber := 0
    duration := matcherOptions.Duration
    roundOrderCount := matcherOptions.RoundOrdersCount
    delayedNumber := matcherOptions.DelayedNumber
    accounts := none }

/-! ## Vocabulary of the statements and example states -/

/-- Number of rounds of a list that carry the ring hash `h`. -/
def countRing (h : Hash) (rounds : List RoundState) : Nat :=
  rounds.countP fun s => decide (s.ringHash = h)

/-- Invariant I1 of the data model: every stored round has an entry of its ring in
`MinedRings`. -/
def RoundsIndexed (m : TimingMatcher) : Prop :=
  ∀ o, ∀ s ∈ roundsOf m o, ∃ ring, m.MinedRings s.ringHash = some ring

/-- States of the matcher reached from the constructor, whatever the collaborators
answer: by a round that `blockTrigger` ran to its end (`round`), by the start of a
round of concurrent goroutines (`race`), by what goroutines do to the matcher in any
interleaving (`shared`) and to their own markets (`markets`), by recording fills (as
`match` does through `addMatchedOrder`, `submit`) and by handling ring events
(`afterSubmit`, `settle`). -/
inductive Reachable : TimingMatcher → Prop
  | init (matcherOptions : TimingMatcherOptions) (protocolAddresses : List ProtocolAddress)
      (allTokenPairs : List TokenPair) :
      Reachable (NewTimingMatcher matcherOptions protocolAddresses allTokenPairs)
  | round (env : Collaborators) (w : World) (blockNumber : Int)
      (r : World × Option GoError × List (List RingSubmitInfo)) :
      Reachable w.matcher → blockTrigger env w blockNumber = .ended r → Reachable r.1.matcher
  | race (env : Collaborators) (w w0 : World) (blockNumber : Int) (ms : List Market) :
      Reachable w.matcher → blockTrigger env w blockNumber = .raced w0 ms →
      Reachable w0.matcher
  | shared (env : Collaborators) (w w1 : World) :
      Reachable w.matcher → SharedRun env w w1 → Reachable w1.matcher
  | markets (m : TimingMatcher) (ms : List Market) :
      Reachable m → Reachable { m with markets := ms }
  | submit (m : TimingMatcher) (filledOrder : FilledOrder) (ringHash : Hash) :
      Reachable m → Reachable (addMatchedOrder m filledOrder ringHash)
  | settle (m m1 : TimingMatcher) (ringHash : Hash) (err : Option GoError) :
      Reachable m → afterSubmit m ringHash = some (m1, err) → Reachable m1

/-- A round of the ring `h` taken at block 1, with no amounts. -/
def exRound (h : Hash) : RoundState :=
  { round := 1, ringHash := h, matchedAmountS := 0, matchedAmountB := 0 }

/-- An order state with the hash `o` and nothing dealt. -/
def exOrder (o : Hash) : OrderState :=
  { RawOrder := { Hash := o, TokenS := 100, TokenB := 200, Owner := 1, AmountS := 100, AmountB := 50 }
    DealtAmountS := 0
    DealtAmountB := 0 }

/-- A matcher with the given registry and index, no market, at block 1. -/
def exMatcher (matched : GoMap Hash OrderMatchState) (mined : GoMap Hash minedRing) :
    TimingMatcher :=
  { MatchedOrders := matched
    MinedRings := mined
    markets := []
    lastBlockNumber := 1
    duration := 10
    roundOrderCount := 2
    delayedNumber := 0
    accounts := none }

/-- Order 1 holds a round of ring 7, and ring 7 is not indexed. -/
def exUnindexed : TimingMatcher :=
  exMatcher (GoMap.empty.set 1 { orderState := exOrder 1, rounds := [exRound 7] }) GoMap.empty

/-- Ring 7 is indexed for the orders 1 and 2; order 1 holds the rings 8, 7, 9 and
order 2 the ring 7 only. -/
def exIndexed : TimingMatcher :=
  exMatcher
    ((GoMap.empty.set 1 { orderState := exOrder 1, rounds := [exRound 8, exRound 7, exRound 9] }).set
      2 { orderState := exOrder 2, rounds := [exRound 7] })
    (GoMap.empty.set 7 { ringHash := 7, orderHashes := [1, 2] })

/-- A fill of order 1: 90 sold, 45 bought. -/
def exFill : FilledOrder :=
  { OrderState := exOrder 1, FillAmountS := 90, FillAmountB := 45 }

/-- Availability on the sell side as the matcher sees it: `AmountS` minus the dealt
amount of the view. -/
def availableS (orderState : OrderState) : Int :=
  orderState.RawOrder.AmountS - orderState.DealtAmountS

/-- Availability on the buy side: `AmountB` minus the dealt amount of the view. -/
def availableB (orderState : OrderState) : Int :=
  orderState.RawOrder.AmountB - orderState.DealtAmountB

/-- The side map `reduceAmountAfterFilled` selects for an order selling `tokenS`. -/
def sideOf (market : Market) (tokenS : Address) : List (Hash × OrderState) :=
  if tokenS = market.TokenA then market.AtoBOrders else market.BtoAOrders

/-- Order 1 has one round in flight, of the ring 7, with 50 sold and 25 bought. -/
def exInflight : TimingMatcher :=
  exMatcher
    (GoMap.empty.set 1
      { orderState := exOrder 1
        rounds := [{ round := 1, ringHash := 7, matchedAmountS := 50, matchedAmountB := 25 }] })
    GoMap.empty

/-- A market of the tokens 100 and 200 whose A-side map holds order 1 as the round
of `exInflight` fetched it. -/
def exMarket : Market :=
  { protocolAddress := 1000
    lrcAddress := 300
    TokenA := 100
    TokenB := 200
    AtoBOrders := [(1, reduceRemainedAmountBeforeMatch exInflight (exOrder 1))]
    BtoAOrders := []
    AtoBOrderHashesExcludeNextRound := []
    BtoAOrderHashesExcludeNextRound := [] }

/-- A fill of order 1 in the current round: 20 sold, 10 bought. -/
def exFillSmall : FilledOrder :=
  { OrderState := exOrder 1, FillAmountS := 20, FillAmountB := 10 }

/-- Calls of `getAccountBalance` one after the other, as they follow each other
within one round. -/
def queryAll (env : Collaborators) (w : World) (queries : List (Address × Address)) :
    Option World :=
  queries.foldlM (fun w q => (getAccountBalance env w q.1 q.2).map Prod.fst) w

/-- The pair `(owner, token)` has a memoized balance in the cache of the round. -/
def Cached (w : World) (p : Address × Address) : Prop :=
  ∃ accounts account b,
    w.matcher.accounts = some accounts ∧ accounts p.1 = some account ∧
      account.Tokens p.2 = some b

/-- The candidate `c` is the first of `l` whose `Received` is the greatest of `l`. -/
def FirstMax (c : RingSubmitInfo) (l : List RingSubmitInfo) : Prop :=
  ∃ pre post, l = pre ++ c :: post ∧ (∀ x ∈ pre, x.Received < c.Received) ∧
    ∀ x ∈ post, x.Received ≤ c.Received

/-- Order a of scenario S1: sells 100 of token 100 for 50 of token 200. -/
def exOrderA : OrderState :=
  { RawOrder := { Hash := 1, TokenS := 100, TokenB := 200, Owner := 11, AmountS := 100, AmountB := 50 }
    DealtAmountS := 0
    DealtAmountB := 0 }

/-- Order b of scenario S1: sells 60 of token 200 for 90 of token 100. -/
def exOrderB : OrderState :=
  { RawOrder := { Hash := 2, TokenS := 200, TokenB := 100, Owner := 12, AmountS := 60, AmountB := 90 }
    DealtAmountS := 0
    DealtAmountB := 0 }

/-- Collaborators of scenario S1. The order manager offers `orders` (those selling the
asked token and not excluded); an order is fully finished when its dealt amount has
reached `AmountS`; every pair is price-valid and every balance ample; the evaluator
fills 90 and 45 for the order selling token 100 and 45 and 90 for the other, and the
ring has the hash 77 and `Received` 1. -/
def exEnv (orders : List OrderState) : Collaborators :=
  { MinerOrders := fun _ tokenS _ _ exclude _ =>
      orders.filter fun o => decide (o.RawOrder.TokenS = tokenS ∧ o.RawOrder.Hash ∉ exclude)
    IsOrderFullFinished := fun o => decide (o.RawOrder.AmountS ≤ o.DealtAmountS)
    PriceValid := fun _ _ => true
    Available := fun b => min b.Balance b.Allowance
    ConvertOrderStateToFilledOrder := fun o _ _ =>
      { OrderState := o, FillAmountS := 0, FillAmountB := 0 }
    NewRing := fun fs => { Hash := 77, Orders := fs }
    ComputeRing := fun ring =>
      { ring with
        Orders := ring.Orders.map fun f =>
          if f.OrderState.RawOrder.TokenS = 100 then { f with FillAmountS := 90, FillAmountB := 45 }
          else { f with FillAmountS := 45, FillAmountB := 90 } }
    GenerateRingSubmitInfo := fun ring => .ok { RawRing := ring, Received := 1 }
    GetBalanceByTokenAddress := fun _ _ _ => .ok (1000, 1000) }

/-- An account manager that fails every query, the other collaborators as in `exEnv`. -/
def exEnvFailing : Collaborators :=
  { exEnv [] with GetBalanceByTokenAddress := fun _ _ _ => .error { msg := "unavailable" } }

/-- Scenario S4: one market of the tokens 100 and 200, `duration` 10 and
`lastBlockNumber` 100, no call of the account manager so far. -/
def exWorld : World :=
  { matcher :=
      { NewTimingMatcher ⟨2, 10, 0⟩ [⟨1000, 300⟩] [⟨100, 200⟩] with lastBlockNumber := 100 }
    amCalls := [] }

/-- A world within a round: the cache of the round is allocated and empty. -/
def exRoundWorld : World :=
  { exWorld with matcher := { exWorld.matcher with accounts := some GoMap.empty } }

/-- A second counterparty for scenario S2: sells 70 of token 200 for 100 of token 100. -/
def exOrderB2 : OrderState :=
  { RawOrder := { Hash := 3, TokenS := 200, TokenB := 100, Owner := 13, AmountS := 70, AmountB := 100 }
    DealtAmountS := 0
    DealtAmountB := 0 }

/-- Collaborators of scenario S2: as `exEnv`, and the ring of the orders 1 and 2 has
`Received` 5, every other ring 7. -/
def exEnvBest (orders : List OrderState) : Collaborators :=
  { exEnv orders with
    GenerateRingSubmitInfo := fun ring =>
      .ok { RawRing := ring
            Received :=
              if (ring.Orders.map fun f => f.OrderState.RawOrder.Hash) = [1, 2] then 5 else 7 } }

/-- The market of `exWorld` with order a on the A side and the orders b and b2 on the
B side. -/
def exMarketBest : Market :=
  { protocolAddress := 1000
    lrcAddress := 300
    TokenA := 100
    TokenB := 200
    AtoBOrders := [(1, exOrderA)]
    BtoAOrders := [(2, exOrderB), (3, exOrderB2)]
    AtoBOrderHashesExcludeNextRound := []
    BtoAOrderHashesExcludeNextRound := [] }

/-- The matcher without its balance cache: what a balance query leaves untouched. -/
def sansCache (m : TimingMatcher) : TimingMatcher :=
  { m with accounts := none }

/-- The settings of the scheduler held by the matcher. -/
def clock (m : TimingMatcher) : Int × Int × Int × Int :=
  (m.lastBlockNumber, m.duration, m.roundOrderCount, m.delayedNumber)

/-- What the seed loop of `match` leaves untouched in a market: the keys of the two
side maps, the two exclude-next-round lists and the addresses. -/
def marketFrame (market : Market) :
    List Hash × List Hash × List Hash × List Hash × Address × Address × Address × Address :=
  (market.AtoBOrders.map Prod.fst, market.BtoAOrders.map Prod.fst,
    market.AtoBOrderHashesExcludeNextRound, market.BtoAOrderHashesExcludeNextRound,
    market.TokenA, market.TokenB, market.protocolAddress, market.lrcAddress)

/-- Hashes present in the two side maps. -/
def sideHashes (market : Market) : List Hash :=
  market.AtoBOrders.map Prod.fst ++ market.BtoAOrders.map Prod.fst

/-- Hashes held in the two exclude-next-round lists. -/
def excludedHashes (market : Market) : List Hash :=
  market.AtoBOrderHashesExcludeNextRound ++ market.BtoAOrderHashesExcludeNextRound

/-- Hashes of the orders that the order manager returns to `getOrdersForMatching` (on
either side) and that are fully finished once the in-flight amounts are added. -/
def fetchedFinished (env : Collaborators) (matcher : TimingMatcher) (market : Market) :
    List Hash :=
  (((env.MinerOrders market.protocolAddress market.TokenA market.TokenB matcher.roundOrderCount
        market.AtoBOrderHashesExcludeNextRound matcher.delayedNumber ++
      env.MinerOrders market.protocolAddress market.TokenB market.TokenA matcher.roundOrderCount
        market.BtoAOrderHashesExcludeNextRound matcher.delayedNumber).map
      (reduceRemainedAmountBeforeMatch matcher)).filter env.IsOrderFullFinished).map
    fun o => o.RawOrder.Hash

/-- Collaborators that answer as the matcher expects: the order manager returns orders
that sell the token asked for, the conversion to a filled order keeps the order, and
the ring that the submitter wraps holds the two filled orders it was built from. -/
def WellBehaved (env : Collaborators) : Prop :=
  (∀ p s b n ex d, ∀ o ∈ env.MinerOrders p s b n ex d, o.RawOrder.TokenS = s) ∧
    (∀ o x y, (env.ConvertOrderStateToFilledOrder o x y).OrderState.RawOrder = o.RawOrder) ∧
    ∀ fa fb info,
      env.GenerateRingSubmitInfo (env.ComputeRing (env.NewRing [fa, fb])) = .ok info →
      (info.RawRing.Orders.map fun f => f.OrderState.RawOrder) =
        [fa.OrderState.RawOrder, fb.OrderState.RawOrder]

/-- Every entry of a side map is keyed by the hash of its order, the A side holds
orders selling `TokenA` and the B side orders selling another token. -/
def SidesKeyed (market : Market) : Prop :=
  (∀ p ∈ market.AtoBOrders, p.2.RawOrder.Hash = p.1 ∧ p.2.RawOrder.TokenS = market.TokenA) ∧
    ∀ p ∈ market.BtoAOrders, p.2.RawOrder.Hash = p.1 ∧ p.2.RawOrder.TokenS ≠ market.TokenA

/-- The market of the tokens 100 and 200 as the constructor builds it. -/
def exMarketNew : Market :=
  { protocolAddress := 1000
    lrcAddress := 300
    TokenA := 100
    TokenB := 200
    AtoBOrders := []
    BtoAOrders := []
    AtoBOrderHashesExcludeNextRound := []
    BtoAOrderHashesExcludeNextRound := [] }

/-- A world within a round in which order 1 has one round in flight that sold all of
its 100. -/
def exWorldSold : World :=
  { exRoundWorld with
    matcher :=
      { exRoundWorld.matcher with
        MatchedOrders :=
          GoMap.empty.set 1
            { orderState := exOrderA
              rounds := [{ round := 90, ringHash := 7, matchedAmountS := 100, matchedAmountB := 50 }] } } }

/-- The matcher as the constructor leaves it, with one market of the tokens 100 and
200 and `duration` 10, and no call of the account manager so far. -/
def exFresh : World :=
  { matcher := NewTimingMatcher ⟨2, 10, 0⟩ [⟨1000, 300⟩] [⟨100, 200⟩]
    amCalls := [] }

/-- The cache of the round holds the token balance `b` for the pair `(owner, token)`. -/
def CachedAs (w : World) (p : Address × Address) (b : TokenBalance) : Prop :=
  ∃ accounts account,
    w.matcher.accounts = some accounts ∧ accounts p.1 = some account ∧
      account.Tokens p.2 = some b

/-- A rational truncated toward zero, in the words of the numeric rule: the integer
quotient of its numerator by its denominator, rounded toward zero. -/
def truncTowardZero (r : ℚ) : Int :=
  Int.tdiv r.num (r.den : Int)

/-- Number of the markets of a matcher that stand for the unordered token pair
`{a, b}` under the protocol address `protocol`. -/
def marketsOf (m : TimingMatcher) (protocol a b : Address) : Nat :=
  (m.markets.filter fun mk =>
    decide (mk.protocolAddress = protocol ∧
      ((mk.TokenA = a ∧ mk.TokenB = b) ∨ (mk.TokenA = b ∧ mk.TokenB = a)))).length

/-- Ring 7 is indexed for order 1, which holds two rounds of ring 7 (the same ring
submitted at the blocks 1 and 2). -/
def exTwice : TimingMatcher :=
  exMatcher
    (GoMap.empty.set 1
      { orderState := exOrder 1
        rounds := [{ round := 1, ringHash := 7, matchedAmountS := 10, matchedAmountB := 5 },
                   { round := 2, ringHash := 7, matchedAmountS := 10, matchedAmountB := 5 }] })
    (GoMap.empty.set 7 { ringHash := 7, orderHashes := [1] })

/-- A fill of order 1 by half a unit sold and half a unit bought. -/
def exFillHalf : FilledOrder :=
  { OrderState := exOrder 1, FillAmountS := mkRat 1 2, FillAmountB := mkRat 1 2 }

/-- Token pairs in which token 1 is sold against the tokens 2 and 3, and token 2
against token 1. -/
def exPairs : List TokenPair :=
  [⟨1, 2⟩, ⟨1, 3⟩, ⟨2, 1⟩]

/-- Collaborators as in `exEnv` with no order, whose account manager answers every
query with the balance 500 and the allowance 20. -/
def exEnvUneven : Collaborators :=
  { exEnv [] with GetBalanceByTokenAddress := fun _ _ _ => .ok (500, 20) }

/-- The state on which `blockTrigger` starts the goroutines of the round for the block
`n`: `lastBlockNumber` is `n` and the account cache is a new, empty map. -/
def roundStart (w : World) (n : Int) : World :=
  { w with matcher := { w.matcher with lastBlockNumber := n, accounts := some GoMap.empty } }

/-- Scenario S4 with a second market, of the tokens 100 and 400. -/
def exWorldTwo : World :=
  { matcher :=
      { NewTimingMatcher ⟨2, 10, 0⟩ [⟨1000, 300⟩] [⟨100, 200⟩, ⟨100, 400⟩] with
        lastBlockNumber := 100 }
    amCalls := [] }

/-- One of the two side maps of a market: `AtoBOrders` for `true`, `BtoAOrders` for
`false`. -/
def sideMap (market : Market) (aSide : Bool) : List (Hash × OrderState) :=
  if aSide then market.AtoBOrders else market.BtoAOrders

/-- The orders that `getOrdersForMatching` obtains from the order manager for one side
of a market. -/
def fetched (env : Collaborators) (matcher : TimingMatcher) (market : Market) (aSide : Bool) :
    List OrderState :=
  if aSide then
    env.MinerOrders market.protocolAddress market.TokenA market.TokenB matcher.roundOrderCount
      market.AtoBOrderHashesExcludeNextRound matcher.delayedNumber
  else
    env.MinerOrders market.protocolAddress market.TokenB market.TokenA matcher.roundOrderCount
      market.BtoAOrderHashesExcludeNextRound matcher.delayedNumber

/-- The filled orders of the rings of a batch, in the order in which `match` records
them. -/
def roundFills (batch : List RingSubmitInfo) : List FilledOrder :=
  (batch.map fun r => r.RawRing.Orders).flatten

/-- The fills that `reduceAmountAfterFilled` applies to the entry `k` of one side map:
those with the hash `k` that sell `tokenA` (for the A side) or another token (for the
B side). -/
def fillsOn (tokenA : Address) (aSide : Bool) (k : Hash) (fills : List FilledOrder) :
    List FilledOrder :=
  fills.filter fun f =>
    decide (f.OrderState.RawOrder.Hash = k ∧
      decide (f.OrderState.RawOrder.TokenS = tokenA) = aSide)

/-- The last of the fills that carries the order hash `h`. -/
def lastFillOf (fills : List FilledOrder) (h : Hash) : Option FilledOrder :=
  (fills.filter fun f => decide (f.OrderState.RawOrder.Hash = h)).getLast?

/-- The order hash `h` was matched in the round whose batch is `batch` and is not fully
finished: a ring of the batch fills it, and the order manager does not find the view
that the side map of its last fill holds fully finished. -/
def MatchedUnfinished (env : Collaborators) (market : Market) (batch : List RingSubmitInfo)
    (h : Hash) : Prop :=
  ∃ f os, lastFillOf (roundFills batch) h = some f ∧
    sideGet (sideOf market f.OrderState.RawOrder.TokenS) h = some os ∧
    env.IsOrderFullFinished os = false

/-- The dealt amounts of the side maps of `market` are those of the entries `base`
plus the fills `done`: every entry has the order of its base entry, and its dealt
amounts are the base ones plus `intFromRat` of the amounts of the fills applied to
it. -/
def DealtTracks (base : Bool → Hash → Option OrderState) (tokenA : Address) (market : Market)
    (done : List FilledOrder) : Prop :=
  ∀ aSide k os, sideGet (sideMap market aSide) k = some os →
    ∃ os0, base aSide k = some os0 ∧ os.RawOrder = os0.RawOrder ∧
      os.DealtAmountS = os0.DealtAmountS +
        ((fillsOn tokenA aSide k done).map fun f => intFromRat f.FillAmountS).sum ∧
      os.DealtAmountB = os0.DealtAmountB +
        ((fillsOn tokenA aSide k done).map fun f => intFromRat f.FillAmountB).sum

/-- The local map `matchedOrderHashes` records, for the fills `done`, whether the
order manager finds the view of the last fill of each hash fully finished. -/
def MatchedTracks (env : Collaborators) (market : Market) (matched : GoMap Hash Bool)
    (done : List FilledOrder) : Prop :=
  ∀ h, matched h =
    match lastFillOf done h with
    | none => none
    | some f =>
      (sideGet (sideOf market f.OrderState.RawOrder.TokenS) h).map env.IsOrderFullFinished

/-- Collaborators as in `exEnv`, whose evaluator fills 50 and 25 for the order selling
token 100 and 25 and 50 for the other. -/
def exEnvFifty (orders : List OrderState) : Collaborators :=
  { exEnv orders with
    ComputeRing := fun ring =>
      { ring with
        Orders := ring.Orders.map fun f =>
          if f.OrderState.RawOrder.TokenS = 100 then { f with FillAmountS := 50, FillAmountB := 25 }
          else { f with FillAmountS := 25, FillAmountB := 50 } } }

/-- Scenario S3: a world within a round in which order 1 (order a) has nothing dealt
on chain and one round in flight, recorded by `addMatchedOrder` for the ring 7, with
50 sold and 25 bought. -/
def exWorldInflight : World :=
  { exRoundWorld with
    matcher :=
      addMatchedOrder exRoundWorld.matcher
        { OrderState := exOrderA, FillAmountS := 50, FillAmountB := 25 } 7 }

/-- A world within a round in which order 1 (order a) has one round in flight, recorded
by `addMatchedOrder` for the ring 7, with half a unit sold and half a unit bought. -/
def exWorldHalf : World :=
  { exRoundWorld with
    matcher :=
      addMatchedOrder exRoundWorld.matcher
        { OrderState := exOrderA, FillAmountS := mkRat 1 2, FillAmountB := mkRat 1 2 } 7 }

/-- The variables of `match` when the seed loop starts: the market as
`getOrdersForMatching` leaves it, no matched hash and no ring. -/
def seedStart (env : Collaborators) (w : World) (market : Market) : RoundVars :=
  { w := w
    market := getOrdersForMatching env w.matcher market market.protocolAddress
    matchedOrderHashes := GoMap.empty
    ringStates := [] }

/-- Ring 7 is indexed for order 1, whose rounds, taken at the blocks 1 to 4, are of
the rings 7, 8, 7 and 9. -/
def exRepeated : TimingMatcher :=
  exMatcher
    (GoMap.empty.set 1
      { orderState := exOrder 1
        rounds := [{ round := 1, ringHash := 7, matchedAmountS := 10, matchedAmountB := 5 },
                   { round := 2, ringHash := 8, matchedAmountS := 10, matchedAmountB := 5 },
                   { round := 3, ringHash := 7, matchedAmountS := 10, matchedAmountB := 5 },
                   { round := 4, ringHash := 9, matchedAmountS := 10, matchedAmountB := 5 }] })
    (GoMap.empty.set 7 { ringHash := 7, orderHashes := [1] })

/-- Scenario S5: the ring 7 of the orders 1 and 2 and the ring 8 of the orders 2 and 3
are indexed; order 1 holds a round of ring 7, order 2 one of each ring, and order 3 a
round of ring 8. -/
def exShared : TimingMatcher :=
  exMatcher
    (((GoMap.empty.set 1 { orderState := exOrder 1, rounds := [exRound 7] }).set
      2 { orderState := exOrder 2, rounds := [exRound 7, exRound 8] }).set
      3 { orderState := exOrder 3, rounds := [exRound 8] })
    ((GoMap.empty.set 7 { ringHash := 7, orderHashes := [1, 2] }).set
      8 { ringHash := 8, orderHashes := [2, 3] })

/-! ## The splice loop of `afterSubmit` -/

theorem spliceLoop_clean (h : Hash) :
    ∀ (k idx : Nat) (arr : List RoundState) (len : Nat),
      (∀ s ∈ arr, s.ringHash ≠ h) → idx + k ≤ arr.length →
      spliceLoop h k idx arr len = some (arr, len) := by
  intro k
  induction k with
  | zero => intro idx arr len _ _; rfl
  | succ k ih =>
    intro idx arr len hne hlen
    have hlt : idx < arr.length := by omega
    have hs : arr[idx]? = some arr[idx] := List.getElem?_eq_getElem hlt
    have hmem : arr[idx] ∈ arr := List.getElem_mem hlt
    simp only [spliceLoop, hs, if_neg (hne _ hmem)]
    exact ih (idx + 1) arr len hne (by omega)

theorem spliceLoop_skip (h : Hash) :
    ∀ (k1 k2 idx : Nat) (arr : List RoundState) (len : Nat),
      idx + k1 ≤ arr.length →
      (∀ i, idx ≤ i → i < idx + k1 → ∀ s, arr[i]? = some s → s.ringHash ≠ h) →
      spliceLoop h (k1 + k2) idx arr len = spliceLoop h k2 (idx + k1) arr len := by
  intro k1
  induction k1 with
  | zero => intro k2 idx arr len _ _; simp
  | succ k ih =>
    intro k2 idx arr len hlen hne
    have hlt : idx < arr.length := by omega
    have hs : arr[idx]? = some arr[idx] := List.getElem?_eq_getElem hlt
    have e : k + 1 + k2 = (k + k2) + 1 := by omega
    rw [e]
    simp only [spliceLoop, hs, if_neg (hne idx (le_refl _) (by omega) _ hs)]
    rw [ih k2 (idx + 1) arr len (by omega) (fun i h1 h2 => hne i (by omega) (by omega))]
    congr 1
    omega

theorem spliceArr_at (pre post : List RoundState) (r : RoundState) :
    spliceArr (pre ++ r :: post) (pre.length + (post.length + 1)) pre.length
      = pre ++ post ++ (r :: post).drop post.length := by
  unfold spliceArr
  have e1 : (pre ++ r :: post).take pre.length = pre := by simp
  have e2 : (pre ++ r :: post).drop (pre.length + 1) = post := by
    rw [show pre ++ r :: post = (pre ++ [r]) ++ post by simp]
    rw [List.drop_left' (by simp)]
  have e3 : pre.length + (post.length + 1) - (pre.length + 1) = post.length := by omega
  have e4 : pre.length + (post.length + 1) - 1 = pre.length + post.length := by omega
  rw [e1, e2, e3, e4, List.take_length, List.drop_append]

theorem spliceRounds_one (h : Hash) (pre post : List RoundState) (r : RoundState)
    (hr : r.ringHash = h) (hpre : ∀ s ∈ pre, s.ringHash ≠ h) (hpost : ∀ s ∈ post, s.ringHash ≠ h) :
    spliceRounds h (pre ++ r :: post) = some (pre ++ post) := by
  unfold spliceRounds
  have hlen : (pre ++ r :: post).length = pre.length + (post.length + 1) := by simp
  rw [hlen]
  rw [spliceLoop_skip h pre.length (post.length + 1) 0 _ _ (by simp)]
  · have hs : (pre ++ r :: post)[0 + pre.length]? = some r := by
      rw [Nat.zero_add, List.getElem?_append_right (le_refl _)]; simp
    simp only [spliceLoop, hs, hr, if_true]
    rw [if_pos (by omega)]
    have e : 0 + pre.length = pre.length := by omega
    rw [e, spliceArr_at]
    cases post with
    | nil => simp [spliceLoop]
    | cons p ps =>
      rw [spliceLoop_clean h]
      · have e5 : pre.length + ((p :: ps).length + 1) - 1 = (pre ++ p :: ps).length := by
          simp
        simp only [Option.map_some', e5, List.take_left']
      · intro s hs
        simp only [List.mem_append] at hs
        rcases hs with (hs | hs) | hs
        · exact hpre s hs
        · exact hpost s hs
        · have : s ∈ p :: ps := by
            have := List.mem_of_mem_drop hs
            rcases List.mem_cons.1 this with rfl | h1
            · rw [show (p :: ps).length = ps.length + 1 from rfl, List.drop_succ_cons] at hs
              exact List.mem_of_mem_drop hs
            · exact h1
          exact hpost s this
      · simp; omega
  · intro i _ hi s hs
    have hi' : i < pre.length := by omega
    rw [List.getElem?_append_left hi'] at hs
    exact hpre s (List.getElem?_mem hs)

theorem spliceRounds_none (h : Hash) (rounds : List RoundState)
    (hne : ∀ s ∈ rounds, s.ringHash ≠ h) : spliceRounds h rounds = some rounds := by
  unfold spliceRounds
  rw [spliceLoop_clean h _ _ _ _ hne (by simp)]
  simp

/-! ## One order of a settled ring -/

theorem countRing_zero (h : Hash) (rounds : List RoundState) :
    countRing h rounds = 0 ↔ ∀ s ∈ rounds, s.ringHash ≠ h := by
  simp [countRing, List.countP_eq_zero]

theorem countRing_split (h : Hash) :
    ∀ rounds : List RoundState, countRing h rounds = 1 →
      ∃ pre r post, rounds = pre ++ r :: post ∧ r.ringHash = h ∧
        (∀ s ∈ pre, s.ringHash ≠ h) ∧ (∀ s ∈ post, s.ringHash ≠ h) := by
  intro rounds
  induction rounds with
  | nil => intro hc; simp [countRing] at hc
  | cons a l ih =>
    intro hc
    by_cases ha : a.ringHash = h
    · refine ⟨[], a, l, rfl, ha, by simp, ?_⟩
      have : countRing h l = 0 := by
        simp only [countRing, List.countP_cons, ha, decide_True, if_true] at hc
        simpa [countRing] using hc
      exact (countRing_zero h l).1 this
    · have : countRing h l = 1 := by
        simp only [countRing, List.countP_cons, ha, decide_False] at hc
        simpa [countRing] using hc
      obtain ⟨pre, r, post, e, hr, hpre, hpost⟩ := ih this
      refine ⟨a :: pre, r, post, by simp [e], hr, ?_, hpost⟩
      intro s hs
      rcases List.mem_cons.1 hs with rfl | hs
      · exact ha
      · exact hpre s hs

theorem afterSubmitOrder_frame (h : Hash) (m m1 : TimingMatcher) (o : Hash)
    (hstep : afterSubmitOrder h m o = some m1) :
    m1.MinedRings = m.MinedRings ∧ ∀ x, x ≠ o → m1.MatchedOrders x = m.MatchedOrders x := by
  unfold afterSubmitOrder at hstep
  cases hm : m.MatchedOrders o with
  | none =>
    rw [hm] at hstep
    cases hstep
    exact ⟨rfl, fun _ _ => rfl⟩
  | some st =>
    rw [hm] at hstep
    by_cases hl : st.rounds.length ≤ 1
    · simp only [hl, if_true, Option.some.injEq] at hstep
      subst hstep
      exact ⟨rfl, fun x hx => by simp [GoMap.delete, hx]⟩
    · simp only [hl, if_false, Option.map_eq_some'] at hstep
      obtain ⟨r1, _, rfl⟩ := hstep
      exact ⟨rfl, fun x hx => by simp [GoMap.set, hx]⟩

/-- Entry of an order after the round for the ring was taken out of `pre ++ r :: post`. -/
theorem afterSubmitOrder_exact (h : Hash) (m : TimingMatcher) (o : Hash) (st : OrderMatchState)
    (pre post : List RoundState) (r : RoundState) (hm : m.MatchedOrders o = some st)
    (hst : st.rounds = pre ++ r :: post) (hr : r.ringHash = h)
    (hpre : ∀ s ∈ pre, s.ringHash ≠ h) (hpost : ∀ s ∈ post, s.ringHash ≠ h) :
    ∃ m1, afterSubmitOrder h m o = some m1 ∧
      m1.MatchedOrders o =
        if pre ++ post = [] then none else some { st with rounds := pre ++ post } := by
  unfold afterSubmitOrder
  rw [hm]
  by_cases hl : st.rounds.length ≤ 1
  · have hnil : pre ++ post = [] := by
      rw [hst] at hl
      simp at hl
      have : pre.length = 0 ∧ post.length = 0 := by omega
      simp [List.length_eq_zero.1 this.1, List.length_eq_zero.1 this.2]
    simp only [hl, if_true, hnil]
    exact ⟨_, rfl, by simp [GoMap.delete]⟩
  · have hnn : pre ++ post ≠ [] := by
      intro hnil
      apply hl
      have h1 := List.append_eq_nil.1 hnil
      rw [hst, h1.1, h1.2]
      simp
    simp only []
    rw [if_neg hl, if_neg hnn, hst, spliceRounds_one h pre post r hr hpre hpost]
    exact ⟨_, rfl, by simp [GoMap.set]⟩

theorem roundsOf_eq_of_entry (m m1 : TimingMatcher) (x : Hash)
    (e : m1.MatchedOrders x = m.MatchedOrders x) : roundsOf m1 x = roundsOf m x := by
  simp [roundsOf, e]

/-- One order handled by `afterSubmit`, when it holds the ring at most once: the step
completes and leaves the order without a round of the ring. -/
theorem afterSubmitOrder_once (h : Hash) (m : TimingMatcher) (o : Hash)
    (hc : countRing h (roundsOf m o) ≤ 1) :
    ∃ m1, afterSubmitOrder h m o = some m1 ∧ ∀ s ∈ roundsOf m1 o, s.ringHash ≠ h := by
  cases hm : m.MatchedOrders o with
  | none =>
    refine ⟨m, by simp [afterSubmitOrder, hm], ?_⟩
    simp [roundsOf, hm]
  | some st =>
    have hro : roundsOf m o = st.rounds := by simp [roundsOf, hm]
    rw [hro] at hc
    rcases Nat.lt_or_ge (countRing h st.rounds) 1 with h0 | h1
    · have hz : countRing h st.rounds = 0 := by omega
      have hclean := (countRing_zero h st.rounds).1 hz
      by_cases hl : st.rounds.length ≤ 1
      · refine ⟨{ m with MatchedOrders := m.MatchedOrders.delete o }, ?_, ?_⟩
        · simp [afterSubmitOrder, hm, hl]
        · simp [roundsOf, GoMap.delete]
      · refine ⟨{ m with MatchedOrders := m.MatchedOrders.set o { st with rounds := st.rounds } },
          ?_, ?_⟩
        · simp [afterSubmitOrder, hm, hl, spliceRounds_none h _ hclean]
        · simpa [roundsOf, GoMap.set] using hclean
    · have hone : countRing h st.rounds = 1 := by omega
      obtain ⟨pre, r, post, e, hr, hpre, hpost⟩ := countRing_split h _ hone
      obtain ⟨m1, hstep, hent⟩ := afterSubmitOrder_exact h m o st pre post r hm e hr hpre hpost
      refine ⟨m1, hstep, ?_⟩
      intro s hs
      by_cases hnil : pre ++ post = []
      · simp [roundsOf, hent, hnil] at hs
      · simp only [roundsOf, hent, hnil, if_false, List.mem_append] at hs
        rcases hs with hs | hs
        · exact hpre s hs
        · exact hpost s hs

/-! ## `afterSubmit` on the whole index entry -/

theorem foldlM_afterSubmitOrder_mined (h : Hash) :
    ∀ (l : List Hash) (m m1 : TimingMatcher),
      l.foldlM (afterSubmitOrder h) m = some m1 → m1.MinedRings = m.MinedRings := by
  intro l
  induction l with
  | nil => intro m m1 hf; simp at hf; rw [hf]
  | cons o l ih =>
    intro m m1 hf
    simp only [List.foldlM_cons, Option.bind_eq_bind, Option.bind_eq_some] at hf
    obtain ⟨m2, h1, h2⟩ := hf
    rw [ih m2 m1 h2, (afterSubmitOrder_frame h m m2 o h1).1]

theorem foldlM_afterSubmitOrder_clears (h : Hash) :
    ∀ (l : List Hash) (m : TimingMatcher),
      (∀ o ∈ l, countRing h (roundsOf m o) ≤ 1) →
      ∃ m1, l.foldlM (afterSubmitOrder h) m = some m1 ∧
        ∀ x, (x ∈ l ∨ ∀ s ∈ roundsOf m x, s.ringHash ≠ h) →
          ∀ s ∈ roundsOf m1 x, s.ringHash ≠ h := by
  intro l
  induction l with
  | nil =>
    intro m _
    refine ⟨m, rfl, ?_⟩
    intro x hx
    rcases hx with hx | hx
    · simp at hx
    · exact hx
  | cons o l ih =>
    intro m hc
    obtain ⟨m2, hstep, hclean⟩ := afterSubmitOrder_once h m o (hc o (List.mem_cons_self _ _))
    have hframe := (afterSubmitOrder_frame h m m2 o hstep).2
    have hc2 : ∀ x ∈ l, countRing h (roundsOf m2 x) ≤ 1 := by
      intro x hx
      by_cases hxo : x = o
      · subst hxo
        rw [(countRing_zero h _).2 hclean]
        omega
      · rw [roundsOf_eq_of_entry m m2 x (hframe x hxo)]
        exact hc x (List.mem_cons_of_mem _ hx)
    obtain ⟨m1, hfold, hres⟩ := ih m2 hc2
    refine ⟨m1, by simp [List.foldlM_cons, hstep, hfold], ?_⟩
    intro x hx
    apply hres x
    by_cases hxo : x = o
    · subst hxo
      exact Or.inr hclean
    · rcases hx with hx | hx
      · rcases List.mem_cons.1 hx with hx | hx
        · exact absurd hx hxo
        · exact Or.inl hx
      · right
        rw [roundsOf_eq_of_entry m m2 x (hframe x hxo)]
        exact hx

theorem foldlM_afterSubmitOrder_exact (h : Hash) :
    ∀ (l : List Hash) (m : TimingMatcher), l.Nodup →
      (∀ o ∈ l, ∀ st, m.MatchedOrders o = some st → countRing h st.rounds = 1) →
      ∃ m1, l.foldlM (afterSubmitOrder h) m = some m1 ∧
        (∀ o ∈ l, ∀ st, m.MatchedOrders o = some st →
          ∃ pre r post, st.rounds = pre ++ r :: post ∧ r.ringHash = h ∧
            (∀ s ∈ pre, s.ringHash ≠ h) ∧ (∀ s ∈ post, s.ringHash ≠ h) ∧
            m1.MatchedOrders o =
              if pre ++ post = [] then none else some { st with rounds := pre ++ post }) ∧
        (∀ o ∈ l, m.MatchedOrders o = none → m1.MatchedOrders o = none) ∧
        (∀ o, o ∉ l → m1.MatchedOrders o = m.MatchedOrders o) := by
  intro l
  induction l with
  | nil =>
    intro m _ _
    exact ⟨m, rfl, by simp, by simp, fun _ _ => rfl⟩
  | cons o l ih =>
    intro m hnd hc
    have hol : o ∉ l := (List.nodup_cons.1 hnd).1
    have hstep : ∃ m2, afterSubmitOrder h m o = some m2 ∧
        (∀ st, m.MatchedOrders o = some st →
          ∃ pre r post, st.rounds = pre ++ r :: post ∧ r.ringHash = h ∧
            (∀ s ∈ pre, s.ringHash ≠ h) ∧ (∀ s ∈ post, s.ringHash ≠ h) ∧
            m2.MatchedOrders o =
              if pre ++ post = [] then none else some { st with rounds := pre ++ post }) ∧
        (m.MatchedOrders o = none → m2.MatchedOrders o = none) := by
      cases hm : m.MatchedOrders o with
      | none =>
        exact ⟨m, by simp [afterSubmitOrder, hm], by simp, fun _ => hm⟩
      | some st =>
        obtain ⟨pre, r, post, e, hr, hpre, hpost⟩ :=
          countRing_split h _ (hc o (List.mem_cons_self _ _) st hm)
        obtain ⟨m2, hs, hent⟩ := afterSubmitOrder_exact h m o st pre post r hm e hr hpre hpost
        refine ⟨m2, hs, ?_, by simp⟩
        intro st1 hst1
        cases hst1
        exact ⟨pre, r, post, e, hr, hpre, hpost, hent⟩
    obtain ⟨m2, hs, hsome, hnone⟩ := hstep
    have hframe := (afterSubmitOrder_frame h m m2 o hs).2
    have hne : ∀ x ∈ l, x ≠ o := fun x hx hxo => hol (hxo ▸ hx)
    obtain ⟨m1, hfold, h1, h2, h3⟩ := ih m2 (List.nodup_cons.1 hnd).2 (by
      intro x hx st hst
      rw [hframe x (hne x hx)] at hst
      exact hc x (List.mem_cons_of_mem _ hx) st hst)
    refine ⟨m1, by simp [List.foldlM_cons, hs, hfold], ?_, ?_, ?_⟩
    · intro x hx st hst
      rcases List.mem_cons.1 hx with hx | hx
      · subst hx
        rw [h3 x hol]
        exact hsome st hst
      · exact h1 x hx st (by rw [hframe x (hne x hx)]; exact hst)
    · intro x hx hst
      rcases List.mem_cons.1 hx with hx | hx
      · subst hx
        rw [h3 x hol]
        exact hnone hst
      · exact h2 x hx (by rw [hframe x (hne x hx)]; exact hst)
    · intro x hx
      have hxo : x ≠ o := fun e => hx (e ▸ List.mem_cons_self _ _)
      have hxl : x ∉ l := fun e => hx (List.mem_cons_of_mem _ e)
      rw [h3 x hxl, hframe x hxo]

/-! ## C2: what `afterSubmit` removes -/

/-- C2 as stated fails: in the state `exRepeated` the ring 7 is indexed and lists
order 1, whose rounds are of the rings 7, 8, 7 and 9; the handler completes and leaves
the rounds of the rings 8 and 9: two rounds of ring 7 were taken out, not exactly
one. -/
theorem afterSubmit_removes_two_rounds :
    ∃ ring m1, exRepeated.MinedRings 7 = some ring ∧ ring.orderHashes = [1] ∧
      (roundsOf exRepeated 1).map (fun s => (s.round, s.ringHash)) =
        [(1, 7), (2, 8), (3, 7), (4, 9)] ∧
      afterSubmit exRepeated 7 = some (m1, none) ∧
      (roundsOf m1 1).map (fun s => (s.round, s.ringHash)) = [(2, 8), (4, 9)] ∧
      ¬ ∃ pre s post, roundsOf exRepeated 1 = pre ++ s :: post ∧ s.ringHash = 7 ∧
          roundsOf m1 1 = pre ++ post := by
  have hev : (afterSubmit exRepeated 7).map
      (fun r => (r.2.isNone, (roundsOf r.1 1).map fun s => (s.round, s.ringHash)))
        = some (true, [(2, 8), (4, 9)]) := by decide
  simp only [Option.map_eq_some', Prod.mk.injEq] at hev
  obtain ⟨⟨m1, err⟩, hr, herr, hrounds⟩ := hev
  have herr1 : err = none := by
    cases err with
    | none => rfl
    | some e => cases herr
  subst herr1
  refine ⟨{ ringHash := 7, orderHashes := [1] }, m1, rfl, rfl, by decide, hr, hrounds, ?_⟩
  rintro ⟨pre, s, post, e, _, e1⟩
  have l1 := congrArg List.length e
  have l2 := congrArg List.length (congrArg (List.map fun s => (s.round, s.ringHash)) e1)
  have l0 : (roundsOf exRepeated 1).length = 4 := by decide
  rw [hrounds] at l2
  simp only [List.length_map, List.length_append, List.length_cons, List.length_nil] at l1 l2
  omega

/-- C2, amended: when the ring `h` is indexed, the index entry lists no order hash
twice and every listed order that has an entry holds exactly one round of `h`,
`afterSubmit` completes without error, takes `h` out of `MinedRings` and nothing
else, takes that one round out of the rounds of each listed order and keeps the
other rounds in their order, erases the entry exactly when no round is left, and
leaves every other entry of `MatchedOrders` as it was. -/
theorem afterSubmit_removes_one_round (m : TimingMatcher) (h : Hash) (ring : minedRing)
    (hidx : m.MinedRings h = some ring) (hnodup : ring.orderHashes.Nodup)
    (hone : ∀ o ∈ ring.orderHashes, ∀ st, m.MatchedOrders o = some st →
      countRing h st.rounds = 1) :
    ∃ m1, afterSubmit m h = some (m1, none) ∧
      m1.MinedRings = m.MinedRings.delete h ∧
      (∀ o ∈ ring.orderHashes, ∀ st, m.MatchedOrders o = some st →
        ∃ pre r post, st.rounds = pre ++ r :: post ∧ r.ringHash = h ∧
          (∀ s ∈ pre, s.ringHash ≠ h) ∧ (∀ s ∈ post, s.ringHash ≠ h) ∧
          m1.MatchedOrders o =
            if pre ++ post = [] then none else some { st with rounds := pre ++ post }) ∧
      (∀ o ∈ ring.orderHashes, m.MatchedOrders o = none → m1.MatchedOrders o = none) ∧
      (∀ o, o ∉ ring.orderHashes → m1.MatchedOrders o = m.MatchedOrders o) := by
  obtain ⟨m1, hfold, h1, h2, h3⟩ :=
    foldlM_afterSubmitOrder_exact h ring.orderHashes
      { m with MinedRings := m.MinedRings.delete h } hnodup hone
  exact ⟨m1, by simp [afterSubmit, hidx, hfold],
    foldlM_afterSubmitOrder_mined h _ _ _ hfold, h1, h2, h3⟩

theorem afterSubmit_removes_one_round_witness :
    ∃ m1, afterSubmit exIndexed 7 = some (m1, none) ∧
      m1.MinedRings = exIndexed.MinedRings.delete 7 ∧
      (∀ o ∈ [1, 2], ∀ st, exIndexed.MatchedOrders o = some st →
        ∃ pre r post, st.rounds = pre ++ r :: post ∧ r.ringHash = 7 ∧
          (∀ s ∈ pre, s.ringHash ≠ 7) ∧ (∀ s ∈ post, s.ringHash ≠ 7) ∧
          m1.MatchedOrders o =
            if pre ++ post = [] then none else some { st with rounds := pre ++ post }) ∧
      (∀ o ∈ [1, 2], exIndexed.MatchedOrders o = none → m1.MatchedOrders o = none) ∧
      (∀ o, o ∉ [1, 2] → m1.MatchedOrders o = exIndexed.MatchedOrders o) :=
  afterSubmit_removes_one_round exIndexed 7 { ringHash := 7, orderHashes := [1, 2] } rfl
    (by decide)
    (by
      intro o ho st hst
      simp only [List.mem_cons, List.mem_singleton, List.not_mem_nil, or_false] at ho
      rcases ho with rfl | rfl
      · have e : exIndexed.MatchedOrders 1
            = some { orderState := exOrder 1, rounds := [exRound 8, exRound 7, exRound 9] } := rfl
        rw [e] at hst
        cases hst
        decide
      · have e : exIndexed.MatchedOrders 2
            = some { orderState := exOrder 2, rounds := [exRound 7] } := rfl
        rw [e] at hst
        cases hst
        decide)

/-! ## C4: `addMatchedOrder` appends one round -/

/-- C4: after `addMatchedOrder(f, h)` the rounds stored under the hash of `f` are the
previous rounds (none when the hash had no entry) followed by one round with the
current `lastBlockNumber`, the ring hash `h` and the two fill amounts of `f`; the
entry of every other order hash is as before. -/
theorem addMatchedOrder_appends (m : TimingMatcher) (f : FilledOrder) (h : Hash) :
    roundsOf (addMatchedOrder m f h) f.OrderState.RawOrder.Hash =
        roundsOf m f.OrderState.RawOrder.Hash ++
          [{ round := m.lastBlockNumber, ringHash := h, matchedAmountS := f.FillAmountS,
             matchedAmountB := f.FillAmountB }] ∧
      ∀ o, o ≠ f.OrderState.RawOrder.Hash →
        (addMatchedOrder m f h).MatchedOrders o = m.MatchedOrders o := by
  constructor
  · cases hm : m.MatchedOrders f.OrderState.RawOrder.Hash <;>
      simp [roundsOf, addMatchedOrder, GoMap.set, hm]
  · intro o ho
    simp [addMatchedOrder, GoMap.set, ho]

theorem addMatchedOrder_appends_witness :
    roundsOf (addMatchedOrder exUnindexed exFill 9) 1 =
        roundsOf exUnindexed 1 ++
          [{ round := 1, ringHash := 9, matchedAmountS := 90, matchedAmountB := 45 }] ∧
      (addMatchedOrder exUnindexed exFill 9).MatchedOrders 2 = exUnindexed.MatchedOrders 2 :=
  ⟨(addMatchedOrder_appends exUnindexed exFill 9).1,
    (addMatchedOrder_appends exUnindexed exFill 9).2 2 (by decide)⟩

/-! ## C9: unknown ring hashes and re-delivery -/

theorem afterSubmit_of_unknown (m : TimingMatcher) (h : Hash) (hm : m.MinedRings h = none) :
    afterSubmit m h = some (m, none) := by
  simp [afterSubmit, hm]

theorem afterSubmit_result (m : TimingMatcher) (h : Hash) (r : TimingMatcher × Option GoError)
    (hr : afterSubmit m h = some r) : r.1.MinedRings h = none ∧ r.2 = none := by
  unfold afterSubmit at hr
  cases hm : m.MinedRings h with
  | none =>
    rw [hm] at hr
    cases hr
    exact ⟨hm, rfl⟩
  | some ring =>
    rw [hm] at hr
    simp only [Option.map_eq_some'] at hr
    obtain ⟨m1, hfold, rfl⟩ := hr
    refine ⟨?_, rfl⟩
    rw [foldlM_afterSubmitOrder_mined h _ _ _ hfold]
    simp [GoMap.delete]

/-- C9: for a ring hash that is not a key of `MinedRings`, `afterSubmit` returns no
error and leaves the whole state as it was; and handling a ring hash twice comes to
the same as handling it once, whatever the state. -/
theorem afterSubmit_unknown_and_idempotent :
    (∀ (m : TimingMatcher) (h : Hash), m.MinedRings h = none →
        afterSubmit m h = some (m, none)) ∧
      ∀ (m : TimingMatcher) (h : Hash),
        ((afterSubmit m h).bind fun r => afterSubmit r.1 h) = afterSubmit m h := by
  refine ⟨afterSubmit_of_unknown, ?_⟩
  intro m h
  cases hr : afterSubmit m h with
  | none => rfl
  | some r =>
    have hgone := afterSubmit_result m h r hr
    obtain ⟨r1, r2⟩ := r
    simp only at hgone
    show afterSubmit r1 h = some (r1, r2)
    rw [afterSubmit_of_unknown r1 h hgone.1, hgone.2]

theorem afterSubmit_unknown_and_idempotent_witness :
    afterSubmit exUnindexed 7 = some (exUnindexed, none) ∧
      ((afterSubmit exIndexed 7).bind fun r => afterSubmit r.1 7) = afterSubmit exIndexed 7 :=
  ⟨afterSubmit_unknown_and_idempotent.1 exUnindexed 7 rfl,
    afterSubmit_unknown_and_idempotent.2 exIndexed 7⟩

/-! ## Dealt amounts of a view -/

theorem foldl_inflight (rounds : List RoundState) :
    ∀ os : OrderState,
      let r := rounds.foldl
        (fun (orderState : OrderState) (matchedRound : RoundState) =>
          { orderState with
            DealtAmountB := orderState.DealtAmountB + intFromRat matchedRound.matchedAmountB
            DealtAmountS := orderState.DealtAmountS + intFromRat matchedRound.matchedAmountS })
        os
      r.RawOrder = os.RawOrder ∧
        r.DealtAmountS = os.DealtAmountS + (rounds.map fun s => intFromRat s.matchedAmountS).sum ∧
        r.DealtAmountB = os.DealtAmountB + (rounds.map fun s => intFromRat s.matchedAmountB).sum := by
  induction rounds with
  | nil => intro os; simp
  | cons a l ih =>
    intro os
    have := ih { os with
      DealtAmountB := os.DealtAmountB + intFromRat a.matchedAmountB
      DealtAmountS := os.DealtAmountS + intFromRat a.matchedAmountS }
    simp only [List.foldl_cons, List.map_cons, List.sum_cons]
    refine ⟨this.1, ?_, ?_⟩
    · rw [this.2.1]; ring
    · rw [this.2.2]; ring

theorem reduceRemainedAmountBeforeMatch_spec (m : TimingMatcher) (os : OrderState) :
    (reduceRemainedAmountBeforeMatch m os).RawOrder = os.RawOrder ∧
      (reduceRemainedAmountBeforeMatch m os).DealtAmountS =
        os.DealtAmountS +
          ((roundsOf m os.RawOrder.Hash).map fun s => intFromRat s.matchedAmountS).sum ∧
      (reduceRemainedAmountBeforeMatch m os).DealtAmountB =
        os.DealtAmountB +
          ((roundsOf m os.RawOrder.Hash).map fun s => intFromRat s.matchedAmountB).sum := by
  unfold reduceRemainedAmountBeforeMatch roundsOf
  cases hm : m.MatchedOrders os.RawOrder.Hash with
  | none => simp
  | some st => exact foldl_inflight st.rounds os

theorem sideGet_sideSet_self (side : List (Hash × OrderState)) (k : Hash) (v : OrderState) :
    sideGet (sideSet side k v) k = some v := by
  induction side with
  | nil => simp [sideSet, sideGet]
  | cons p l ih =>
    obtain ⟨k1, v1⟩ := p
    by_cases hk : k1 = k
    · simp [sideSet, sideGet, hk]
    · simp [sideSet, sideGet, hk, ih]

/-- One fill of an order that the selected side map holds. -/
theorem reduceAmountAfterFilled_spec (market : Market) (f : FilledOrder) (os : OrderState)
    (hget : sideGet (sideOf market f.OrderState.RawOrder.TokenS) f.OrderState.RawOrder.Hash
      = some os) :
    ∃ market1 os1, reduceAmountAfterFilled market f = some (market1, os1) ∧
      market1.TokenA = market.TokenA ∧
      sideGet (sideOf market1 f.OrderState.RawOrder.TokenS) f.OrderState.RawOrder.Hash
        = some os1 ∧
      os1.RawOrder = os.RawOrder ∧
      os1.DealtAmountS = os.DealtAmountS + intFromRat f.FillAmountS ∧
      os1.DealtAmountB = os.DealtAmountB + intFromRat f.FillAmountB := by
  unfold sideOf at hget
  unfold reduceAmountAfterFilled
  by_cases ht : f.OrderState.RawOrder.TokenS = market.TokenA
  · simp only [ht, if_true] at hget ⊢
    rw [hget]
    exact ⟨_, _, rfl, rfl, by simp [sideOf, sideGet_sideSet_self], rfl, rfl, rfl⟩
  · simp only [ht, if_false] at hget ⊢
    rw [hget]
    exact ⟨_, _, rfl, rfl, by simp [sideOf, ht, sideGet_sideSet_self], rfl, rfl, rfl⟩

theorem intFromRat_of_den_one (q : ℚ) (h : q.den = 1) : ((intFromRat q : Int) : ℚ) = q := by
  unfold intFromRat
  rw [h]
  have : q.num.ediv ((1 : Nat) : Int) = q.num := by
    show q.num / ((1 : Nat) : Int) = q.num
    simp
  rw [this]
  exact Rat.coe_int_num_of_den_eq_one h

theorem sum_intFromRat_of_den_one {α : Type} (g : α → ℚ) :
    ∀ l : List α, (∀ x ∈ l, (g x).den = 1) →
      (((l.map fun x => intFromRat (g x)).sum : Int) : ℚ) = (l.map g).sum := by
  intro l
  induction l with
  | nil => intro _; simp
  | cons a l ih =>
    intro h
    simp only [List.map_cons, List.sum_cons, Int.cast_add]
    rw [ih (fun x hx => h x (List.mem_cons_of_mem _ hx)),
      intFromRat_of_den_one _ (h a (List.mem_cons_self _ _))]

/-! ## The balance cache -/

/-- One call of `getAccountBalance` within a round: it completes, keeps the cache
allocated and what it holds, and either answers from the cache without calling the
account manager, or the pair was not cached and the account manager is called once,
a successful answer being cached. -/
theorem getAccountBalance_step (env : Collaborators) (w : World) (a t : Address)
    (cache : GoMap Address Account) (hc : w.matcher.accounts = some cache) :
    ∃ w1 res cache1, getAccountBalance env w a t = some (w1, res) ∧
      w1.matcher.accounts = some cache1 ∧
      (∀ p, Cached w p → Cached w1 p) ∧
      ((Cached w (a, t) ∧ w1.amCalls = w.amCalls) ∨
        (¬ Cached w (a, t) ∧ w1.amCalls = w.amCalls ++ [(a, t)] ∧
          ((∃ v, env.GetBalanceByTokenAddress w.amCalls a t = .ok v) → Cached w1 (a, t)))) := by
  unfold getAccountBalance
  rw [hc]
  dsimp only
  cases hacc : cache a with
  | none =>
    simp only [GoMap.empty]
    cases hq : env.GetBalanceByTokenAddress w.amCalls a t with
    | error err =>
      refine ⟨_, _, _, rfl, rfl, ?_, Or.inr ⟨?_, rfl, ?_⟩⟩
      · rintro p ⟨accounts, account, b, h1, h2, h3⟩
        rw [hc] at h1
        cases h1
        have hpa : p.1 ≠ a := by
          intro e
          rw [e, hacc] at h2
          cases h2
        exact ⟨_, account, b, rfl, by simp [GoMap.set, hpa, h2], h3⟩
      · rintro ⟨accounts, account, b, h1, h2, _⟩
        rw [hc] at h1
        cases h1
        simp only at h2
        rw [hacc] at h2
        cases h2
      · rintro ⟨v, hv⟩
        cases hv
    | ok v =>
      obtain ⟨balance, allowance⟩ := v
      refine ⟨_, _, _, rfl, rfl, ?_, Or.inr ⟨?_, rfl, ?_⟩⟩
      · rintro p ⟨accounts, account, b, h1, h2, h3⟩
        rw [hc] at h1
        cases h1
        have hpa : p.1 ≠ a := by
          intro e
          rw [e, hacc] at h2
          cases h2
        exact ⟨_, account, b, rfl, by simp [GoMap.set, hpa, h2], h3⟩
      · rintro ⟨accounts, account, b, h1, h2, _⟩
        rw [hc] at h1
        cases h1
        simp only at h2
        rw [hacc] at h2
        cases h2
      · intro _
        exact ⟨_, { Tokens := GoMap.empty.set t { Allowance := balance, Balance := allowance } },
          { Allowance := balance, Balance := allowance }, rfl, by simp [GoMap.set],
          by simp [GoMap.set]⟩
  | some account0 =>
    simp only
    cases htok : account0.Tokens t with
    | some b0 =>
      refine ⟨_, _, _, rfl, rfl, ?_, Or.inl ⟨⟨cache, account0, b0, hc, hacc, htok⟩, rfl⟩⟩
      rintro p ⟨accounts, account, b, h1, h2, h3⟩
      rw [hc] at h1
      cases h1
      exact ⟨_, account, b, rfl, h2, h3⟩
    | none =>
      simp only
      have hnot : ¬ Cached w (a, t) := by
        rintro ⟨accounts, account, b, h1, h2, h3⟩
        rw [hc] at h1
        cases h1
        simp only at h2 h3
        rw [hacc] at h2
        cases h2
        rw [htok] at h3
        cases h3
      cases hq : env.GetBalanceByTokenAddress w.amCalls a t with
      | error err =>
        refine ⟨_, _, _, rfl, rfl, ?_, Or.inr ⟨hnot, rfl, ?_⟩⟩
        · rintro p ⟨accounts, account, b, h1, h2, h3⟩
          rw [hc] at h1
          cases h1
          exact ⟨_, account, b, rfl, h2, h3⟩
        · rintro ⟨v, hv⟩
          cases hv
      | ok v =>
        obtain ⟨balance, allowance⟩ := v
        refine ⟨_, _, _, rfl, rfl, ?_, Or.inr ⟨hnot, rfl, ?_⟩⟩
        · rintro p ⟨accounts, account, b, h1, h2, h3⟩
          rw [hc] at h1
          cases h1
          by_cases hpa : p.1 = a
          · rw [hpa, hacc] at h2
            cases h2
            by_cases hpt : p.2 = t
            · exact ⟨_, { Tokens := account0.Tokens.set t { Allowance := balance, Balance := allowance } },
                { Allowance := balance, Balance := allowance }, rfl, by simp [GoMap.set, hpa],
                by simp [GoMap.set, hpt]⟩
            · exact ⟨_, { Tokens := account0.Tokens.set t { Allowance := balance, Balance := allowance } },
                b, rfl, by simp [GoMap.set, hpa], by simp [GoMap.set, hpt, h3]⟩
          · exact ⟨_, account, b, rfl, by simp [GoMap.set, hpa, h2], h3⟩
        · intro _
          exact ⟨_, { Tokens := account0.Tokens.set t { Allowance := balance, Balance := allowance } },
            { Allowance := balance, Balance := allowance }, rfl, by simp [GoMap.set],
            by simp [GoMap.set]⟩

theorem queryAll_calls (env : Collaborators) (base : List (Address × Address)) :
    ∀ (queries : List (Address × Address)) (w : World) (calls : List (Address × Address))
      (cache : GoMap Address Account),
      w.matcher.accounts = some cache → w.amCalls = base ++ calls →
      (∀ pre p post, calls = pre ++ p :: post →
        (∃ v, env.GetBalanceByTokenAddress (base ++ pre) p.1 p.2 = .ok v) →
        Cached w p ∧ p ∉ post) →
      ∃ w1 calls1, queryAll env w queries = some w1 ∧ w1.amCalls = base ++ calls1 ∧
        ∀ pre p post, calls1 = pre ++ p :: post →
          (∃ v, env.GetBalanceByTokenAddress (base ++ pre) p.1 p.2 = .ok v) →
          Cached w1 p ∧ p ∉ post := by
  intro queries
  induction queries with
  | nil =>
    intro w calls cache _ hcalls hgood
    exact ⟨w, calls, rfl, hcalls, hgood⟩
  | cons q rest ih =>
    intro w calls cache hc hcalls hgood
    obtain ⟨w1, res, cache1, hstep, hc1, hmono, hcase⟩ :=
      getAccountBalance_step env w q.1 q.2 cache hc
    have hq : (q.1, q.2) = q := rfl
    rw [hq] at hcase
    have hunf : queryAll env w (q :: rest) = queryAll env w1 rest := by
      simp [queryAll, List.foldlM_cons, hstep]
    rw [hunf]
    rcases hcase with ⟨_, hsame⟩ | ⟨hnot, happ, hsucc⟩
    · apply ih w1 calls cache1 hc1 (by rw [hsame, hcalls])
      intro pre p post e hs
      exact ⟨hmono p (hgood pre p post e hs).1, (hgood pre p post e hs).2⟩
    · apply ih w1 (calls ++ [q]) cache1 hc1 (by rw [happ, hcalls, List.append_assoc])
      intro pre p post e hs
      rcases List.eq_nil_or_concat post with hpost | ⟨post1, x, hpost⟩
      · subst hpost
        have e1 : calls ++ [q] = pre ++ [p] := e
        obtain ⟨e2, e3⟩ := List.append_inj' e1 rfl
        have e4 : q = p := by simpa using e3
        subst e2
        subst e4
        refine ⟨hsucc ?_, by simp⟩
        rw [hcalls]
        exact hs
      · subst hpost
        have e1 : calls ++ [q] = (pre ++ p :: post1) ++ [x] := by
          rw [e]; simp
        obtain ⟨e2, e3⟩ := List.append_inj' e1 rfl
        have e4 : q = x := by simpa using e3
        subst e4
        obtain ⟨hcp, hnp⟩ := hgood pre p post1 e2 hs
        refine ⟨hmono p hcp, ?_⟩
        intro hmem
        rw [List.concat_eq_append] at hmem
        rcases List.mem_append.1 hmem with hm | hm
        · exact hnp hm
        · have : p = q := by simpa using hm
          exact hnot (this ▸ hcp)

theorem nodup_of_not_mem_later {α : Type} :
    ∀ l : List α, (∀ pre p post, l = pre ++ p :: post → p ∉ post) → l.Nodup := by
  intro l
  induction l with
  | nil => intro _; exact List.nodup_nil
  | cons a l ih =>
    intro h
    refine List.nodup_cons.2 ⟨h [] a l rfl, ih ?_⟩
    intro pre p post e
    exact h (a :: pre) p post (by rw [e]; rfl)

/-- C10 as stated fails: with an account manager that fails, two calls of
`getAccountBalance` for the pair (1, 2) in one round invoke `GetBalanceByTokenAddress`
twice for that pair. -/
theorem failed_query_is_repeated :
    (queryAll exEnvFailing exRoundWorld [(1, 2), (1, 2)]).map (fun w => w.amCalls)
      = some (exRoundWorld.amCalls ++ [(1, 2), (1, 2)]) := by
  decide

/-- C10, amended: for every sequence of `getAccountBalance` calls made within one
round (the cache is allocated) and every behaviour of the account manager, all the
calls complete, and once `GetBalanceByTokenAddress` has returned without error for a
pair `(owner, token)` it is not invoked again for that pair; so it is invoked at most
once for each distinct pair when it never fails. -/
theorem account_manager_called_once_per_success (env : Collaborators) (w : World)
    (queries : List (Address × Address)) (cache : GoMap Address Account)
    (hc : w.matcher.accounts = some cache) :
    ∃ w1 calls, queryAll env w queries = some w1 ∧ w1.amCalls = w.amCalls ++ calls ∧
      (∀ pre p post, calls = pre ++ p :: post →
        (∃ v, env.GetBalanceByTokenAddress (w.amCalls ++ pre) p.1 p.2 = .ok v) → p ∉ post) ∧
      ((∀ hist a t, ∃ v, env.GetBalanceByTokenAddress hist a t = .ok v) → calls.Nodup) := by
  obtain ⟨w1, calls, hrun, hcalls, hgood⟩ :=
    queryAll_calls env w.amCalls queries w [] cache hc (by simp) (by
      intro pre p post e
      simp at e)
  refine ⟨w1, calls, hrun, hcalls, fun pre p post e hs => (hgood pre p post e hs).2, ?_⟩
  intro hall
  apply nodup_of_not_mem_later
  intro pre p post e
  exact (hgood pre p post e (hall _ _ _)).2

/-- With ample balances, the queries (11, 300), (11, 100), (11, 300) of one round call
the account manager for (11, 300) and (11, 100) once each. -/
theorem account_manager_called_once_per_success_witness :
    ∃ w1 calls, queryAll (exEnv []) exRoundWorld [(11, 300), (11, 100), (11, 300)] = some w1 ∧
      w1.amCalls = exRoundWorld.amCalls ++ calls ∧ calls.Nodup ∧
      (queryAll (exEnv []) exRoundWorld [(11, 300), (11, 100), (11, 300)]).map
        (fun w => w.amCalls) = some [(11, 300), (11, 100)] := by
  obtain ⟨w1, calls, h1, h2, _, h4⟩ :=
    account_manager_called_once_per_success (exEnv []) exRoundWorld
      [(11, 300), (11, 100), (11, 300)] GoMap.empty rfl
  exact ⟨w1, calls, h1, h2, h4 (fun _ _ _ => ⟨(1000, 1000), rfl⟩), by decide⟩

/-! ## The inner loop of `match` -/

theorem getAccountBalance_total (env : Collaborators) (w : World) (a t : Address)
    (cache : GoMap Address Account) (hc : w.matcher.accounts = some cache) :
    ∃ w1 res cache1, getAccountBalance env w a t = some (w1, res) ∧
      w1.matcher.accounts = some cache1 := by
  obtain ⟨w1, res, cache1, h1, h2, _⟩ := getAccountBalance_step env w a t cache hc
  exact ⟨w1, res, cache1, h1, h2⟩

theorem tryPair_total (env : Collaborators) (market : Market) (w : World) (a b : OrderState)
    (cache : GoMap Address Account) (hc : w.matcher.accounts = some cache) :
    ∃ w1 c cache1, tryPair env market w a b = some (w1, c) ∧
      w1.matcher.accounts = some cache1 := by
  unfold tryPair
  by_cases hp : env.PriceValid a b = true
  · rw [if_pos hp]
    obtain ⟨w1, r1, c1, e1, hc1⟩ := getAccountBalance_total env w a.RawOrder.Owner market.lrcAddress cache hc
    rw [e1]
    cases r1 with
    | error _ => exact ⟨_, _, _, rfl, hc1⟩
    | ok v1 =>
      dsimp only
      obtain ⟨w2, r2, c2, e2, hc2⟩ := getAccountBalance_total env w1 a.RawOrder.Owner a.RawOrder.TokenS c1 hc1
      rw [e2]
      cases r2 with
      | error _ => exact ⟨_, _, _, rfl, hc2⟩
      | ok v2 =>
        dsimp only
        obtain ⟨w3, r3, c3, e3, hc3⟩ := getAccountBalance_total env w2 b.RawOrder.Owner market.lrcAddress c2 hc2
        rw [e3]
        cases r3 with
        | error _ => exact ⟨_, _, _, rfl, hc3⟩
        | ok v3 =>
          dsimp only
          obtain ⟨w4, r4, c4, e4, hc4⟩ := getAccountBalance_total env w3 b.RawOrder.Owner b.RawOrder.TokenS c3 hc3
          rw [e4]
          cases r4 with
          | error _ => exact ⟨_, _, _, rfl, hc4⟩
          | ok v4 =>
            dsimp only
            cases env.GenerateRingSubmitInfo _ with
            | error _ => exact ⟨_, _, _, rfl, hc4⟩
            | ok info => exact ⟨_, _, _, rfl, hc4⟩
  · rw [if_neg hp]
    exact ⟨_, _, _, rfl, hc⟩

theorem innerLoop_total (env : Collaborators) (market : Market) (a : OrderState) :
    ∀ (bs : List OrderState) (w : World) (cur : Option RingSubmitInfo)
      (cache : GoMap Address Account), w.matcher.accounts = some cache →
      ∃ w1 kept cache1, innerLoop env market a bs w cur = some (w1, kept) ∧
        w1.matcher.accounts = some cache1 := by
  intro bs
  induction bs with
  | nil => intro w cur cache hc; exact ⟨w, cur, cache, rfl, hc⟩
  | cons b rest ih =>
    intro w cur cache hc
    obtain ⟨w1, c, cache1, hstep, hc1⟩ := tryPair_total env market w a b cache hc
    cases c with
    | none =>
      simp only [innerLoop, hstep]
      exact ih w1 cur cache1 hc1
    | some t =>
      simp only [innerLoop, hstep]
      exact ih w1 _ cache1 hc1

theorem innerLoop_eq_foldl (env : Collaborators) (market : Market) (a : OrderState) :
    ∀ (bs : List OrderState) (w : World) (cur : Option RingSubmitInfo)
      (r : World × Option RingSubmitInfo),
      innerLoop env market a bs w cur = some r →
      r.2 = (candidates env market a bs w).foldl keepBetter cur := by
  intro bs
  induction bs with
  | nil =>
    intro w cur r h
    simp only [innerLoop, Option.some.injEq] at h
    subst h
    rfl
  | cons b rest ih =>
    intro w cur r h
    cases hstep : tryPair env market w a b with
    | none => simp [innerLoop, hstep] at h
    | some p =>
      obtain ⟨w1, c⟩ := p
      cases c with
      | none =>
        simp only [innerLoop, hstep] at h
        simp only [candidates, hstep]
        exact ih w1 cur r h
      | some t =>
        simp only [innerLoop, hstep] at h
        simp only [candidates, hstep, List.foldl_cons]
        exact ih w1 _ r h

theorem firstMax_keepBetter (c t : RingSubmitInfo) (l : List RingSubmitInfo)
    (h : FirstMax c l) :
    ∃ c1, keepBetter (some c) t = some c1 ∧ FirstMax c1 (l ++ [t]) := by
  obtain ⟨pre, post, e, hpre, hpost⟩ := h
  by_cases hlt : c.Received < t.Received
  · refine ⟨t, by simp [keepBetter, hlt], l, [], rfl, ?_, by simp⟩
    intro x hx
    rw [e] at hx
    rcases List.mem_append.1 hx with hx | hx
    · exact lt_trans (hpre x hx) hlt
    · rcases List.mem_cons.1 hx with hx | hx
      · rw [hx]; exact hlt
      · exact lt_of_le_of_lt (hpost x hx) hlt
  · refine ⟨c, by simp [keepBetter, hlt], pre, post ++ [t], by simp [e], hpre, ?_⟩
    intro x hx
    rcases List.mem_append.1 hx with hx | hx
    · exact hpost x hx
    · rw [List.mem_singleton.1 hx]
      exact not_lt.1 hlt

theorem foldl_keepBetter_firstMax :
    ∀ (l seen : List RingSubmitInfo) (c : RingSubmitInfo), FirstMax c seen →
      ∃ c1, l.foldl keepBetter (some c) = some c1 ∧ FirstMax c1 (seen ++ l) := by
  intro l
  induction l with
  | nil => intro seen c h; exact ⟨c, rfl, by simpa using h⟩
  | cons t rest ih =>
    intro seen c h
    obtain ⟨c1, hk, hf⟩ := firstMax_keepBetter c t seen h
    obtain ⟨c2, hfold, hf2⟩ := ih (seen ++ [t]) c1 hf
    refine ⟨c2, by simp [List.foldl_cons, hk, hfold], ?_⟩
    simpa using hf2

theorem foldl_keepBetter_none (l : List RingSubmitInfo) :
    (l = [] ∧ l.foldl keepBetter none = none) ∨
      ∃ c, l.foldl keepBetter none = some c ∧ FirstMax c l := by
  cases l with
  | nil => exact Or.inl ⟨rfl, rfl⟩
  | cons t rest =>
    right
    obtain ⟨c1, hfold, hf⟩ :=
      foldl_keepBetter_firstMax rest [t] t ⟨[], [], rfl, by simp, by simp⟩
    exact ⟨c1, hfold, hf⟩

/-! ## What a round leaves untouched -/

theorem getAccountBalance_frame (env : Collaborators) (w w1 : World) (a t : Address)
    (res : Except GoError TokenBalance) (h : getAccountBalance env w a t = some (w1, res)) :
    sansCache w1.matcher = sansCache w.matcher := by
  unfold getAccountBalance at h
  cases hc : w.matcher.accounts with
  | none => rw [hc] at h; cases h
  | some cache =>
    rw [hc] at h
    dsimp only at h
    split at h
    · split at h
      · cases h; rfl
      · cases h; rfl
    · cases h; rfl

theorem tryPair_frame (env : Collaborators) (market : Market) (w w1 : World)
    (a b : OrderState) (c : Option RingSubmitInfo)
    (h : tryPair env market w a b = some (w1, c)) :
    sansCache w1.matcher = sansCache w.matcher := by
  unfold tryPair at h
  split at h
  · cases h1 : getAccountBalance env w a.RawOrder.Owner market.lrcAddress with
    | none => rw [h1] at h; cases h
    | some p1 =>
      obtain ⟨w2, r1⟩ := p1
      have f1 := getAccountBalance_frame env w w2 _ _ r1 h1
      rw [h1] at h
      cases r1 with
      | error _ => cases h; exact f1
      | ok v1 =>
        dsimp only at h
        cases h2 : getAccountBalance env w2 a.RawOrder.Owner a.RawOrder.TokenS with
        | none => rw [h2] at h; cases h
        | some p2 =>
          obtain ⟨w3, r2⟩ := p2
          have f2 := getAccountBalance_frame env w2 w3 _ _ r2 h2
          rw [h2] at h
          cases r2 with
          | error _ => cases h; exact f2.trans f1
          | ok v2 =>
            dsimp only at h
            cases h3 : getAccountBalance env w3 b.RawOrder.Owner market.lrcAddress with
            | none => rw [h3] at h; cases h
            | some p3 =>
              obtain ⟨w4, r3⟩ := p3
              have f3 := getAccountBalance_frame env w3 w4 _ _ r3 h3
              rw [h3] at h
              cases r3 with
              | error _ => cases h; exact f3.trans (f2.trans f1)
              | ok v3 =>
                dsimp only at h
                cases h4 : getAccountBalance env w4 b.RawOrder.Owner b.RawOrder.TokenS with
                | none => rw [h4] at h; cases h
                | some p4 =>
                  obtain ⟨w5, r4⟩ := p4
                  have f4 := getAccountBalance_frame env w4 w5 _ _ r4 h4
                  rw [h4] at h
                  cases r4 with
                  | error _ => cases h; exact f4.trans (f3.trans (f2.trans f1))
                  | ok v4 =>
                    dsimp only at h
                    split at h
                    · cases h; exact f4.trans (f3.trans (f2.trans f1))
                    · cases h; exact f4.trans (f3.trans (f2.trans f1))
  · cases h; rfl

theorem innerLoop_frame (env : Collaborators) (market : Market) (a : OrderState) :
    ∀ (bs : List OrderState) (w : World) (cur : Option RingSubmitInfo)
      (r : World × Option RingSubmitInfo),
      innerLoop env market a bs w cur = some r →
      sansCache r.1.matcher = sansCache w.matcher := by
  intro bs
  induction bs with
  | nil =>
    intro w cur r h
    simp only [innerLoop, Option.some.injEq] at h
    subst h
    rfl
  | cons b rest ih =>
    intro w cur r h
    cases hstep : tryPair env market w a b with
    | none => simp [innerLoop, hstep] at h
    | some p =>
      obtain ⟨w1, c⟩ := p
      have f := tryPair_frame env market w w1 a b c hstep
      cases c with
      | none =>
        simp only [innerLoop, hstep] at h
        exact (ih w1 cur r h).trans f
      | some t =>
        simp only [innerLoop, hstep] at h
        exact (ih w1 _ r h).trans f

theorem clock_of_sansCache (m m1 : TimingMatcher) (h : sansCache m1 = sansCache m) :
    clock m1 = clock m := by
  have e : ∀ x : TimingMatcher, clock x = clock (sansCache x) := fun _ => rfl
  rw [e m1, e m, h]

theorem sideSet_keys (side : List (Hash × OrderState)) (k : Hash) (v v1 : OrderState)
    (h : sideGet side k = some v) : (sideSet side k v1).map Prod.fst = side.map Prod.fst := by
  induction side with
  | nil => simp [sideGet] at h
  | cons p l ih =>
    obtain ⟨k1, v2⟩ := p
    by_cases hk : k1 = k
    · simp [sideSet, hk]
    · simp only [sideGet, hk, if_false] at h
      simp [sideSet, hk, ih h]

theorem reduceAmountAfterFilled_frame (market market1 : Market) (f : FilledOrder)
    (os : OrderState) (h : reduceAmountAfterFilled market f = some (market1, os)) :
    marketFrame market1 = marketFrame market := by
  unfold reduceAmountAfterFilled at h
  dsimp only at h
  split at h
  · cases hg : sideGet market.AtoBOrders f.OrderState.RawOrder.Hash with
    | none => rw [hg] at h; cases h
    | some v =>
      rw [hg] at h
      cases h
      simp [marketFrame, sideSet_keys _ _ _ _ hg]
  · cases hg : sideGet market.BtoAOrders f.OrderState.RawOrder.Hash with
    | none => rw [hg] at h; cases h
    | some v =>
      rw [hg] at h
      cases h
      simp [marketFrame, sideSet_keys _ _ _ _ hg]

theorem recordFills_frame (env : Collaborators) (ringHash : Hash) :
    ∀ (fills : List FilledOrder) (st st1 : RoundVars),
      recordFills env ringHash fills st = some st1 →
      marketFrame st1.market = marketFrame st.market ∧
        clock st1.w.matcher = clock st.w.matcher ∧
        st1.w.matcher.accounts = st.w.matcher.accounts ∧
        st1.w.matcher.MinedRings = st.w.matcher.MinedRings := by
  intro fills
  induction fills with
  | nil =>
    intro st st1 h
    simp only [recordFills, Option.some.injEq] at h
    subst h
    exact ⟨rfl, rfl, rfl, rfl⟩
  | cons f rest ih =>
    intro st st1 h
    cases hr : reduceAmountAfterFilled st.market f with
    | none => simp [recordFills, hr] at h
    | some p =>
      obtain ⟨mk, os⟩ := p
      simp only [recordFills, hr] at h
      obtain ⟨h1, h2, h3, h4⟩ := ih _ st1 h
      exact ⟨h1.trans (reduceAmountAfterFilled_frame _ _ _ _ hr), h2, h3, h4⟩

theorem recordRing_frame (env : Collaborators) (st st1 : RoundVars)
    (ring : Option RingSubmitInfo) (h : recordRing env st ring = some st1) :
    marketFrame st1.market = marketFrame st.market ∧
      clock st1.w.matcher = clock st.w.matcher ∧
      st1.w.matcher.accounts = st.w.matcher.accounts ∧
      st1.w.matcher.MinedRings = st.w.matcher.MinedRings := by
  cases ring with
  | none =>
    simp only [recordRing, Option.some.injEq] at h
    subst h
    exact ⟨rfl, rfl, rfl, rfl⟩
  | some r =>
    simp only [recordRing, Option.map_eq_some'] at h
    obtain ⟨st2, h2, rfl⟩ := h
    exact recordFills_frame env _ _ st st2 h2

theorem seedStep_frame (env : Collaborators) (st st1 : RoundVars) (aHash : Hash)
    (h : seedStep env st aHash = some st1) :
    marketFrame st1.market = marketFrame st.market ∧
      clock st1.w.matcher = clock st.w.matcher ∧
      st1.w.matcher.MinedRings = st.w.matcher.MinedRings := by
  unfold seedStep at h
  cases hg : sideGet st.market.AtoBOrders aHash with
  | none => rw [hg] at h; cases h
  | some a =>
    rw [hg] at h
    dsimp only at h
    cases hi : innerLoop env st.market a (st.market.BtoAOrders.map Prod.snd) st.w none with
    | none => rw [hi] at h; cases h
    | some r =>
      obtain ⟨w1, kept⟩ := r
      rw [hi] at h
      dsimp only at h
      have f := innerLoop_frame env st.market a _ st.w none (w1, kept) hi
      obtain ⟨h1, h2, _, h4⟩ := recordRing_frame env _ st1 kept h
      refine ⟨h1, h2.trans (clock_of_sansCache _ _ f), h4.trans ?_⟩
      have e : ∀ x : TimingMatcher, x.MinedRings = (sansCache x).MinedRings := fun _ => rfl
      show w1.matcher.MinedRings = st.w.matcher.MinedRings
      rw [e w1.matcher, e st.w.matcher]
      exact congrArg TimingMatcher.MinedRings f

theorem foldlM_seedStep_frame (env : Collaborators) :
    ∀ (keys : List Hash) (st st1 : RoundVars),
      keys.foldlM (seedStep env) st = some st1 →
      marketFrame st1.market = marketFrame st.market ∧
        clock st1.w.matcher = clock st.w.matcher ∧
        st1.w.matcher.MinedRings = st.w.matcher.MinedRings := by
  intro keys
  induction keys with
  | nil =>
    intro st st1 h
    simp only [List.foldlM_nil, Option.pure_def, Option.some.injEq] at h
    subst h
    exact ⟨rfl, rfl, rfl⟩
  | cons k rest ih =>
    intro st st1 h
    simp only [List.foldlM_cons, Option.bind_eq_bind, Option.bind_eq_some] at h
    obtain ⟨st2, h1, h2⟩ := h
    obtain ⟨a1, a2, a3⟩ := seedStep_frame env st st2 k h1
    obtain ⟨b1, b2, b3⟩ := ih st2 st1 h2
    exact ⟨b1.trans a1, b2.trans a2, b3.trans a3⟩

theorem marketMatch_clock (env : Collaborators) (w : World) (market : Market)
    (r : World × Market × List RingSubmitInfo) (h : marketMatch env w market = some r) :
    clock r.1.matcher = clock w.matcher ∧ r.1.matcher.MinedRings = w.matcher.MinedRings := by
  unfold marketMatch at h
  cases hs : matchSeeds env w (getOrdersForMatching env w.matcher market market.protocolAddress) with
  | none => rw [hs] at h; cases h
  | some st =>
    rw [hs] at h
    cases h
    exact (foldlM_seedStep_frame env _ _ st hs).2

/-! ## A round completes with well-behaved collaborators -/

theorem sideGet_mem (side : List (Hash × OrderState)) (k : Hash) (v : OrderState)
    (h : sideGet side k = some v) : (k, v) ∈ side := by
  induction side with
  | nil => simp [sideGet] at h
  | cons p l ih =>
    obtain ⟨k1, v1⟩ := p
    by_cases hk : k1 = k
    · simp only [sideGet, hk, if_true, Option.some.injEq] at h
      simp [hk, h]
    · simp only [sideGet, hk, if_false] at h
      exact List.mem_cons_of_mem _ (ih h)

theorem sideGet_isSome_iff (side : List (Hash × OrderState)) (k : Hash) :
    (∃ v, sideGet side k = some v) ↔ k ∈ side.map Prod.fst := by
  induction side with
  | nil => simp [sideGet]
  | cons p l ih =>
    obtain ⟨k1, v1⟩ := p
    by_cases hk : k1 = k
    · simp [sideGet, hk]
    · have hk1 : k ≠ k1 := fun e => hk e.symm
      simp [sideGet, hk, hk1, ih]

theorem mem_sideSet (side : List (Hash × OrderState)) (k : Hash) (v : OrderState)
    (p : Hash × OrderState) (h : p ∈ sideSet side k v) : p = (k, v) ∨ p ∈ side := by
  induction side with
  | nil =>
    simp only [sideSet, List.mem_singleton] at h
    exact Or.inl h
  | cons q l ih =>
    obtain ⟨k1, v1⟩ := q
    by_cases hk : k1 = k
    · simp only [sideSet, hk, if_true, List.mem_cons] at h
      rcases h with h | h
      · exact Or.inl h
      · exact Or.inr (List.mem_cons_of_mem _ h)
    · simp only [sideSet, hk, if_false, List.mem_cons] at h
      rcases h with h | h
      · exact Or.inr (by rw [h]; exact List.mem_cons_self _ _)
      · rcases ih h with h1 | h1
        · exact Or.inl h1
        · exact Or.inr (List.mem_cons_of_mem _ h1)

theorem fetchLoop_keyed (env : Collaborators) (matcher : TimingMatcher) (P : Order → Prop) :
    ∀ (orders : List OrderState) (side : List (Hash × OrderState)) (excl : List Hash),
      (∀ o ∈ orders, P o.RawOrder) →
      (∀ p ∈ side, p.2.RawOrder.Hash = p.1 ∧ P p.2.RawOrder) →
      ∀ p ∈ (fetchLoop env matcher orders side excl).1, p.2.RawOrder.Hash = p.1 ∧ P p.2.RawOrder := by
  intro orders
  induction orders with
  | nil => intro side excl _ hs; exact hs
  | cons o rest ih =>
    intro side excl ho hs
    have hraw := (reduceRemainedAmountBeforeMatch_spec matcher o).1
    unfold fetchLoop
    dsimp only
    split
    · apply ih _ _ (fun x hx => ho x (List.mem_cons_of_mem _ hx))
      intro p hp
      rcases mem_sideSet _ _ _ _ hp with e | hmem
      · rw [e]
        refine ⟨rfl, ?_⟩
        show P (reduceRemainedAmountBeforeMatch matcher o).RawOrder
        rw [hraw]
        exact ho o (List.mem_cons_self _ _)
      · exact hs p hmem
    · exact ih _ _ (fun x hx => ho x (List.mem_cons_of_mem _ hx)) hs

theorem getOrdersForMatching_keyed (env : Collaborators) (matcher : TimingMatcher)
    (market : Market) (pa : Address) (henv : WellBehaved env)
    (htok : market.TokenA ≠ market.TokenB) :
    SidesKeyed (getOrdersForMatching env matcher market pa) := by
  constructor
  · intro p hp
    exact fetchLoop_keyed env matcher (fun r => r.TokenS = market.TokenA) _ [] []
      (fun o ho => henv.1 _ _ _ _ _ _ o ho) (by simp) p hp
  · intro p hp
    exact fetchLoop_keyed env matcher (fun r => r.TokenS ≠ market.TokenA) _ [] []
      (fun o ho => by
        show o.RawOrder.TokenS ≠ market.TokenA
        rw [henv.1 _ _ _ _ _ _ o ho]
        exact fun e => htok e.symm) (by simp) p hp

theorem reduceAmountAfterFilled_keyed (market market1 : Market) (f : FilledOrder)
    (os : OrderState) (hk : SidesKeyed market)
    (h : reduceAmountAfterFilled market f = some (market1, os)) : SidesKeyed market1 := by
  unfold reduceAmountAfterFilled at h
  dsimp only at h
  split at h
  · cases hg : sideGet market.AtoBOrders f.OrderState.RawOrder.Hash with
    | none => rw [hg] at h; cases h
    | some v =>
      rw [hg] at h
      cases h
      refine ⟨?_, hk.2⟩
      intro p hp
      rcases mem_sideSet _ _ _ _ hp with e | hmem
      · rw [e]
        exact hk.1 (f.OrderState.RawOrder.Hash, v) (sideGet_mem _ _ v hg)
      · exact hk.1 p hmem
  · cases hg : sideGet market.BtoAOrders f.OrderState.RawOrder.Hash with
    | none => rw [hg] at h; cases h
    | some v =>
      rw [hg] at h
      cases h
      refine ⟨hk.1, ?_⟩
      intro p hp
      rcases mem_sideSet _ _ _ _ hp with e | hmem
      · rw [e]
        exact hk.2 (f.OrderState.RawOrder.Hash, v) (sideGet_mem _ _ v hg)
      · exact hk.2 p hmem

theorem sideOf_keys (market market1 : Market) (t : Address)
    (h : marketFrame market1 = marketFrame market) :
    (sideOf market1 t).map Prod.fst = (sideOf market t).map Prod.fst := by
  simp only [marketFrame, Prod.mk.injEq] at h
  obtain ⟨h1, h2, _, _, h5, _⟩ := h
  unfold sideOf
  rw [h5]
  split
  · exact h1
  · exact h2

theorem reduceAmountAfterFilled_total (market : Market) (f : FilledOrder)
    (h : f.OrderState.RawOrder.Hash ∈ (sideOf market f.OrderState.RawOrder.TokenS).map Prod.fst) :
    ∃ market1 os, reduceAmountAfterFilled market f = some (market1, os) := by
  obtain ⟨v, hv⟩ := (sideGet_isSome_iff _ _).2 h
  obtain ⟨m1, os1, h1, _⟩ := reduceAmountAfterFilled_spec market f v hv
  exact ⟨m1, os1, h1⟩

theorem recordFills_total (env : Collaborators) (ringHash : Hash) :
    ∀ (fills : List FilledOrder) (st : RoundVars), SidesKeyed st.market →
      (∀ f ∈ fills, f.OrderState.RawOrder.Hash ∈
        (sideOf st.market f.OrderState.RawOrder.TokenS).map Prod.fst) →
      ∃ st1, recordFills env ringHash fills st = some st1 ∧ SidesKeyed st1.market := by
  intro fills
  induction fills with
  | nil => intro st hk _; exact ⟨st, rfl, hk⟩
  | cons f rest ih =>
    intro st hk hf
    obtain ⟨mk, os, hr⟩ := reduceAmountAfterFilled_total st.market f (hf f (List.mem_cons_self _ _))
    have hframe := reduceAmountAfterFilled_frame _ _ _ _ hr
    simp only [recordFills, hr]
    apply ih
    · exact reduceAmountAfterFilled_keyed _ _ _ _ hk hr
    · intro g hg
      show g.OrderState.RawOrder.Hash ∈ (sideOf mk g.OrderState.RawOrder.TokenS).map Prod.fst
      rw [sideOf_keys _ _ _ hframe]
      exact hf g (List.mem_cons_of_mem _ hg)

theorem tryPair_ring (env : Collaborators) (market : Market) (w w1 : World)
    (a b : OrderState) (info : RingSubmitInfo) (henv : WellBehaved env)
    (h : tryPair env market w a b = some (w1, some info)) :
    (info.RawRing.Orders.map fun f => f.OrderState.RawOrder) = [a.RawOrder, b.RawOrder] := by
  unfold tryPair at h
  split at h
  · cases h1 : getAccountBalance env w a.RawOrder.Owner market.lrcAddress with
    | none => rw [h1] at h; cases h
    | some p1 =>
      obtain ⟨w2, r1⟩ := p1
      rw [h1] at h
      cases r1 with
      | error _ => cases h
      | ok v1 =>
        dsimp only at h
        cases h2 : getAccountBalance env w2 a.RawOrder.Owner a.RawOrder.TokenS with
        | none => rw [h2] at h; cases h
        | some p2 =>
          obtain ⟨w3, r2⟩ := p2
          rw [h2] at h
          cases r2 with
          | error _ => cases h
          | ok v2 =>
            dsimp only at h
            cases h3 : getAccountBalance env w3 b.RawOrder.Owner market.lrcAddress with
            | none => rw [h3] at h; cases h
            | some p3 =>
              obtain ⟨w4, r3⟩ := p3
              rw [h3] at h
              cases r3 with
              | error _ => cases h
              | ok v3 =>
                dsimp only at h
                cases h4 : getAccountBalance env w4 b.RawOrder.Owner b.RawOrder.TokenS with
                | none => rw [h4] at h; cases h
                | some p4 =>
                  obtain ⟨w5, r4⟩ := p4
                  rw [h4] at h
                  cases r4 with
                  | error _ => cases h
                  | ok v4 =>
                    dsimp only at h
                    split at h
                    · cases h
                    · rename_i info1 hgen
                      cases h
                      have := henv.2.2 _ _ _ hgen
                      rw [this, henv.2.1, henv.2.1]
  · cases h

theorem innerLoop_ring (env : Collaborators) (market : Market) (a : OrderState)
    (henv : WellBehaved env) (Q : RingSubmitInfo → Prop) :
    ∀ (bs : List OrderState) (w : World) (cur : Option RingSubmitInfo)
      (r : World × Option RingSubmitInfo),
      (∀ b ∈ bs, ∀ info : RingSubmitInfo,
        (info.RawRing.Orders.map fun f => f.OrderState.RawOrder) = [a.RawOrder, b.RawOrder] →
        Q info) →
      (∀ c, cur = some c → Q c) →
      innerLoop env market a bs w cur = some r → ∀ c, r.2 = some c → Q c := by
  intro bs
  induction bs with
  | nil =>
    intro w cur r _ hcur h
    simp only [innerLoop, Option.some.injEq] at h
    subst h
    exact hcur
  | cons b rest ih =>
    intro w cur r hQ hcur h
    cases hstep : tryPair env market w a b with
    | none => simp [innerLoop, hstep] at h
    | some p =>
      obtain ⟨w1, c⟩ := p
      cases c with
      | none =>
        simp only [innerLoop, hstep] at h
        exact ih w1 cur r (fun x hx => hQ x (List.mem_cons_of_mem _ hx)) hcur h
      | some t =>
        simp only [innerLoop, hstep] at h
        have ht : Q t := hQ b (List.mem_cons_self _ _) t (tryPair_ring env market w w1 a b t henv hstep)
        refine ih w1 _ r (fun x hx => hQ x (List.mem_cons_of_mem _ hx)) ?_ h
        intro c hc
        cases cur with
        | none =>
          simp only [keepBetter, Option.some.injEq] at hc
          rw [← hc]; exact ht
        | some c0 =>
          simp only [keepBetter] at hc
          split at hc
          · simp only [Option.some.injEq] at hc
            rw [← hc]; exact ht
          · exact hcur c hc

theorem seedStep_total (env : Collaborators) (henv : WellBehaved env) (st : RoundVars)
    (k : Hash) (cache : GoMap Address Account) (hk : SidesKeyed st.market)
    (hc : st.w.matcher.accounts = some cache) (hmem : k ∈ st.market.AtoBOrders.map Prod.fst) :
    ∃ st1 cache1, seedStep env st k = some st1 ∧ SidesKeyed st1.market ∧
      st1.w.matcher.accounts = some cache1 := by
  obtain ⟨a, ha⟩ := (sideGet_isSome_iff _ _).2 hmem
  have hain : a.RawOrder.Hash = k ∧ a.RawOrder.TokenS = st.market.TokenA :=
    hk.1 (k, a) (sideGet_mem _ _ _ ha)
  obtain ⟨w1, kept, cache1, hin, hc1⟩ :=
    innerLoop_total env st.market a (st.market.BtoAOrders.map Prod.snd) st.w none cache hc
  have hfill : ∀ c, kept = some c → ∀ f ∈ c.RawRing.Orders,
      f.OrderState.RawOrder.Hash ∈ (sideOf st.market f.OrderState.RawOrder.TokenS).map Prod.fst := by
    refine innerLoop_ring env st.market a henv
      (fun c => ∀ f ∈ c.RawRing.Orders,
        f.OrderState.RawOrder.Hash ∈ (sideOf st.market f.OrderState.RawOrder.TokenS).map Prod.fst)
      _ st.w none (w1, kept) ?_ (by simp) hin
    intro b hb info hinfo f hf
    have hraw : f.OrderState.RawOrder ∈ [a.RawOrder, b.RawOrder] := by
      rw [← hinfo]
      exact List.mem_map_of_mem (fun f : FilledOrder => f.OrderState.RawOrder) hf
    simp only [List.mem_cons, List.mem_singleton, List.not_mem_nil, or_false] at hraw
    rcases hraw with e | e
    · rw [e]
      simp only [sideOf, hain.2, if_true]
      rw [hain.1]
      exact hmem
    · obtain ⟨p, hp, hpb⟩ := List.mem_map.1 hb
      have hpin : b.RawOrder.Hash = p.1 ∧ b.RawOrder.TokenS ≠ st.market.TokenA := by
        rw [← hpb]
        exact hk.2 p hp
      rw [e]
      simp only [sideOf, hpin.2, if_false]
      rw [hpin.1]
      exact List.mem_map_of_mem Prod.fst hp
  unfold seedStep
  rw [ha]
  dsimp only
  rw [hin]
  dsimp only
  cases kept with
  | none => exact ⟨_, cache1, rfl, hk, hc1⟩
  | some ring =>
    obtain ⟨st2, h2, hk2⟩ :=
      recordFills_total env ring.RawRing.Hash ring.RawRing.Orders { st with w := w1 } hk
        (hfill ring rfl)
    have hacc := (recordFills_frame env _ _ _ st2 h2).2.2.1
    refine ⟨{ st2 with ringStates := st2.ringStates ++ [ring] }, cache1,
      by simp [recordRing, h2], hk2, ?_⟩
    show st2.w.matcher.accounts = some cache1
    rw [hacc]
    exact hc1

theorem foldlM_seedStep_total (env : Collaborators) (henv : WellBehaved env) :
    ∀ (keys : List Hash) (st : RoundVars) (cache : GoMap Address Account),
      SidesKeyed st.market → st.w.matcher.accounts = some cache →
      (∀ k ∈ keys, k ∈ st.market.AtoBOrders.map Prod.fst) →
      ∃ st1 cache1, keys.foldlM (seedStep env) st = some st1 ∧
        st1.w.matcher.accounts = some cache1 := by
  intro keys
  induction keys with
  | nil => intro st cache _ hc _; exact ⟨st, cache, rfl, hc⟩
  | cons k rest ih =>
    intro st cache hk hc hmem
    obtain ⟨st1, cache1, hstep, hk1, hc1⟩ :=
      seedStep_total env henv st k cache hk hc (hmem k (List.mem_cons_self _ _))
    have hframe := (seedStep_frame env st st1 k hstep).1
    have hkeys : st1.market.AtoBOrders.map Prod.fst = st.market.AtoBOrders.map Prod.fst := by
      simp only [marketFrame, Prod.mk.injEq] at hframe
      exact hframe.1
    obtain ⟨st2, cache2, hrest, hc2⟩ := ih st1 cache1 hk1 hc1 (by
      intro x hx
      rw [hkeys]
      exact hmem x (List.mem_cons_of_mem _ hx))
    exact ⟨st2, cache2, by simp [List.foldlM_cons, hstep, hrest], hc2⟩

theorem marketMatch_total (env : Collaborators) (henv : WellBehaved env) (w : World)
    (market : Market) (cache : GoMap Address Account) (hc : w.matcher.accounts = some cache)
    (htok : market.TokenA ≠ market.TokenB) :
    ∃ r cache1, marketMatch env w market = some r ∧ r.1.matcher.accounts = some cache1 := by
  obtain ⟨st, cache1, hs, hc1⟩ :=
    foldlM_seedStep_total env henv
      ((getOrdersForMatching env w.matcher market market.protocolAddress).AtoBOrders.map Prod.fst)
      { w := w, market := getOrdersForMatching env w.matcher market market.protocolAddress,
        matchedOrderHashes := GoMap.empty, ringStates := [] } cache
      (getOrdersForMatching_keyed env w.matcher market _ henv htok) hc (fun _ hk => hk)
  have hs1 : matchSeeds env w (getOrdersForMatching env w.matcher market market.protocolAddress)
      = some st := hs
  exact ⟨(st.w, excludeUpdate st.market st.matchedOrderHashes, st.ringStates), cache1,
    by simp [marketMatch, hs1], hc1⟩

/-! ## The exclude-next-round lists as `getOrdersForMatching` leaves them -/

theorem fetchLoop_excluded (env : Collaborators) (matcher : TimingMatcher) :
    ∀ (orders : List OrderState) (side : List (Hash × OrderState)) (excl : List Hash),
      (fetchLoop env matcher orders side excl).2 =
        excl ++ (((orders.map (reduceRemainedAmountBeforeMatch matcher)).filter
          env.IsOrderFullFinished).map fun o => o.RawOrder.Hash) := by
  intro orders
  induction orders with
  | nil => intro side excl; simp [fetchLoop]
  | cons o rest ih =>
    intro side excl
    unfold fetchLoop
    dsimp only
    cases hfin : env.IsOrderFullFinished (reduceRemainedAmountBeforeMatch matcher o) with
    | false => simp [ih, hfin]
    | true => simp [ih, hfin]

theorem getOrdersForMatching_excluded (env : Collaborators) (matcher : TimingMatcher)
    (market : Market) :
    excludedHashes (getOrdersForMatching env matcher market market.protocolAddress) =
      fetchedFinished env matcher market := by
  simp [excludedHashes, getOrdersForMatching, fetchedFinished, fetchLoop_excluded]

theorem excludeNext_iff (matched : GoMap Hash Bool) (h : Hash) :
    excludeNext matched h = true ↔ matched h ≠ some false := by
  unfold excludeNext
  cases matched h with
  | none => simp
  | some b => cases b <;> simp

/-! ## Values held by the balance cache -/

/-- One call of `getAccountBalance` within a round, with the values: what the cache
holds stays, a value returned without error is held afterwards, a pair that is held
is answered with that value and without a call of the account manager, and a pair
that is not held is answered, when the account manager returns `(balance, allowance)`,
with the token balance whose `Balance` is `allowance` and whose `Allowance` is
`balance`. -/
theorem getAccountBalance_values (env : Collaborators) (w : World) (a t : Address)
    (cache : GoMap Address Account) (hc : w.matcher.accounts = some cache) :
    ∃ w1 res cache1, getAccountBalance env w a t = some (w1, res) ∧
      w1.matcher.accounts = some cache1 ∧
      (∀ p v, CachedAs w p v → CachedAs w1 p v) ∧
      (∀ b, res = .ok b → CachedAs w1 (a, t) b) ∧
      (∀ v, CachedAs w (a, t) v → res = .ok v ∧ w1.amCalls = w.amCalls) ∧
      (¬ Cached w (a, t) → ∀ balance allowance,
        env.GetBalanceByTokenAddress w.amCalls a t = .ok (balance, allowance) →
        res = .ok { Balance := allowance, Allowance := balance }) := by
  unfold getAccountBalance
  rw [hc]
  dsimp only
  cases hacc : cache a with
  | none =>
    simp only [GoMap.empty]
    have hnoval : ∀ v, ¬ CachedAs w (a, t) v := by
      rintro v ⟨accounts, account, h1, h2, _⟩
      rw [hc] at h1
      cases h1
      simp only at h2
      rw [hacc] at h2
      cases h2
    have hkeep : ∀ (p : Address × Address) (v : TokenBalance),
        CachedAs w p v → p.1 ≠ a ∧ ∃ account, cache p.1 = some account ∧
          account.Tokens p.2 = some v := by
      rintro p v ⟨accounts, account, h1, h2, h3⟩
      rw [hc] at h1
      cases h1
      have hpa : p.1 ≠ a := by
        intro e
        rw [e, hacc] at h2
        cases h2
      exact ⟨hpa, account, h2, h3⟩
    cases hq : env.GetBalanceByTokenAddress w.amCalls a t with
    | error err =>
      refine ⟨_, _, _, rfl, rfl, ?_, ?_, ?_, ?_⟩
      · intro p v hpv
        obtain ⟨hpa, account, h2, h3⟩ := hkeep p v hpv
        exact ⟨_, account, rfl, by simp [GoMap.set, hpa, h2], h3⟩
      · intro b hb
        cases hb
      · intro v hv
        exact absurd hv (hnoval v)
      · intro _ balance allowance hok
        cases hok
    | ok v =>
      obtain ⟨balance, allowance⟩ := v
      refine ⟨_, _, _, rfl, rfl, ?_, ?_, ?_, ?_⟩
      · intro p v hpv
        obtain ⟨hpa, account, h2, h3⟩ := hkeep p v hpv
        exact ⟨_, account, rfl, by simp [GoMap.set, hpa, h2], h3⟩
      · intro b hb
        cases hb
        exact ⟨_, { Tokens := GoMap.empty.set t (⟨allowance, balance⟩ : TokenBalance) }, rfl,
          by simp [GoMap.set], by simp [GoMap.set]⟩
      · intro v hv
        exact absurd hv (hnoval v)
      · intro _ b1 a1 hok
        cases hok
        rfl
  | some account0 =>
    simp only
    cases htok : account0.Tokens t with
    | some b0 =>
      refine ⟨_, _, _, rfl, rfl, ?_, ?_, ?_, ?_⟩
      · rintro p v ⟨accounts, account, h1, h2, h3⟩
        rw [hc] at h1
        cases h1
        exact ⟨_, account, rfl, h2, h3⟩
      · intro b hb
        cases hb
        exact ⟨_, account0, rfl, hacc, htok⟩
      · rintro v ⟨accounts, account, h1, h2, h3⟩
        rw [hc] at h1
        cases h1
        simp only at h2 h3
        rw [hacc] at h2
        cases h2
        rw [htok] at h3
        cases h3
        exact ⟨rfl, rfl⟩
      · intro hnot
        exact absurd ⟨cache, account0, b0, hc, hacc, htok⟩ hnot
    | none =>
      simp only
      have hnoval : ∀ v, ¬ CachedAs w (a, t) v := by
        rintro v ⟨accounts, account, h1, h2, h3⟩
        rw [hc] at h1
        cases h1
        simp only at h2 h3
        rw [hacc] at h2
        cases h2
        rw [htok] at h3
        cases h3
      cases hq : env.GetBalanceByTokenAddress w.amCalls a t with
      | error err =>
        refine ⟨_, _, _, rfl, rfl, ?_, ?_, ?_, ?_⟩
        · rintro p v ⟨accounts, account, h1, h2, h3⟩
          rw [hc] at h1
          cases h1
          exact ⟨_, account, rfl, h2, h3⟩
        · intro b hb
          cases hb
        · intro v hv
          exact absurd hv (hnoval v)
        · intro _ balance allowance hok
          cases hok
      | ok v =>
        obtain ⟨balance, allowance⟩ := v
        refine ⟨_, _, _, rfl, rfl, ?_, ?_, ?_, ?_⟩
        · rintro p v ⟨accounts, account, h1, h2, h3⟩
          rw [hc] at h1
          cases h1
          by_cases hpa : p.1 = a
          · rw [hpa, hacc] at h2
            cases h2
            have hpt : p.2 ≠ t := by
              intro e
              rw [e, htok] at h3
              cases h3
            exact ⟨_, { Tokens := account0.Tokens.set t (⟨allowance, balance⟩ : TokenBalance) },
              rfl, by simp [GoMap.set, hpa], by simp [GoMap.set, hpt, h3]⟩
          · exact ⟨_, account, rfl, by simp [GoMap.set, hpa, h2], h3⟩
        · intro b hb
          cases hb
          exact ⟨_, { Tokens := account0.Tokens.set t (⟨allowance, balance⟩ : TokenBalance) },
            rfl, by simp [GoMap.set], by simp [GoMap.set]⟩
        · intro v hv
          exact absurd hv (hnoval v)
        · intro _ b1 a1 hok
          cases hok
          rfl

theorem queryAll_keeps_values (env : Collaborators) :
    ∀ (queries : List (Address × Address)) (w : World) (cache : GoMap Address Account),
      w.matcher.accounts = some cache →
      ∃ w1 cache1, queryAll env w queries = some w1 ∧ w1.matcher.accounts = some cache1 ∧
        ∀ p v, CachedAs w p v → CachedAs w1 p v := by
  intro queries
  induction queries with
  | nil => intro w cache hc; exact ⟨w, cache, rfl, hc, fun _ _ h => h⟩
  | cons q rest ih =>
    intro w cache hc
    obtain ⟨w1, res, cache1, hstep, hc1, hkeep, _⟩ :=
      getAccountBalance_values env w q.1 q.2 cache hc
    obtain ⟨w2, cache2, hrest, hc2, hkeep2⟩ := ih w1 cache1 hc1
    have hunf : queryAll env w (q :: rest) = queryAll env w1 rest := by
      simp [queryAll, List.foldlM_cons, hstep]
    exact ⟨w2, cache2, by rw [hunf]; exact hrest, hc2, fun p v h => hkeep2 p v (hkeep p v h)⟩

/-! ## C11: a memoized balance is returned for the rest of the round -/

/-- C11: once `getAccountBalance(owner, token)` has returned `b` without error, then
after any further queries of the round (for any pairs, and whatever the collaborators
answer from then on, `env2`), `getAccountBalance(owner, token)` returns `b` without
error again, and it does so without a call of the account manager. -/
theorem getAccountBalance_memoized (env env2 : Collaborators) (w w1 : World)
    (owner token : Address) (b : TokenBalance) (between : List (Address × Address))
    (h1 : getAccountBalance env w owner token = some (w1, .ok b)) :
    ∃ w2 w3, queryAll env2 w1 between = some w2 ∧
      getAccountBalance env2 w2 owner token = some (w3, .ok b) ∧
      w3.amCalls = w2.amCalls := by
  cases hc : w.matcher.accounts with
  | none => simp [getAccountBalance, hc] at h1
  | some cache =>
    obtain ⟨w1a, res, cache1, hstep, hc1, _, hval, _⟩ :=
      getAccountBalance_values env w owner token cache hc
    rw [h1] at hstep
    cases hstep
    have hheld := hval b rfl
    obtain ⟨w2, cache2, hq, hc2, hkeep⟩ := queryAll_keeps_values env2 between w1 cache1 hc1
    obtain ⟨w3, res3, _, hstep3, _, _, _, hhit, _⟩ :=
      getAccountBalance_values env2 w2 owner token cache2 hc2
    obtain ⟨hres, hcalls⟩ := hhit b (hkeep _ _ hheld)
    rw [hres] at hstep3
    exact ⟨w2, w3, hq, hstep3, hcalls⟩

/-- The pair (11, 300) is answered with balance and allowance 1000; after the queries
(11, 100) and (12, 300), and although the account manager fails from then on, the
pair is answered with the same value. -/
theorem getAccountBalance_memoized_witness :
    ∃ w1 w2 w3,
      getAccountBalance (exEnv []) exRoundWorld 11 300 = some (w1, .ok ⟨1000, 1000⟩) ∧
      queryAll exEnvFailing w1 [(11, 100), (12, 300)] = some w2 ∧
      getAccountBalance exEnvFailing w2 11 300 = some (w3, .ok ⟨1000, 1000⟩) ∧
      w3.amCalls = w2.amCalls := by
  have h1 : ∃ w1, getAccountBalance (exEnv []) exRoundWorld 11 300
      = some (w1, .ok ⟨1000, 1000⟩) := ⟨_, rfl⟩
  obtain ⟨w1, h1⟩ := h1
  obtain ⟨w2, w3, h2, h3, h4⟩ :=
    getAccountBalance_memoized (exEnv []) exEnvFailing exRoundWorld w1 11 300 ⟨1000, 1000⟩
      [(11, 100), (12, 300)] h1
  exact ⟨w1, w2, w3, h1, h2, h3, h4⟩

/-! ## C15: the first answer for a pair swaps balance and allowance -/

/-- C15: on a `getAccountBalance(owner, token)` within a round for a pair that the
cache does not hold yet, when the account manager returns `(balance, allowance)`
without error, the token balance returned and stored has `Balance = allowance` and
`Allowance = balance`. -/
theorem getAccountBalance_first_swaps (env : Collaborators) (w : World)
    (owner token : Address) (cache : GoMap Address Account) (balance allowance : Int)
    (hc : w.matcher.accounts = some cache) (hfirst : ¬ Cached w (owner, token))
    (ham : env.GetBalanceByTokenAddress w.amCalls owner token = .ok (balance, allowance)) :
    ∃ w1, getAccountBalance env w owner token
        = some (w1, .ok { Balance := allowance, Allowance := balance }) ∧
      CachedAs w1 (owner, token) { Balance := allowance, Allowance := balance } := by
  obtain ⟨w1, res, _, hstep, _, _, hval, _, hswap⟩ :=
    getAccountBalance_values env w owner token cache hc
  have hres := hswap hfirst balance allowance ham
  rw [hres] at hstep
  exact ⟨w1, hstep, hval _ hres⟩

/-- The account manager answers (11, 300) with the balance 500 and the allowance 20:
the first query of the round returns and stores `Balance` 20 and `Allowance` 500. -/
theorem getAccountBalance_first_swaps_witness :
    ∃ w1, getAccountBalance exEnvUneven exRoundWorld 11 300
        = some (w1, .ok { Balance := 20, Allowance := 500 }) ∧
      CachedAs w1 (11, 300) { Balance := 20, Allowance := 500 } :=
  getAccountBalance_first_swaps exEnvUneven exRoundWorld 11 300 GoMap.empty 500 20 rfl
    (by
      rintro ⟨accounts, account, b, h1, h2, _⟩
      have e : exRoundWorld.matcher.accounts = some GoMap.empty := rfl
      rw [e] at h1
      cases h1
      cases h2)
    rfl

/-! ## C13: `intFromRat` is the floor -/

theorem intFromRat_eq_floor (r : ℚ) : intFromRat r = ⌊r⌋ := by
  rw [Rat.floor_def]
  rfl

/-- C13 as stated fails: for −1/2 the code returns −1, while −1/2 truncated toward
zero (the quotient of −1 by 2 rounded toward zero) is 0. -/
theorem intFromRat_negative_half :
    intFromRat (mkRat (-1) 2) = -1 ∧ truncTowardZero (mkRat (-1) 2) = 0 ∧
      intFromRat (mkRat (-1) 2) ≠ truncTowardZero (mkRat (-1) 2) := by
  decide

/-- C13, amended: for every rational `r`, `intFromRat(r)` is the floor of `r` (the
Euclidean quotient of its numerator by its denominator); for `r ≥ 0` that is `r`
truncated toward zero. -/
theorem intFromRat_floor_and_trunc (r : ℚ) :
    intFromRat r = ⌊r⌋ ∧ (0 ≤ r → intFromRat r = truncTowardZero r) := by
  refine ⟨intFromRat_eq_floor r, ?_⟩
  intro hr
  unfold intFromRat truncTowardZero
  have hnum : 0 ≤ r.num := Rat.num_nonneg.2 hr
  have hden : (0 : Int) ≤ (r.den : Int) := Int.ofNat_nonneg _
  exact (Int.tdiv_eq_ediv hnum hden).symm

/-- For 7/2 the code returns 3, the floor and the truncation of 7/2. -/
theorem intFromRat_floor_and_trunc_witness :
    intFromRat (mkRat 7 2) = ⌊mkRat 7 2⌋ ∧
      intFromRat (mkRat 7 2) = truncTowardZero (mkRat 7 2) ∧ intFromRat (mkRat 7 2) = 3 :=
  ⟨(intFromRat_floor_and_trunc (mkRat 7 2)).1,
    (intFromRat_floor_and_trunc (mkRat 7 2)).2 (by rw [Rat.mkRat_eq_div]; norm_num),
    by decide⟩

/-! ## C12: availability after a fill -/

/-- C12 as stated fails: order 1 has the availability 50 in the side map of
`exMarket`; after a fill of half a unit the side map holds it with the
availability 50 still. -/
theorem half_fill_keeps_availability :
    ∃ os0 r, sideGet (sideOf exMarket 100) 1 = some os0 ∧
      reduceAmountAfterFilled exMarket exFillHalf = some r ∧
      sideGet (sideOf r.1 100) 1 = some r.2 ∧
      availableS os0 = 50 ∧ availableS r.2 = 50 ∧ ¬ availableS r.2 < availableS os0 := by
  have h0 : (sideGet (sideOf exMarket 100) 1).map availableS = some 50 := by decide
  have h1 : (reduceAmountAfterFilled exMarket exFillHalf).map
      (fun r => (availableS r.2, decide (sideGet (sideOf r.1 100) 1 = some r.2)))
        = some (50, true) := by decide
  simp only [Option.map_eq_some'] at h0 h1
  obtain ⟨os0, e0, a0⟩ := h0
  obtain ⟨r, e1, a1⟩ := h1
  simp only [Prod.mk.injEq, decide_eq_true_eq] at a1
  exact ⟨os0, r, e0, e1, a1.2, a0, a1.1, by rw [a0, a1.1]; decide⟩

/-- C12, amended: for every fill of an order that the selected side map holds,
`reduceAmountAfterFilled` completes and the availability `AmountS − DealtAmountS` seen
afterwards is the one seen before minus `intFromRat(FillAmountS)`; it is strictly less
exactly when `FillAmountS ≥ 1`, and it is not greater when `FillAmountS ≥ 0`. -/
theorem fill_lowers_availability_by_floor (market : Market) (f : FilledOrder)
    (os : OrderState)
    (hget : sideGet (sideOf market f.OrderState.RawOrder.TokenS) f.OrderState.RawOrder.Hash
      = some os) :
    ∃ market1 os1, reduceAmountAfterFilled market f = some (market1, os1) ∧
      sideGet (sideOf market1 f.OrderState.RawOrder.TokenS) f.OrderState.RawOrder.Hash
        = some os1 ∧
      availableS os1 = availableS os - intFromRat f.FillAmountS ∧
      (availableS os1 < availableS os ↔ 1 ≤ f.FillAmountS) ∧
      (0 ≤ f.FillAmountS → availableS os1 ≤ availableS os) := by
  obtain ⟨market1, os1, hstep, _, hget1, hraw, hs, _⟩ :=
    reduceAmountAfterFilled_spec market f os hget
  have hav : availableS os1 = availableS os - intFromRat f.FillAmountS := by
    unfold availableS
    rw [hs, hraw]
    ring
  refine ⟨market1, os1, hstep, hget1, hav, ?_, ?_⟩
  · rw [hav, intFromRat_eq_floor, ← Int.floor_pos]
    constructor <;> intro h <;> omega
  · intro h0
    rw [hav, intFromRat_eq_floor]
    have : 0 ≤ ⌊f.FillAmountS⌋ := Int.floor_nonneg.2 h0
    omega

/-- Order 1 is in the side map of `exMarket` with the availability 50; a fill of 20
leaves 30, strictly less. -/
theorem fill_lowers_availability_by_floor_witness :
    ∃ os market1 os1, sideGet (sideOf exMarket 100) 1 = some os ∧
      reduceAmountAfterFilled exMarket exFillSmall = some (market1, os1) ∧
      availableS os = 50 ∧ availableS os1 = 30 ∧ availableS os1 < availableS os := by
  have h0 : ∃ os, sideGet (sideOf exMarket 100) 1 = some os ∧ availableS os = 50 :=
    ⟨_, rfl, by decide⟩
  obtain ⟨os, hget, hav0⟩ := h0
  obtain ⟨market1, os1, hstep, _, hav, hlt, _⟩ :=
    fill_lowers_availability_by_floor exMarket exFillSmall os hget
  have h20 : intFromRat exFillSmall.FillAmountS = 20 := by decide
  have hone : (1 : ℚ) ≤ exFillSmall.FillAmountS := by
    have : exFillSmall.FillAmountS = 20 := rfl
    rw [this]
    norm_num
  exact ⟨os, market1, os1, hget, hstep, hav0, by rw [hav, hav0, h20]; decide, hlt.2 hone⟩

/-! ## C14: markets built by the constructor -/

/-- C14 fails on the code: with one protocol address and the token pairs (1, 2),
(1, 3), (2, 1), the constructor builds the markets (1, 2), (1, 3) and (2, 1), two
markets for the unordered pair {1, 2} under the one protocol address. -/
theorem two_markets_for_one_pair :
    ((NewTimingMatcher ⟨2, 10, 0⟩ [⟨1000, 300⟩] exPairs).markets.map
        fun mk => (mk.protocolAddress, mk.TokenA, mk.TokenB))
        = [(1000, 1, 2), (1000, 1, 3), (1000, 2, 1)] ∧
      marketsOf (NewTimingMatcher ⟨2, 10, 0⟩ [⟨1000, 300⟩] exPairs) 1000 1 2 = 2 := by
  decide

/-! ## C16: the splice loop can slice out of bounds -/

/-- C16 as stated fails: in the state `exTwice` order 1 holds two rounds of ring 7 and
ring 7 is indexed for order 1; the splice loop of `afterSubmit` takes the first round
out, reads the stale second slot at index 1, and slices `rounds[2:]` on a list of
length 1: the handler panics. -/
theorem afterSubmit_panics_on_repeated_ring :
    spliceLoop 7 1 1 (spliceArr (roundsOf exTwice 1) 2 0) 1 = none ∧
      spliceRounds 7 (roundsOf exTwice 1) = none ∧ afterSubmit exTwice 7 = none := by
  refine ⟨by decide, by decide, rfl⟩

/-! ## What the goroutines of a round do to the matcher -/

theorem getAccountBalance_origin (env : Collaborators) (w w1 : World) (a t : Address)
    (res : Except GoError TokenBalance) (h : getAccountBalance env w a t = some (w1, res)) :
    (w1.amCalls = w.amCalls ∨ w1.amCalls = w.amCalls ++ [(a, t)]) ∧
      ∀ p, Cached w1 p → Cached w p ∨ (p = (a, t) ∧ w1.amCalls = w.amCalls ++ [(a, t)]) := by
  unfold getAccountBalance at h
  cases hc : w.matcher.accounts with
  | none => rw [hc] at h; cases h
  | some cache =>
    rw [hc] at h
    dsimp only at h
    cases hacc : cache a with
    | none =>
      rw [hacc] at h
      simp only [GoMap.empty] at h
      have hold : ∀ (p : Address × Address) (account : Account) (b : TokenBalance),
          p.1 ≠ a → cache p.1 = some account → account.Tokens p.2 = some b → Cached w p :=
        fun p account b _ h2 h3 => ⟨cache, account, b, hc, h2, h3⟩
      cases hq : env.GetBalanceByTokenAddress w.amCalls a t with
      | error err =>
        rw [hq] at h
        cases h
        refine ⟨Or.inr rfl, ?_⟩
        rintro p ⟨accounts, account, b, h1, h2, h3⟩
        cases h1
        by_cases hpa : p.1 = a
        · simp only [GoMap.set, hpa, if_true, Option.some.injEq] at h2
          subst h2
          cases h3
        · simp only [GoMap.set, hpa, if_false] at h2
          exact Or.inl (hold p account b hpa h2 h3)
      | ok v =>
        obtain ⟨balance, allowance⟩ := v
        rw [hq] at h
        cases h
        refine ⟨Or.inr rfl, ?_⟩
        rintro p ⟨accounts, account, b, h1, h2, h3⟩
        cases h1
        by_cases hpa : p.1 = a
        · simp only [GoMap.set, hpa, if_true, Option.some.injEq] at h2
          subst h2
          by_cases hpt : p.2 = t
          · exact Or.inr ⟨Prod.ext hpa hpt, rfl⟩
          · simp only [GoMap.set, hpt, if_false] at h3
            cases h3
        · simp only [GoMap.set, hpa, if_false] at h2
          exact Or.inl (hold p account b hpa h2 h3)
    | some account0 =>
      rw [hacc] at h
      dsimp only at h
      cases htok : account0.Tokens t with
      | some b0 =>
        rw [htok] at h
        cases h
        refine ⟨Or.inl rfl, ?_⟩
        rintro p ⟨accounts, account, b, h1, h2, h3⟩
        cases h1
        exact Or.inl ⟨cache, account, b, hc, h2, h3⟩
      | none =>
        rw [htok] at h
        dsimp only at h
        cases hq : env.GetBalanceByTokenAddress w.amCalls a t with
        | error err =>
          rw [hq] at h
          cases h
          refine ⟨Or.inr rfl, ?_⟩
          rintro p ⟨accounts, account, b, h1, h2, h3⟩
          cases h1
          exact Or.inl ⟨cache, account, b, hc, h2, h3⟩
        | ok v =>
          obtain ⟨balance, allowance⟩ := v
          rw [hq] at h
          cases h
          refine ⟨Or.inr rfl, ?_⟩
          rintro p ⟨accounts, account, b, h1, h2, h3⟩
          cases h1
          by_cases hpa : p.1 = a
          · simp only [GoMap.set, hpa, if_true, Option.some.injEq] at h2
            subst h2
            by_cases hpt : p.2 = t
            · exact Or.inr ⟨Prod.ext hpa hpt, rfl⟩
            · simp only [GoMap.set, hpt, if_false] at h3
              exact Or.inl ⟨cache, account0, b, hc, by rw [hpa]; exact hacc, h3⟩
          · simp only [GoMap.set, hpa, if_false] at h2
            exact Or.inl ⟨cache, account, b, hc, h2, h3⟩

theorem SharedRun.trans {env : Collaborators} {w w1 w2 : World}
    (h1 : SharedRun env w w1) (h2 : SharedRun env w1 w2) : SharedRun env w w2 := by
  induction h1 with
  | stop _ => exact h2
  | query w w1 _ a t res hq _ ih => exact SharedRun.query w w1 _ a t res hq (ih h2)
  | record w _ f rh _ ih => exact SharedRun.record w _ f rh (ih h2)

/-- Whatever the goroutines do, the settings of the scheduler, the index of mined
rings and the list of markets stay, the calls of the account manager are added to the
record, and a pair held by the cache afterwards was held before or was asked of the
account manager in between. -/
theorem SharedRun.frame {env : Collaborators} {w w1 : World} (h : SharedRun env w w1) :
    clock w1.matcher = clock w.matcher ∧ w1.matcher.MinedRings = w.matcher.MinedRings ∧
      w1.matcher.markets = w.matcher.markets ∧
      ∃ calls, w1.amCalls = w.amCalls ++ calls ∧ ∀ p, Cached w1 p → Cached w p ∨ p ∈ calls := by
  induction h with
  | stop w => exact ⟨rfl, rfl, rfl, [], by simp, fun p hp => Or.inl hp⟩
  | query w wa wb a t res hq _ ih =>
    obtain ⟨i1, i2, i3, calls, i4, i5⟩ := ih
    have hf := getAccountBalance_frame env w wa a t res hq
    obtain ⟨o1, o2⟩ := getAccountBalance_origin env w wa a t res hq
    have e2 : (sansCache wa.matcher).MinedRings = (sansCache w.matcher).MinedRings := by
      rw [hf]
    have e3 : (sansCache wa.matcher).markets = (sansCache w.matcher).markets := by
      rw [hf]
    refine ⟨i1.trans (clock_of_sansCache _ _ hf), i2.trans e2, i3.trans e3, ?_⟩
    rcases o1 with o1 | o1
    · refine ⟨calls, by rw [i4, o1], ?_⟩
      intro p hp
      rcases i5 p hp with hp1 | hp1
      · rcases o2 p hp1 with hp2 | ⟨_, hp2⟩
        · exact Or.inl hp2
        · rw [o1] at hp2
          simp at hp2
      · exact Or.inr hp1
    · refine ⟨(a, t) :: calls, by rw [i4, o1]; simp, ?_⟩
      intro p hp
      rcases i5 p hp with hp1 | hp1
      · rcases o2 p hp1 with hp2 | ⟨hp2, _⟩
        · exact Or.inl hp2
        · exact Or.inr (by rw [hp2]; exact List.mem_cons_self _ _)
      · exact Or.inr (List.mem_cons_of_mem _ hp1)
  | record w wb f rh _ ih =>
    obtain ⟨i1, i2, i3, calls, i4, i5⟩ := ih
    refine ⟨i1, i2, i3, calls, i4, ?_⟩
    intro p hp
    rcases i5 p hp with hp1 | hp1
    · left
      obtain ⟨accounts, account, b, h1, h2, h3⟩ := hp1
      exact ⟨accounts, account, b, h1, h2, h3⟩
    · exact Or.inr hp1

theorem tryPair_shared (env : Collaborators) (market : Market) (w w1 : World)
    (a b : OrderState) (c : Option RingSubmitInfo)
    (h : tryPair env market w a b = some (w1, c)) : SharedRun env w w1 := by
  unfold tryPair at h
  split at h
  · cases h1 : getAccountBalance env w a.RawOrder.Owner market.lrcAddress with
    | none => rw [h1] at h; cases h
    | some p1 =>
      obtain ⟨w2, r1⟩ := p1
      have f1 := SharedRun.query w w2 w2 _ _ r1 h1 (SharedRun.stop w2)
      rw [h1] at h
      cases r1 with
      | error _ => cases h; exact f1
      | ok v1 =>
        dsimp only at h
        cases h2 : getAccountBalance env w2 a.RawOrder.Owner a.RawOrder.TokenS with
        | none => rw [h2] at h; cases h
        | some p2 =>
          obtain ⟨w3, r2⟩ := p2
          have f2 := f1.trans (SharedRun.query w2 w3 w3 _ _ r2 h2 (SharedRun.stop w3))
          rw [h2] at h
          cases r2 with
          | error _ => cases h; exact f2
          | ok v2 =>
            dsimp only at h
            cases h3 : getAccountBalance env w3 b.RawOrder.Owner market.lrcAddress with
            | none => rw [h3] at h; cases h
            | some p3 =>
              obtain ⟨w4, r3⟩ := p3
              have f3 := f2.trans (SharedRun.query w3 w4 w4 _ _ r3 h3 (SharedRun.stop w4))
              rw [h3] at h
              cases r3 with
              | error _ => cases h; exact f3
              | ok v3 =>
                dsimp only at h
                cases h4 : getAccountBalance env w4 b.RawOrder.Owner b.RawOrder.TokenS with
                | none => rw [h4] at h; cases h
                | some p4 =>
                  obtain ⟨w5, r4⟩ := p4
                  have f4 := f3.trans (SharedRun.query w4 w5 w5 _ _ r4 h4 (SharedRun.stop w5))
                  rw [h4] at h
                  cases r4 with
                  | error _ => cases h; exact f4
                  | ok v4 =>
                    dsimp only at h
                    split at h
                    · cases h; exact f4
                    · cases h; exact f4
  · cases h; exact SharedRun.stop w

theorem innerLoop_shared (env : Collaborators) (market : Market) (a : OrderState) :
    ∀ (bs : List OrderState) (w : World) (cur : Option RingSubmitInfo)
      (r : World × Option RingSubmitInfo),
      innerLoop env market a bs w cur = some r → SharedRun env w r.1 := by
  intro bs
  induction bs with
  | nil =>
    intro w cur r h
    simp only [innerLoop, Option.some.injEq] at h
    subst h
    exact SharedRun.stop w
  | cons b rest ih =>
    intro w cur r h
    cases hstep : tryPair env market w a b with
    | none => simp [innerLoop, hstep] at h
    | some p =>
      obtain ⟨w1, c⟩ := p
      have f := tryPair_shared env market w w1 a b c hstep
      cases c with
      | none =>
        simp only [innerLoop, hstep] at h
        exact f.trans (ih w1 cur r h)
      | some t =>
        simp only [innerLoop, hstep] at h
        exact f.trans (ih w1 _ r h)

theorem recordFills_shared (env : Collaborators) (ringHash : Hash) :
    ∀ (fills : List FilledOrder) (st st1 : RoundVars),
      recordFills env ringHash fills st = some st1 → SharedRun env st.w st1.w := by
  intro fills
  induction fills with
  | nil =>
    intro st st1 h
    simp only [recordFills, Option.some.injEq] at h
    subst h
    exact SharedRun.stop _
  | cons f rest ih =>
    intro st st1 h
    cases hr : reduceAmountAfterFilled st.market f with
    | none => simp [recordFills, hr] at h
    | some p =>
      obtain ⟨mk, os⟩ := p
      simp only [recordFills, hr] at h
      exact SharedRun.record st.w st1.w f ringHash (ih _ st1 h)

theorem seedStep_shared (env : Collaborators) (st st1 : RoundVars) (aHash : Hash)
    (h : seedStep env st aHash = some st1) : SharedRun env st.w st1.w := by
  unfold seedStep at h
  cases hg : sideGet st.market.AtoBOrders aHash with
  | none => rw [hg] at h; cases h
  | some a =>
    rw [hg] at h
    dsimp only at h
    cases hi : innerLoop env st.market a (st.market.BtoAOrders.map Prod.snd) st.w none with
    | none => rw [hi] at h; cases h
    | some r =>
      obtain ⟨w1, kept⟩ := r
      rw [hi] at h
      dsimp only at h
      have f : SharedRun env st.w w1 := innerLoop_shared env st.market a _ st.w none (w1, kept) hi
      cases kept with
      | none =>
        simp only [recordRing, Option.some.injEq] at h
        subst h
        exact f
      | some ring =>
        simp only [recordRing, Option.map_eq_some'] at h
        obtain ⟨st2, h2, rfl⟩ := h
        exact f.trans (recordFills_shared env _ _ { st with w := w1 } st2 h2)

theorem foldlM_seedStep_shared (env : Collaborators) :
    ∀ (keys : List Hash) (st st1 : RoundVars),
      keys.foldlM (seedStep env) st = some st1 → SharedRun env st.w st1.w := by
  intro keys
  induction keys with
  | nil =>
    intro st st1 h
    simp only [List.foldlM_nil, Option.pure_def, Option.some.injEq] at h
    subst h
    exact SharedRun.stop _
  | cons k rest ih =>
    intro st st1 h
    simp only [List.foldlM_cons, Option.bind_eq_bind, Option.bind_eq_some] at h
    obtain ⟨st2, h1, h2⟩ := h
    exact (seedStep_shared env st st2 k h1).trans (ih st2 st1 h2)

/-- A run of `match` for one market takes the matcher through a sequence of calls of
`getAccountBalance` and `addMatchedOrder`. -/
theorem marketMatch_shared (env : Collaborators) (w : World) (market : Market)
    (r : World × Market × List RingSubmitInfo) (h : marketMatch env w market = some r) :
    SharedRun env w r.1 := by
  unfold marketMatch at h
  cases hs : matchSeeds env w (getOrdersForMatching env w.matcher market market.protocolAddress) with
  | none => rw [hs] at h; cases h
  | some st =>
    rw [hs] at h
    cases h
    exact foldlM_seedStep_shared env _ _ st hs

theorem exEnv_wellBehaved (orders : List OrderState) : WellBehaved (exEnv orders) := by
  refine ⟨?_, fun _ _ _ => rfl, ?_⟩
  · intro p s b n ex d o ho
    simp only [exEnv, List.mem_filter, decide_eq_true_eq] at ho
    exact ho.2.1
  · intro fa fb info h
    simp only [exEnv, Except.ok.injEq] at h
    subst h
    simp only [List.map_cons, List.map_nil]
    split <;> split <;> rfl

/-! ## C8: the gate of `blockTrigger` -/

theorem roundStart_fresh (w : World) (n : Int) (p : Address × Address) :
    ¬ Cached (roundStart w n) p := by
  rintro ⟨accounts, account, b, h1, h2, _⟩
  have e : (roundStart w n).matcher.accounts = some GoMap.empty := rfl
  rw [e] at h1
  cases h1
  cases h2

/-- What holds after the goroutines of a round started on `roundStart w n` have acted
on the matcher. -/
theorem sharedRun_of_roundStart (env : Collaborators) (w w1 : World) (n : Int)
    (h : SharedRun env (roundStart w n) w1) :
    w1.matcher.lastBlockNumber = n ∧ w1.matcher.markets = w.matcher.markets ∧
      ∃ calls, w1.amCalls = w.amCalls ++ calls ∧ ∀ p, Cached w1 p → p ∈ calls := by
  obtain ⟨h1, _, h3, calls, h4, h5⟩ := h.frame
  refine ⟨congrArg Prod.fst h1, h3, calls, h4, ?_⟩
  intro p hp
  rcases h5 p hp with hp1 | hp1
  · exact absurd hp1 (roundStart_fresh w n p)
  · exact hp1

theorem blockTrigger_of_not_le (env : Collaborators) (w : World) (n : Int)
    (hnot : ¬ w.matcher.lastBlockNumber + w.matcher.duration ≤ n) :
    blockTrigger env w n = .ended (w, none, []) := by
  have hnot1 : ¬ w.matcher.duration + w.matcher.lastBlockNumber ≤ n := by omega
  simp [blockTrigger, hnot1]

theorem blockTrigger_of_le (env : Collaborators) (w : World) (n : Int)
    (hle : w.matcher.lastBlockNumber + w.matcher.duration ≤ n) :
    blockTrigger env w n =
      match fanOut env w.matcher.markets (roundStart w n) with
      | .ended r =>
        .ended ({ r.1 with matcher := { r.1.matcher with markets := r.2.1 } }, none, r.2.2)
      | .died => .died
      | .raced w0 markets => .raced w0 markets := by
  have hle1 : w.matcher.duration + w.matcher.lastBlockNumber ≤ n := by omega
  simp only [blockTrigger, hle1, if_true, beginRound]
  show (match (match fanOut env w.matcher.markets (roundStart w n) with
    | .ended r => Round.ended
        ({ r.1 with matcher := { r.1.matcher with markets := r.2.1 } }, r.2.2)
    | .died => Round.died
    | .raced w0 markets => Round.raced w0 markets) with
    | .ended r => Round.ended (r.1, none, r.2)
    | .died => Round.died
    | .raced w0 markets => Round.raced w0 markets) = _
  cases fanOut env w.matcher.markets (roundStart w n) <;> rfl

/-- The index of mined rings after `blockTrigger`, returned or racing, is the one
before. -/
theorem blockTrigger_minedRings (env : Collaborators) (w : World) (n : Int) :
    (∀ r, blockTrigger env w n = .ended r → r.1.matcher.MinedRings = w.matcher.MinedRings) ∧
      ∀ w0 ms, blockTrigger env w n = .raced w0 ms →
        w0.matcher.MinedRings = w.matcher.MinedRings := by
  by_cases hle : w.matcher.lastBlockNumber + w.matcher.duration ≤ n
  · rw [blockTrigger_of_le env w n hle]
    cases hm : w.matcher.markets with
    | nil =>
      simp only [fanOut]
      exact ⟨fun r hr => (by cases hr; rfl), fun w0 ms hr => (by cases hr)⟩
    | cons mk rest =>
      cases rest with
      | nil =>
        simp only [fanOut]
        cases hmm : marketMatch env (roundStart w n) mk with
        | none => exact ⟨fun r hr => (by cases hr), fun w0 ms hr => (by cases hr)⟩
        | some res =>
          obtain ⟨w1, mk1, batch⟩ := res
          have hsh := (marketMatch_shared env (roundStart w n) mk _ hmm).frame.2.1
          exact ⟨fun r hr => (by cases hr; exact hsh), fun w0 ms hr => (by cases hr)⟩
      | cons mk2 rest2 =>
        simp only [fanOut]
        exact ⟨fun r hr => (by cases hr), fun w0 ms hr => (by cases hr; rfl)⟩
  · rw [blockTrigger_of_not_le env w n hle]
    exact ⟨fun r hr => (by cases hr; rfl), fun w0 ms hr => (by cases hr)⟩

/-- C8: `blockTrigger` begins a round exactly when `lastBlockNumber + duration ≤ n`.
Otherwise it returns the state as it was (so `lastBlockNumber` and the account cache)
with no error, and no market is matched: nothing is emitted. When the round begins,
the goroutines are started on the state with `lastBlockNumber = n` and a new, empty
account cache. With at most one market the handler, when it returns, returns no
error and a state with `lastBlockNumber = n`, one batch emitted for each market, a
single market being left as `match` run on that state leaves it, and a cache that
holds only pairs asked of the account manager in this round; it does return when the
collaborators are well behaved and the tokens of the market differ. With two or more
markets the goroutines race, and whatever they do to the matcher, `lastBlockNumber`
stays `n` and the cache holds only pairs asked in this round. -/
theorem blockTrigger_gate (env : Collaborators) (w : World) (n : Int) :
    (¬ w.matcher.lastBlockNumber + w.matcher.duration ≤ n →
        blockTrigger env w n = .ended (w, none, [])) ∧
      (w.matcher.lastBlockNumber + w.matcher.duration ≤ n →
        (∀ r, blockTrigger env w n = .ended r →
          r.1.matcher.lastBlockNumber = n ∧ r.2.1 = none ∧
          r.2.2.length = w.matcher.markets.length ∧
          (∀ mk, w.matcher.markets = [mk] →
            ∃ res, marketMatch env (roundStart w n) mk = some res ∧
              r.1.matcher.markets = [res.2.1] ∧ r.2.2 = [res.2.2]) ∧
          ∃ calls, r.1.amCalls = w.amCalls ++ calls ∧ ∀ p, Cached r.1 p → p ∈ calls) ∧
        (∀ w0 ms, blockTrigger env w n = .raced w0 ms →
          w0 = roundStart w n ∧ ms = w.matcher.markets ∧
          ∀ w1, SharedRun env w0 w1 →
            w1.matcher.lastBlockNumber = n ∧
            ∃ calls, w1.amCalls = w.amCalls ++ calls ∧ ∀ p, Cached w1 p → p ∈ calls) ∧
        (2 ≤ w.matcher.markets.length →
          blockTrigger env w n = .raced (roundStart w n) w.matcher.markets) ∧
        (w.matcher.markets.length ≤ 1 → WellBehaved env →
          (∀ mk ∈ w.matcher.markets, mk.TokenA ≠ mk.TokenB) →
          ∃ r, blockTrigger env w n = .ended r)) := by
  constructor
  · exact blockTrigger_of_not_le env w n
  · intro hle
    rw [blockTrigger_of_le env w n hle]
    cases hm : w.matcher.markets with
    | nil =>
      simp only [fanOut]
      refine ⟨?_, ?_, ?_, ?_⟩
      · intro r hr
        cases hr
        refine ⟨rfl, rfl, rfl, ?_, [], by simp [roundStart], ?_⟩
        · intro mk hmk
          cases hmk
        · intro p hp
          exact absurd ⟨hp.choose, hp.choose_spec⟩ (roundStart_fresh w n p)
      · intro w0 ms hr
        cases hr
      · intro h2
        simp at h2
      · intro _ _ _
        exact ⟨_, rfl⟩
    | cons mk rest =>
      cases rest with
      | nil =>
        simp only [fanOut]
        cases hmm : marketMatch env (roundStart w n) mk with
        | none =>
          refine ⟨?_, ?_, ?_, ?_⟩
          · intro r hr
            cases hr
          · intro w0 ms hr
            cases hr
          · intro h2
            simp at h2
          · intro _ henv htok
            obtain ⟨r, _, hr, _⟩ := marketMatch_total env henv (roundStart w n) mk
              GoMap.empty rfl (htok mk (List.mem_cons_self _ _))
            rw [hmm] at hr
            cases hr
        | some res =>
          obtain ⟨w1, mk1, batch⟩ := res
          have hsh := sharedRun_of_roundStart env w w1 n
            (marketMatch_shared env (roundStart w n) mk _ hmm)
          refine ⟨?_, ?_, ?_, ?_⟩
          · intro r hr
            cases hr
            refine ⟨hsh.1, rfl, rfl, ?_, ?_⟩
            · intro mk2 hmk2
              cases hmk2
              exact ⟨_, hmm, rfl, rfl⟩
            · obtain ⟨calls, hc1, hc2⟩ := hsh.2.2
              refine ⟨calls, hc1, ?_⟩
              rintro p ⟨accounts, account, b, h1, h2, h3⟩
              exact hc2 p ⟨accounts, account, b, h1, h2, h3⟩
          · intro w0 ms hr
            cases hr
          · intro h2
            simp at h2
          · intro _ _ _
            exact ⟨_, rfl⟩
      | cons mk2 rest2 =>
        simp only [fanOut]
        refine ⟨?_, ?_, ?_, ?_⟩
        · intro r hr
          cases hr
        · intro w0 ms hr
          cases hr
          refine ⟨rfl, rfl, ?_⟩
          intro w1 hw1
          obtain ⟨h1, _, h3⟩ := sharedRun_of_roundStart env w w1 n hw1
          exact ⟨h1, h3⟩
        · intro _
          trivial
        · intro h1
          simp at h1


/-- Scenario S4: with `duration` 10 and `lastBlockNumber` 100, the events 105 and 109
leave the state as it is and emit nothing; the event 110 runs a round of the one
market, which returns with `lastBlockNumber` 110 and one batch emitted, holding one
ring. With two markets the event 110 starts two goroutines on the state with
`lastBlockNumber` 110 and an empty cache. -/
theorem blockTrigger_gate_witness :
    blockTrigger (exEnv [exOrderA, exOrderB]) exWorld 105 = .ended (exWorld, none, []) ∧
      blockTrigger (exEnv [exOrderA, exOrderB]) exWorld 109 = .ended (exWorld, none, []) ∧
      (∃ r, blockTrigger (exEnv [exOrderA, exOrderB]) exWorld 110 = .ended r ∧
        r.1.matcher.lastBlockNumber = 110 ∧ r.2.1 = none ∧ r.2.2.length = 1) ∧
      (blockTrigger (exEnv [exOrderA, exOrderB]) exWorld 110).result.map
        (fun r => (r.1.matcher.lastBlockNumber, r.2.2.map List.length, r.1.amCalls))
          = some (110, [1], [(11, 300), (11, 100), (12, 300), (12, 200)]) ∧
      blockTrigger (exEnv [exOrderA, exOrderB]) exWorldTwo 110
        = .raced (roundStart exWorldTwo 110) exWorldTwo.matcher.markets := by
  refine ⟨(blockTrigger_gate _ exWorld 105).1 (by decide),
    (blockTrigger_gate _ exWorld 109).1 (by decide), ?_, by decide,
    ((blockTrigger_gate _ exWorldTwo 110).2 (by decide)).2.2.1 (by decide)⟩
  obtain ⟨hended, _, _, htotal⟩ :=
    (blockTrigger_gate (exEnv [exOrderA, exOrderB]) exWorld 110).2 (by decide)
  obtain ⟨r, hr⟩ := htotal (by decide) (exEnv_wellBehaved _) (by decide)
  obtain ⟨h1, h2, h3, _⟩ := hended r hr
  exact ⟨r, hr, h1, h2, h3⟩

/-! ## C3: the index of mined rings is never written -/

theorem reachable_minedRings_empty (m : TimingMatcher) (hm : Reachable m) :
    ∀ h, m.MinedRings h = none := by
  induction hm with
  | init _ _ _ => intro h; rfl
  | round env w n r _ hstep ih =>
    intro h
    rw [(blockTrigger_minedRings env w n).1 r hstep]
    exact ih h
  | race env w w0 n ms _ hstep ih =>
    intro h
    rw [(blockTrigger_minedRings env w n).2 w0 ms hstep]
    exact ih h
  | shared env w w1 _ hrun ih =>
    intro h
    rw [hrun.frame.2.1]
    exact ih h
  | markets m ms _ ih => intro h; exact ih h
  | submit m f rh _ ih => intro h; exact ih h
  | settle m m1 rh err _ hstep ih =>
    intro h
    rw [afterSubmit_of_unknown m rh (ih rh)] at hstep
    cases hstep
    exact ih h

/-- C3 fails on the code: from the constructor, the round of block 110 in scenario S1
ends in a reachable state that holds a round of ring 77 under order 1 while
`MinedRings` has no entry for ring 77, so that I1 does not hold there; and no state
reachable from the constructor has any entry in `MinedRings`. -/
theorem first_round_is_not_indexed :
    (∃ r, blockTrigger (exEnv [exOrderA, exOrderB]) exFresh 110 = .ended r ∧
        Reachable r.1.matcher ∧
        roundsOf r.1.matcher 1 =
          [{ round := 110, ringHash := 77, matchedAmountS := 90, matchedAmountB := 45 }] ∧
        r.1.matcher.MinedRings 77 = none ∧ ¬ RoundsIndexed r.1.matcher) ∧
      ∀ m, Reachable m → ∀ h, m.MinedRings h = none := by
  refine ⟨?_, reachable_minedRings_empty⟩
  have hev : (blockTrigger (exEnv [exOrderA, exOrderB]) exFresh 110).result.map
      (fun r => roundsOf r.1.matcher 1)
        = some [{ round := 110, ringHash := 77, matchedAmountS := 90, matchedAmountB := 45 }] := by
    decide
  simp only [Option.map_eq_some'] at hev
  obtain ⟨r, hr0, hrounds⟩ := hev
  have hr : blockTrigger (exEnv [exOrderA, exOrderB]) exFresh 110 = .ended r := by
    cases hb : blockTrigger (exEnv [exOrderA, exOrderB]) exFresh 110 with
    | ended a =>
      rw [hb] at hr0
      simp only [Round.result, Option.some.injEq] at hr0
      rw [hr0]
    | died => rw [hb] at hr0; cases hr0
    | raced w0 ms => rw [hb] at hr0; cases hr0
  have hreach : Reachable r.1.matcher :=
    Reachable.round _ exFresh 110 r (Reachable.init _ _ _) hr
  have hnone := reachable_minedRings_empty _ hreach 77
  refine ⟨r, hr, hreach, hrounds, hnone, ?_⟩
  intro hI
  obtain ⟨ring, hring⟩ := hI 1 ⟨110, 77, 90, 45⟩ (by rw [hrounds]; simp)
  rw [hnone] at hring
  cases hring

/-! ## C7: the ring kept for a seed -/

theorem recordFills_ringStates (env : Collaborators) (ringHash : Hash) :
    ∀ (fills : List FilledOrder) (st st1 : RoundVars),
      recordFills env ringHash fills st = some st1 → st1.ringStates = st.ringStates := by
  intro fills
  induction fills with
  | nil =>
    intro st st1 h
    simp only [recordFills, Option.some.injEq] at h
    subst h
    rfl
  | cons f rest ih =>
    intro st st1 h
    cases hr : reduceAmountAfterFilled st.market f with
    | none => simp [recordFills, hr] at h
    | some p =>
      obtain ⟨mk, os⟩ := p
      simp only [recordFills, hr] at h
      exact (ih _ st1 h).trans rfl

/-- C7: whenever the inner loop of `match` completes for a seed, either there is no
candidate (obtained without submitter error, in the order of the iterations) and no
ring is kept, or a ring is kept and it is the first candidate whose `Received` is the
greatest. Within a round (the balance cache is allocated) the inner loop always
completes. For the seed as a whole: with no candidate nothing is recorded (the
market, `matchedOrderHashes`, the batch and the registry stay as they are); with
candidates, when the iteration completes, the batch has grown by exactly the first
candidate with the greatest `Received`. -/
theorem innerLoop_keeps_first_max (env : Collaborators) :
    (∀ (market : Market) (a : OrderState) (bs : List OrderState) (w w1 : World)
        (kept : Option RingSubmitInfo),
        innerLoop env market a bs w none = some (w1, kept) →
        (candidates env market a bs w = [] ∧ kept = none) ∨
          ∃ c, kept = some c ∧ FirstMax c (candidates env market a bs w)) ∧
      (∀ (market : Market) (a : OrderState) (bs : List OrderState) (w : World)
        (cache : GoMap Address Account), w.matcher.accounts = some cache →
        ∃ w1 kept, innerLoop env market a bs w none = some (w1, kept)) ∧
      ∀ (st st1 : RoundVars) (aHash : Hash) (a : OrderState),
        sideGet st.market.AtoBOrders aHash = some a →
        seedStep env st aHash = some st1 →
        (candidates env st.market a (st.market.BtoAOrders.map Prod.snd) st.w = [] →
          st1.market = st.market ∧ st1.matchedOrderHashes = st.matchedOrderHashes ∧
          st1.ringStates = st.ringStates ∧
          st1.w.matcher.MatchedOrders = st.w.matcher.MatchedOrders) ∧
        (candidates env st.market a (st.market.BtoAOrders.map Prod.snd) st.w ≠ [] →
          ∃ c, FirstMax c (candidates env st.market a (st.market.BtoAOrders.map Prod.snd) st.w) ∧
            st1.ringStates = st.ringStates ++ [c]) := by
  have hkept : ∀ (market : Market) (a : OrderState) (bs : List OrderState) (w w1 : World)
      (kept : Option RingSubmitInfo),
      innerLoop env market a bs w none = some (w1, kept) →
      (candidates env market a bs w = [] ∧ kept = none) ∨
        ∃ c, kept = some c ∧ FirstMax c (candidates env market a bs w) := by
    intro market a bs w w1 kept h
    have hk := innerLoop_eq_foldl env market a bs w none (w1, kept) h
    simp only at hk
    rcases foldl_keepBetter_none (candidates env market a bs w) with ⟨h1, h2⟩ | ⟨c, h1, h2⟩
    · exact Or.inl ⟨h1, by rw [hk, h2]⟩
    · exact Or.inr ⟨c, by rw [hk, h1], h2⟩
  refine ⟨hkept, ?_, ?_⟩
  · intro market a bs w cache hc
    obtain ⟨w1, kept, _, h, _⟩ := innerLoop_total env market a bs w none cache hc
    exact ⟨w1, kept, h⟩
  · intro st st1 aHash a ha hstep
    unfold seedStep at hstep
    rw [ha] at hstep
    dsimp only at hstep
    cases hi : innerLoop env st.market a (st.market.BtoAOrders.map Prod.snd) st.w none with
    | none => rw [hi] at hstep; cases hstep
    | some r =>
      obtain ⟨w1, kept⟩ := r
      rw [hi] at hstep
      dsimp only at hstep
      have hframe := innerLoop_frame env st.market a _ st.w none (w1, kept) hi
      rcases hkept _ _ _ _ _ _ hi with ⟨hnil, hnone⟩ | ⟨c, hsome, hmax⟩
      · refine ⟨?_, fun hne => absurd hnil hne⟩
        intro _
        rw [hnone] at hstep
        simp only [recordRing, Option.some.injEq] at hstep
        subst hstep
        refine ⟨rfl, rfl, rfl, ?_⟩
        have e : ∀ x : TimingMatcher, x.MatchedOrders = (sansCache x).MatchedOrders :=
          fun _ => rfl
        show w1.matcher.MatchedOrders = st.w.matcher.MatchedOrders
        rw [e w1.matcher, e st.w.matcher]
        exact congrArg TimingMatcher.MatchedOrders hframe
      · refine ⟨?_, ?_⟩
        · intro hnil
          obtain ⟨pre, post, e, _⟩ := hmax
          rw [hnil] at e
          simp at e
        · intro _
          rw [hsome] at hstep
          simp only [recordRing, Option.map_eq_some'] at hstep
          obtain ⟨st2, h2, rfl⟩ := hstep
          refine ⟨c, hmax, ?_⟩
          show st2.ringStates ++ [c] = st.ringStates ++ [c]
          rw [recordFills_ringStates env _ _ _ st2 h2]

/-- Scenario S2: the order manager offers a, b and b2 and `getOrdersForMatching` leaves
the market `exMarketBest`; the seed a meets b (ring with `Received` 5) and b2 (ring
with `Received` 7); the inner loop completes and keeps the ring with b2, the first
candidate with the greatest `Received`, and the seed iteration of the round puts
exactly that ring in the batch. -/
theorem innerLoop_keeps_first_max_witness :
    getOrdersForMatching (exEnvBest [exOrderA, exOrderB, exOrderB2]) exRoundWorld.matcher
        exMarketNew exMarketNew.protocolAddress = exMarketBest ∧
      (∃ w1 c, innerLoop (exEnvBest [exOrderA, exOrderB, exOrderB2]) exMarketBest exOrderA
          [exOrderB, exOrderB2] exRoundWorld none = some (w1, some c) ∧
        FirstMax c
          (candidates (exEnvBest [exOrderA, exOrderB, exOrderB2]) exMarketBest exOrderA
            [exOrderB, exOrderB2] exRoundWorld)) ∧
      (candidates (exEnvBest [exOrderA, exOrderB, exOrderB2]) exMarketBest exOrderA
        [exOrderB, exOrderB2] exRoundWorld).map (fun c => c.Received) = [5, 7] ∧
      (innerLoop (exEnvBest [exOrderA, exOrderB, exOrderB2]) exMarketBest exOrderA
        [exOrderB, exOrderB2] exRoundWorld none).map
          (fun r => r.2.map fun c => (c.Received, c.RawRing.Orders.map
            fun f => f.OrderState.RawOrder.Hash)) = some (some (7, [1, 3])) ∧
      ∃ st1 c, seedStep (exEnvBest [exOrderA, exOrderB, exOrderB2])
          (seedStart (exEnvBest [exOrderA, exOrderB, exOrderB2]) exRoundWorld exMarketNew) 1
            = some st1 ∧
        FirstMax c
          (candidates (exEnvBest [exOrderA, exOrderB, exOrderB2]) exMarketBest exOrderA
            [exOrderB, exOrderB2] exRoundWorld) ∧
        st1.ringStates = [c] ∧ c.Received = 7 := by
  have hcand :
      (candidates (exEnvBest [exOrderA, exOrderB, exOrderB2]) exMarketBest exOrderA
        [exOrderB, exOrderB2] exRoundWorld).map (fun c => c.Received) = [5, 7] := by decide
  have hne : candidates (exEnvBest [exOrderA, exOrderB, exOrderB2]) exMarketBest exOrderA
      [exOrderB, exOrderB2] exRoundWorld ≠ [] := by
    intro e
    rw [e] at hcand
    cases hcand
  obtain ⟨w1, kept, h⟩ :=
    (innerLoop_keeps_first_max (exEnvBest [exOrderA, exOrderB, exOrderB2])).2.1 exMarketBest
      exOrderA [exOrderB, exOrderB2] exRoundWorld GoMap.empty rfl
  refine ⟨by decide, ?_, hcand, by decide, ?_⟩
  · rcases (innerLoop_keeps_first_max (exEnvBest [exOrderA, exOrderB, exOrderB2])).1
        exMarketBest exOrderA [exOrderB, exOrderB2] exRoundWorld w1 kept h with
      ⟨hnil, _⟩ | ⟨c, hc, hmax⟩
    · exact absurd hnil hne
    · rw [hc] at h
      exact ⟨w1, c, h, hmax⟩
  · have hev : (seedStep (exEnvBest [exOrderA, exOrderB, exOrderB2])
        (seedStart (exEnvBest [exOrderA, exOrderB, exOrderB2]) exRoundWorld exMarketNew) 1).map
          (fun st => st.ringStates.map fun c => c.Received) = some [7] := by decide
    simp only [Option.map_eq_some'] at hev
    obtain ⟨st1, hst, hrec⟩ := hev
    obtain ⟨c, hmax, hc⟩ :=
      ((innerLoop_keeps_first_max (exEnvBest [exOrderA, exOrderB, exOrderB2])).2.2
        (seedStart (exEnvBest [exOrderA, exOrderB, exOrderB2]) exRoundWorld exMarketNew)
        st1 1 exOrderA (by decide) hst).2 hne
    have hc1 : st1.ringStates = [c] := hc
    rw [hc1] at hrec
    simp only [List.map_cons, List.map_nil, List.cons.injEq, and_true] at hrec
    exact ⟨st1, c, hst, hmax, hc1, hrec⟩

/-! ## What a round does to the side maps -/

theorem sideGet_sideSet (side : List (Hash × OrderState)) (k k1 : Hash) (v : OrderState) :
    sideGet (sideSet side k v) k1 = if k1 = k then some v else sideGet side k1 := by
  induction side with
  | nil =>
    by_cases h : k1 = k
    · simp [sideSet, sideGet, h]
    · have h1 : ¬ k = k1 := fun e => h e.symm
      simp [sideSet, sideGet, h, h1]
  | cons p l ih =>
    obtain ⟨k2, v2⟩ := p
    by_cases hk : k2 = k
    · by_cases h : k1 = k
      · simp [sideSet, sideGet, hk, h]
      · have h1 : ¬ k = k1 := fun e => h e.symm
        simp [sideSet, sideGet, hk, h, h1]
    · by_cases h : k1 = k
      · simp [sideSet, sideGet, hk, h, sideGet_sideSet_self]
      · by_cases h2 : k2 = k1
        · simp [sideSet, sideGet, hk, h, h2]
        · simp [sideSet, sideGet, hk, h, h2, ih]

theorem sideOf_eq_sideMap (market : Market) (t : Address) :
    sideOf market t = sideMap market (decide (t = market.TokenA)) := by
  unfold sideOf sideMap
  by_cases h : t = market.TokenA <;> simp [h]

/-- One call of `reduceAmountAfterFilled` that returns: the entry it read, the entry it
wrote, and every lookup in the side maps afterwards. -/
theorem reduceAmountAfterFilled_sides (market market1 : Market) (f : FilledOrder)
    (os1 : OrderState) (h : reduceAmountAfterFilled market f = some (market1, os1)) :
    market1.TokenA = market.TokenA ∧
      ∃ os, sideGet (sideMap market (decide (f.OrderState.RawOrder.TokenS = market.TokenA)))
            f.OrderState.RawOrder.Hash = some os ∧
        os1.RawOrder = os.RawOrder ∧
        os1.DealtAmountS = os.DealtAmountS + intFromRat f.FillAmountS ∧
        os1.DealtAmountB = os.DealtAmountB + intFromRat f.FillAmountB ∧
        ∀ aSide k, sideGet (sideMap market1 aSide) k =
          if aSide = decide (f.OrderState.RawOrder.TokenS = market.TokenA) ∧
              k = f.OrderState.RawOrder.Hash then some os1
          else sideGet (sideMap market aSide) k := by
  unfold reduceAmountAfterFilled at h
  dsimp only at h
  by_cases ht : f.OrderState.RawOrder.TokenS = market.TokenA
  · simp only [ht, if_true] at h
    cases hg : sideGet market.AtoBOrders f.OrderState.RawOrder.Hash with
    | none => rw [hg] at h; cases h
    | some os =>
      rw [hg] at h
      simp only [Option.some.injEq, Prod.mk.injEq] at h
      obtain ⟨hm, ho⟩ := h
      subst hm
      subst ho
      refine ⟨rfl, os, ?_, rfl, rfl, rfl, ?_⟩
      · simp [sideMap, ht, hg]
      · intro aSide k
        cases aSide
        · simp [sideMap, ht]
        · simp only [sideMap, if_true, sideGet_sideSet, ht, decide_True, true_and]
  · simp only [ht, if_false] at h
    cases hg : sideGet market.BtoAOrders f.OrderState.RawOrder.Hash with
    | none => rw [hg] at h; cases h
    | some os =>
      rw [hg] at h
      simp only [Option.some.injEq, Prod.mk.injEq] at h
      obtain ⟨hm, ho⟩ := h
      subst hm
      subst ho
      refine ⟨rfl, os, ?_, rfl, rfl, rfl, ?_⟩
      · simp [sideMap, ht, hg]
      · intro aSide k
        cases aSide
        · simp [sideMap, sideGet_sideSet, ht]
        · simp [sideMap, ht]

theorem fillsOn_append (tokenA : Address) (aSide : Bool) (k : Hash) (l1 l2 : List FilledOrder) :
    fillsOn tokenA aSide k (l1 ++ l2) = fillsOn tokenA aSide k l1 ++ fillsOn tokenA aSide k l2 := by
  simp [fillsOn]

theorem lastFillOf_snoc (done : List FilledOrder) (g : FilledOrder) (h : Hash) :
    lastFillOf (done ++ [g]) h =
      if g.OrderState.RawOrder.Hash = h then some g else lastFillOf done h := by
  unfold lastFillOf
  by_cases e : g.OrderState.RawOrder.Hash = h
  · simp [List.filter_append, List.filter_cons, e]
  · simp [List.filter_append, List.filter_cons, e]

/-- One recorded fill keeps `DealtTracks` and `MatchedTracks`. -/
theorem fill_tracks (env : Collaborators) (base : Bool → Hash → Option OrderState)
    (market market1 : Market) (matched : GoMap Hash Bool) (done : List FilledOrder)
    (f : FilledOrder) (os1 : OrderState)
    (hd : DealtTracks base market.TokenA market done)
    (hm : MatchedTracks env market matched done)
    (h : reduceAmountAfterFilled market f = some (market1, os1)) :
    market1.TokenA = market.TokenA ∧
      DealtTracks base market.TokenA market1 (done ++ [f]) ∧
      MatchedTracks env market1
        (matched.set f.OrderState.RawOrder.Hash (env.IsOrderFullFinished os1)) (done ++ [f]) := by
  obtain ⟨htok, os, hget, hraw, hS, hB, hlook⟩ := reduceAmountAfterFilled_sides _ _ _ _ h
  refine ⟨htok, ?_, ?_⟩
  · intro aSide k v hv
    rw [hlook] at hv
    rw [fillsOn_append]
    by_cases hc : aSide = decide (f.OrderState.RawOrder.TokenS = market.TokenA) ∧
        k = f.OrderState.RawOrder.Hash
    · rw [if_pos hc] at hv
      cases hv
      obtain ⟨ha, hk⟩ := hc
      subst hk
      rw [← ha] at hget
      obtain ⟨os0, hb0, hr0, hs0, hb1⟩ := hd _ _ _ hget
      refine ⟨os0, hb0, hraw.trans hr0, ?_, ?_⟩
      · have : fillsOn market.TokenA aSide f.OrderState.RawOrder.Hash [f] = [f] := by
          simp [fillsOn, ha]
        rw [this, hS, hs0]
        simp only [List.map_append, List.sum_append, List.map_cons, List.map_nil, List.sum_cons,
          List.sum_nil]
        ring
      · have : fillsOn market.TokenA aSide f.OrderState.RawOrder.Hash [f] = [f] := by
          simp [fillsOn, ha]
        rw [this, hB, hb1]
        simp only [List.map_append, List.sum_append, List.map_cons, List.map_nil, List.sum_cons,
          List.sum_nil]
        ring
    · rw [if_neg hc] at hv
      obtain ⟨os0, hb0, hr0, hs0, hb1⟩ := hd _ _ _ hv
      have : fillsOn market.TokenA aSide k [f] = [] := by
        simp only [fillsOn, List.filter_cons, List.filter_nil]
        rw [if_neg]
        simp only [decide_eq_true_eq]
        intro hh
        exact hc ⟨hh.2.symm, hh.1.symm⟩
      rw [this, List.append_nil]
      exact ⟨os0, hb0, hr0, hs0, hb1⟩
  · intro x
    rw [lastFillOf_snoc]
    by_cases e : f.OrderState.RawOrder.Hash = x
    · rw [if_pos e]
      subst e
      dsimp only
      rw [sideOf_eq_sideMap, hlook, htok, if_pos ⟨rfl, rfl⟩]
      simp [GoMap.set]
    · rw [if_neg e]
      have hx : matched.set f.OrderState.RawOrder.Hash (env.IsOrderFullFinished os1) x
          = matched x := by
        have e1 : ¬ x = f.OrderState.RawOrder.Hash := fun t => e t.symm
        simp [GoMap.set, e1]
      rw [hx, hm x]
      cases lastFillOf done x with
      | none => rfl
      | some g =>
        dsimp only
        rw [sideOf_eq_sideMap, sideOf_eq_sideMap, hlook, htok, if_neg]
        intro hh
        exact e hh.2.symm

theorem recordFills_tracks (env : Collaborators) (base : Bool → Hash → Option OrderState)
    (tokenA : Address) (ringHash : Hash) :
    ∀ (fills : List FilledOrder) (st st1 : RoundVars) (done : List FilledOrder),
      st.market.TokenA = tokenA → DealtTracks base tokenA st.market done →
      MatchedTracks env st.market st.matchedOrderHashes done →
      recordFills env ringHash fills st = some st1 →
      st1.market.TokenA = tokenA ∧ DealtTracks base tokenA st1.market (done ++ fills) ∧
        MatchedTracks env st1.market st1.matchedOrderHashes (done ++ fills) := by
  intro fills
  induction fills with
  | nil =>
    intro st st1 done ht hd hm h
    simp only [recordFills, Option.some.injEq] at h
    subst h
    simpa using ⟨ht, hd, hm⟩
  | cons f rest ih =>
    intro st st1 done ht hd hm h
    subst ht
    cases hr : reduceAmountAfterFilled st.market f with
    | none => simp [recordFills, hr] at h
    | some p =>
      obtain ⟨mk, os⟩ := p
      simp only [recordFills, hr] at h
      obtain ⟨h1, h2, h3⟩ := fill_tracks env base _ _ _ _ f os hd hm hr
      have := ih _ st1 (done ++ [f]) h1 h2 h3 h
      simpa using this

theorem roundFills_snoc (rs : List RingSubmitInfo) (ring : RingSubmitInfo) :
    roundFills (rs ++ [ring]) = roundFills rs ++ ring.RawRing.Orders := by
  simp [roundFills]

theorem seedStep_tracks (env : Collaborators) (base : Bool → Hash → Option OrderState)
    (tokenA : Address) (st st1 : RoundVars) (aHash : Hash)
    (ht : st.market.TokenA = tokenA)
    (hd : DealtTracks base tokenA st.market (roundFills st.ringStates))
    (hm : MatchedTracks env st.market st.matchedOrderHashes (roundFills st.ringStates))
    (h : seedStep env st aHash = some st1) :
    st1.market.TokenA = tokenA ∧
      DealtTracks base tokenA st1.market (roundFills st1.ringStates) ∧
      MatchedTracks env st1.market st1.matchedOrderHashes (roundFills st1.ringStates) := by
  unfold seedStep at h
  cases ha : sideGet st.market.AtoBOrders aHash with
  | none => rw [ha] at h; cases h
  | some a =>
    rw [ha] at h
    dsimp only at h
    cases hin : innerLoop env st.market a (st.market.BtoAOrders.map Prod.snd) st.w none with
    | none => rw [hin] at h; cases h
    | some p =>
      obtain ⟨w1, kept⟩ := p
      rw [hin] at h
      dsimp only at h
      cases kept with
      | none =>
        simp only [recordRing, Option.some.injEq] at h
        subst h
        exact ⟨ht, hd, hm⟩
      | some ring =>
        simp only [recordRing, Option.map_eq_some'] at h
        obtain ⟨st2, h2, hst⟩ := h
        subst hst
        have hrs := recordFills_ringStates env ring.RawRing.Hash _ _ st2 h2
        obtain ⟨h3, h4, h5⟩ :=
          recordFills_tracks env base tokenA ring.RawRing.Hash ring.RawRing.Orders
            { st with w := w1 } st2 (roundFills st.ringStates) ht hd hm h2
        have e : roundFills (st2.ringStates ++ [ring]) =
            roundFills st.ringStates ++ ring.RawRing.Orders := by
          rw [roundFills_snoc, hrs]
        refine ⟨h3, ?_, ?_⟩
        · show DealtTracks base tokenA st2.market (roundFills (st2.ringStates ++ [ring]))
          rw [e]; exact h4
        · show MatchedTracks env st2.market st2.matchedOrderHashes
            (roundFills (st2.ringStates ++ [ring]))
          rw [e]; exact h5

theorem foldlM_seedStep_tracks (env : Collaborators) (base : Bool → Hash → Option OrderState)
    (tokenA : Address) :
    ∀ (keys : List Hash) (st st1 : RoundVars),
      st.market.TokenA = tokenA →
      DealtTracks base tokenA st.market (roundFills st.ringStates) →
      MatchedTracks env st.market st.matchedOrderHashes (roundFills st.ringStates) →
      keys.foldlM (seedStep env) st = some st1 →
      st1.market.TokenA = tokenA ∧
        DealtTracks base tokenA st1.market (roundFills st1.ringStates) ∧
        MatchedTracks env st1.market st1.matchedOrderHashes (roundFills st1.ringStates) := by
  intro keys
  induction keys with
  | nil =>
    intro st st1 ht hd hm h
    simp only [List.foldlM_nil, Option.pure_def, Option.some.injEq] at h
    subst h
    exact ⟨ht, hd, hm⟩
  | cons k rest ih =>
    intro st st1 ht hd hm h
    simp only [List.foldlM_cons, Option.bind_eq_bind, Option.bind_eq_some] at h
    obtain ⟨st2, h2, h3⟩ := h
    obtain ⟨a, b, c⟩ := seedStep_tracks env base tokenA st st2 k ht hd hm h2
    exact ih st2 st1 a b c h3

theorem fetchLoop_entries (env : Collaborators) (matcher : TimingMatcher) :
    ∀ (orders : List OrderState) (side : List (Hash × OrderState)) (excl : List Hash)
      (k : Hash) (os : OrderState),
      sideGet (fetchLoop env matcher orders side excl).1 k = some os →
      sideGet side k = some os ∨
        ∃ o ∈ orders, o.RawOrder.Hash = k ∧ os = reduceRemainedAmountBeforeMatch matcher o := by
  intro orders
  induction orders with
  | nil => intro side excl k os h; exact Or.inl h
  | cons o rest ih =>
    intro side excl k os h
    have hraw := (reduceRemainedAmountBeforeMatch_spec matcher o).1
    unfold fetchLoop at h
    dsimp only at h
    split at h
    · rcases ih _ _ k os h with h1 | ⟨o1, ho1, hk, he⟩
      · rw [sideGet_sideSet] at h1
        by_cases e : k = (reduceRemainedAmountBeforeMatch matcher o).RawOrder.Hash
        · rw [if_pos e] at h1
          cases h1
          exact Or.inr ⟨o, List.mem_cons_self _ _, by rw [e, hraw], rfl⟩
        · rw [if_neg e] at h1
          exact Or.inl h1
      · exact Or.inr ⟨o1, List.mem_cons_of_mem _ ho1, hk, he⟩
    · rcases ih _ _ k os h with h1 | ⟨o1, ho1, hk, he⟩
      · exact Or.inl h1
      · exact Or.inr ⟨o1, List.mem_cons_of_mem _ ho1, hk, he⟩

theorem getOrdersForMatching_entries (env : Collaborators) (matcher : TimingMatcher)
    (market : Market) (aSide : Bool) (k : Hash) (os : OrderState)
    (h : sideGet (sideMap (getOrdersForMatching env matcher market market.protocolAddress) aSide) k
      = some os) :
    ∃ o ∈ fetched env matcher market aSide, o.RawOrder.Hash = k ∧
      os = reduceRemainedAmountBeforeMatch matcher o := by
  cases aSide
  · simp only [sideMap, getOrdersForMatching, Bool.false_eq_true, if_false] at h
    rcases fetchLoop_entries env matcher _ _ _ k os h with h1 | h1
    · simp [sideGet] at h1
    · simpa [fetched] using h1
  · simp only [sideMap, getOrdersForMatching, if_true] at h
    rcases fetchLoop_entries env matcher _ _ _ k os h with h1 | h1
    · simp [sideGet] at h1
    · simpa [fetched] using h1

/-- The invariants of the seed loop hold when it starts. -/
theorem seedStart_tracks (env : Collaborators) (w : World) (market : Market) :
    DealtTracks (fun aSide k => sideGet (sideMap (seedStart env w market).market aSide) k)
        market.TokenA (seedStart env w market).market
        (roundFills (seedStart env w market).ringStates) ∧
      MatchedTracks env (seedStart env w market).market
        (seedStart env w market).matchedOrderHashes
        (roundFills (seedStart env w market).ringStates) := by
  constructor
  · intro aSide k os h
    exact ⟨os, h, rfl, by simp [seedStart, roundFills, fillsOn],
      by simp [seedStart, roundFills, fillsOn]⟩
  · intro h
    simp [seedStart, roundFills, lastFillOf, GoMap.empty]

theorem exEnvFifty_wellBehaved (orders : List OrderState) : WellBehaved (exEnvFifty orders) := by
  refine ⟨?_, fun _ _ _ => rfl, ?_⟩
  · intro p s b n ex d o ho
    simp only [exEnvFifty, exEnv, List.mem_filter, decide_eq_true_eq] at ho
    exact ho.2.1
  · intro fa fb info h
    simp only [exEnvFifty, exEnv, Except.ok.injEq] at h
    subst h
    simp only [List.map_cons, List.map_nil]
    split <;> split <;> rfl

/-! ## C5: availability seen by the matcher -/

/-- C5 as stated fails: order 1 has 100 to sell, nothing dealt on chain and one round in
flight with half a unit sold; the round fetches it, and the availability held for it in
the side map when the seed loop starts is 100, not 100 − 0 − 1/2. -/
theorem inflight_half_is_not_subtracted :
    ∃ os, sideGet (seedStart (exEnv [exOrderA, exOrderB]) exWorldHalf exMarketNew).market.AtoBOrders 1
        = some os ∧
      exOrderA ∈ fetched (exEnv [exOrderA, exOrderB]) exWorldHalf.matcher exMarketNew true ∧
      (roundsOf exWorldHalf.matcher 1).map (fun s => s.matchedAmountS) = [mkRat 1 2] ∧
      ((availableS os : Int) : ℚ) ≠
        (exOrderA.RawOrder.AmountS : ℚ) - (exOrderA.DealtAmountS : ℚ) -
          ((roundsOf exWorldHalf.matcher 1).map fun s => s.matchedAmountS).sum := by
  have h0 : (sideGet (seedStart (exEnv [exOrderA, exOrderB]) exWorldHalf
      exMarketNew).market.AtoBOrders 1).map availableS = some 100 := by decide
  simp only [Option.map_eq_some'] at h0
  obtain ⟨os, hos, hav⟩ := h0
  have h2 : ((roundsOf exWorldHalf.matcher 1).map fun s => s.matchedAmountS) = [mkRat 1 2] := by
    decide
  refine ⟨os, hos, by decide, h2, ?_⟩
  have h3 : exOrderA.RawOrder.AmountS = 100 := rfl
  have h4 : exOrderA.DealtAmountS = 0 := rfl
  have h5 : mkRat 1 2 = 1 / 2 := by simp [Rat.mkRat_eq_div]
  rw [hav, h2, h3, h4, h5]
  norm_num

/-- C5, amended: in a round of `match` on any market, after the seed loop has handled
any number of its seeds, every entry that a side map holds is the view of an order `o`
that the order manager returned for that side, and the availability the matcher sees
for it is `AmountS − d − Σ intFromRat(m_i) − Σ intFromRat(f_i)`, for the on-chain dealt
amount `d` of `o`, the in-flight rounds `m_i` of the registry when the round began and
the fills `f_i` of the rings recorded so far in the round that were applied to the
entry; likewise on the buy side. When all these amounts are integers this is
`AmountS − d − Σ m_i − Σ f_i`. And with well-behaved collaborators, two different tokens
and an allocated cache, the seed loop does reach every one of its seeds. -/
theorem availability_after_inflight_and_fills (env : Collaborators) (w : World)
    (market : Market) :
    (∀ pre post st,
        (seedStart env w market).market.AtoBOrders.map Prod.fst = pre ++ post →
        pre.foldlM (seedStep env) (seedStart env w market) = some st →
        ∀ aSide k os, sideGet (sideMap st.market aSide) k = some os →
          ∃ o ∈ fetched env w.matcher market aSide, o.RawOrder.Hash = k ∧
            os.RawOrder = o.RawOrder ∧
            availableS os =
              o.RawOrder.AmountS - o.DealtAmountS -
                ((roundsOf w.matcher k).map fun s => intFromRat s.matchedAmountS).sum -
                ((fillsOn market.TokenA aSide k (roundFills st.ringStates)).map
                  fun f => intFromRat f.FillAmountS).sum ∧
            availableB os =
              o.RawOrder.AmountB - o.DealtAmountB -
                ((roundsOf w.matcher k).map fun s => intFromRat s.matchedAmountB).sum -
                ((fillsOn market.TokenA aSide k (roundFills st.ringStates)).map
                  fun f => intFromRat f.FillAmountB).sum ∧
            ((∀ s ∈ roundsOf w.matcher k, s.matchedAmountS.den = 1) →
              (∀ f ∈ fillsOn market.TokenA aSide k (roundFills st.ringStates),
                f.FillAmountS.den = 1) →
              ((availableS os : Int) : ℚ) =
                (o.RawOrder.AmountS : ℚ) - (o.DealtAmountS : ℚ) -
                  ((roundsOf w.matcher k).map fun s => s.matchedAmountS).sum -
                  ((fillsOn market.TokenA aSide k (roundFills st.ringStates)).map
                    fun f => f.FillAmountS).sum) ∧
            ((∀ s ∈ roundsOf w.matcher k, s.matchedAmountB.den = 1) →
              (∀ f ∈ fillsOn market.TokenA aSide k (roundFills st.ringStates),
                f.FillAmountB.den = 1) →
              ((availableB os : Int) : ℚ) =
                (o.RawOrder.AmountB : ℚ) - (o.DealtAmountB : ℚ) -
                  ((roundsOf w.matcher k).map fun s => s.matchedAmountB).sum -
                  ((fillsOn market.TokenA aSide k (roundFills st.ringStates)).map
                    fun f => f.FillAmountB).sum)) ∧
      (WellBehaved env → market.TokenA ≠ market.TokenB →
        ∀ cache, w.matcher.accounts = some cache →
        ∀ pre post,
          (seedStart env w market).market.AtoBOrders.map Prod.fst = pre ++ post →
          ∃ st, pre.foldlM (seedStep env) (seedStart env w market) = some st) := by
  constructor
  · intro pre post st _ hrun aSide k os hos
    obtain ⟨hd0, hm0⟩ := seedStart_tracks env w market
    obtain ⟨_, hd, _⟩ :=
      foldlM_seedStep_tracks env _ market.TokenA pre (seedStart env w market) st rfl hd0 hm0 hrun
    obtain ⟨os0, hbase, hraw, hS, hB⟩ := hd aSide k os hos
    obtain ⟨o, ho, hk, he⟩ := getOrdersForMatching_entries env w.matcher market aSide k os0 hbase
    obtain ⟨hr0, hs0, hb0⟩ := reduceRemainedAmountBeforeMatch_spec w.matcher o
    rw [hk] at hs0 hb0
    subst he
    have hS1 : availableS os =
        o.RawOrder.AmountS - o.DealtAmountS -
          ((roundsOf w.matcher k).map fun s => intFromRat s.matchedAmountS).sum -
          ((fillsOn market.TokenA aSide k (roundFills st.ringStates)).map
            fun f => intFromRat f.FillAmountS).sum := by
      unfold availableS
      rw [hS, hs0, hraw, hr0]
      ring
    have hB1 : availableB os =
        o.RawOrder.AmountB - o.DealtAmountB -
          ((roundsOf w.matcher k).map fun s => intFromRat s.matchedAmountB).sum -
          ((fillsOn market.TokenA aSide k (roundFills st.ringStates)).map
            fun f => intFromRat f.FillAmountB).sum := by
      unfold availableB
      rw [hB, hb0, hraw, hr0]
      ring
    refine ⟨o, ho, hk, hraw.trans hr0, hS1, hB1, ?_, ?_⟩
    · intro h1 h2
      rw [hS1]
      simp only [Int.cast_sub]
      rw [sum_intFromRat_of_den_one (fun s : RoundState => s.matchedAmountS) _ h1,
        sum_intFromRat_of_den_one (fun f : FilledOrder => f.FillAmountS) _ h2]
    · intro h1 h2
      rw [hB1]
      simp only [Int.cast_sub]
      rw [sum_intFromRat_of_den_one (fun s : RoundState => s.matchedAmountB) _ h1,
        sum_intFromRat_of_den_one (fun f : FilledOrder => f.FillAmountB) _ h2]
  · intro henv htok cache hc pre post hkeys
    obtain ⟨st, _, hst, _⟩ :=
      foldlM_seedStep_total env henv pre (seedStart env w market) cache
        (getOrdersForMatching_keyed env w.matcher market _ henv htok) hc (by
          intro x hx
          have : x ∈ (seedStart env w market).market.AtoBOrders.map Prod.fst := by
            rw [hkeys]; exact List.mem_append_left _ hx
          exact this)
    exact ⟨st, hst⟩

/-- Scenario S3 as a round: order 1 has nothing dealt on chain and one round in flight
with 50 sold and 25 bought, and the order manager offers the orders 1 and 2. When the
seed loop starts, the view of order 1 has the adjusted `DealtAmountS` 50 and the
availability 50 = 100 − 0 − 50. The seed loop handles its one seed, the ring of the
orders 1 and 2 fills 50 of order 1, and the availability of order 1 is then
0 = 100 − 0 − 50 − 50. -/
theorem availability_after_inflight_and_fills_witness :
    (∃ os, sideGet (sideMap (seedStart (exEnvFifty [exOrderA, exOrderB]) exWorldInflight
            exMarketNew).market true) 1 = some os ∧
        os.DealtAmountS = 50 ∧ availableS os = 50 ∧
        ∃ o ∈ fetched (exEnvFifty [exOrderA, exOrderB]) exWorldInflight.matcher exMarketNew true,
          o.RawOrder.Hash = 1 ∧
          availableS os =
            o.RawOrder.AmountS - o.DealtAmountS -
              ((roundsOf exWorldInflight.matcher 1).map fun s => intFromRat s.matchedAmountS).sum -
              ((fillsOn exMarketNew.TokenA true 1 (roundFills [])).map
                fun f => intFromRat f.FillAmountS).sum) ∧
      ∃ st os, [1].foldlM (seedStep (exEnvFifty [exOrderA, exOrderB]))
            (seedStart (exEnvFifty [exOrderA, exOrderB]) exWorldInflight exMarketNew) = some st ∧
        sideGet (sideMap st.market true) 1 = some os ∧
        (roundsOf exWorldInflight.matcher 1).map (fun s => s.matchedAmountS) = [50] ∧
        (fillsOn exMarketNew.TokenA true 1 (roundFills st.ringStates)).map
          (fun f => f.FillAmountS) = [50] ∧
        availableS os = 0 ∧ availableB os = 0 ∧
        ((availableS os : Int) : ℚ) = 100 - 0 - 50 - 50 := by
  obtain ⟨hview, htotal⟩ :=
    availability_after_inflight_and_fills (exEnvFifty [exOrderA, exOrderB]) exWorldInflight
      exMarketNew
  constructor
  · have h0 : (sideGet (sideMap (seedStart (exEnvFifty [exOrderA, exOrderB]) exWorldInflight
        exMarketNew).market true) 1).map (fun os => (os.DealtAmountS, availableS os))
          = some (50, 50) := by decide
    simp only [Option.map_eq_some', Prod.mk.injEq] at h0
    obtain ⟨os, hos, hd, ha⟩ := h0
    obtain ⟨o, ho, hk, _, hS, _⟩ := hview [] [1] _ (by decide) rfl true 1 os hos
    exact ⟨os, hos, hd, ha, o, ho, hk, hS⟩
  · obtain ⟨st, hst⟩ :=
      htotal (exEnvFifty_wellBehaved _) (by decide) GoMap.empty rfl [1] [] (by decide)
    have h0 : (([1].foldlM (seedStep (exEnvFifty [exOrderA, exOrderB]))
          (seedStart (exEnvFifty [exOrderA, exOrderB]) exWorldInflight exMarketNew)).map
        fun st =>
          ((sideGet (sideMap st.market true) 1).map fun os => (availableS os, availableB os),
            (fillsOn exMarketNew.TokenA true 1 (roundFills st.ringStates)).map
              fun f => f.FillAmountS))
        = some (some (0, 0), [50]) := by decide
    rw [hst] at h0
    simp only [Option.map_some', Option.some.injEq, Prod.mk.injEq, Option.map_eq_some'] at h0
    obtain ⟨⟨os, hos, ha, hb⟩, hf⟩ := h0
    have hr : (roundsOf exWorldInflight.matcher 1).map (fun s => s.matchedAmountS) = [50] := by
      decide
    obtain ⟨o, ho, _, hraw, _, _, hQ, _⟩ := hview [1] [] st (by decide) hst true 1 os hos
    refine ⟨st, os, hst, hos, hr, hf, ha, hb, ?_⟩
    rw [ha]
    norm_num

/-! ## C6: the exclude-next-round lists after `match` -/

theorem matched_false_iff (env : Collaborators) (market : Market) (matched : GoMap Hash Bool)
    (batch : List RingSubmitInfo) (hm : MatchedTracks env market matched (roundFills batch))
    (h : Hash) : matched h = some false ↔ MatchedUnfinished env market batch h := by
  rw [hm h]
  unfold MatchedUnfinished
  cases hl : lastFillOf (roundFills batch) h with
  | none => simp
  | some f =>
    dsimp only
    constructor
    · intro hx
      simp only [Option.map_eq_some'] at hx
      obtain ⟨os, hos, hfin⟩ := hx
      exact ⟨f, os, rfl, hos, hfin⟩
    · rintro ⟨g, os, hg, hos, hfin⟩
      cases hg
      rw [hos]
      simp [hfin]

/-- The lists when `match` finishes, in terms of the local map `matchedOrderHashes`. -/
theorem marketMatch_excluded (env : Collaborators) (w : World) (market : Market)
    (r : World × Market × List RingSubmitInfo) (hr : marketMatch env w market = some r) :
    ∃ st, matchSeeds env w
        (getOrdersForMatching env w.matcher market market.protocolAddress) = some st ∧
      r = (st.w, excludeUpdate st.market st.matchedOrderHashes, st.ringStates) ∧
      ∀ h, h ∈ excludedHashes r.2.1 ↔
        h ∈ fetchedFinished env w.matcher market ∨
          (h ∈ sideHashes r.2.1 ∧ st.matchedOrderHashes h ≠ some false) := by
  unfold marketMatch at hr
  cases hs : matchSeeds env w
      (getOrdersForMatching env w.matcher market market.protocolAddress) with
  | none => rw [hs] at hr; cases hr
  | some st =>
    rw [hs] at hr
    cases hr
    refine ⟨st, rfl, rfl, ?_⟩
    have hframe := (foldlM_seedStep_frame env _ _ st hs).1
    simp only [marketFrame, Prod.mk.injEq] at hframe
    obtain ⟨_, _, hA, hB, _⟩ := hframe
    have hfin := getOrdersForMatching_excluded env w.matcher market
    simp only [excludedHashes] at hfin
    intro h
    simp only [excludedHashes, excludeUpdate, sideHashes, List.mem_append, List.mem_filter,
      excludeNext_iff, ← hfin, hA, hB]
    tauto

/-- C6 as stated fails: order 1 has sold all of its 100 in flight, the order manager
returns it, `getOrdersForMatching` finds it fully finished and puts its hash in the
exclude-next-round list without entering it in a side map: when `match` finishes the
lists hold hash 1 and the side maps hold no hash. -/
theorem finished_at_fetch_is_excluded :
    ∃ r, marketMatch (exEnv [exOrderA]) exWorldSold exMarketNew = some r ∧
      1 ∈ excludedHashes r.2.1 ∧ 1 ∉ sideHashes r.2.1 := by
  have h : (marketMatch (exEnv [exOrderA]) exWorldSold exMarketNew).map
      (fun r => (excludedHashes r.2.1, sideHashes r.2.1)) = some ([1], []) := by decide
  simp only [Option.map_eq_some'] at h
  obtain ⟨r, hr, he⟩ := h
  simp only [Prod.mk.injEq] at he
  exact ⟨r, hr, by rw [he.1]; simp, by rw [he.2]; simp⟩

/-- C6, amended: whenever `match` finishes, with the market and the batch of rings it
leaves, the hashes held in the two exclude-next-round lists are the hashes of the
fetched orders that were fully finished once their in-flight amounts were added,
together with the hashes present in the two side maps minus those matched in this
round and not fully finished: those that a ring of the batch fills and whose view in
the side map of their last fill the order manager does not find fully finished. And
`match` does finish within a round when the collaborators are well behaved and the two
tokens of the market differ. -/
theorem exclusion_after_match (env : Collaborators) (w : World) (market : Market) :
    (∀ r, marketMatch env w market = some r →
        ∀ h, h ∈ excludedHashes r.2.1 ↔
          h ∈ fetchedFinished env w.matcher market ∨
            (h ∈ sideHashes r.2.1 ∧ ¬ MatchedUnfinished env r.2.1 r.2.2 h)) ∧
      (WellBehaved env → market.TokenA ≠ market.TokenB →
        ∀ cache, w.matcher.accounts = some cache → ∃ r, marketMatch env w market = some r) := by
  constructor
  · intro r hr h
    obtain ⟨st, hs, he, hiff⟩ := marketMatch_excluded env w market r hr
    obtain ⟨hd0, hm0⟩ := seedStart_tracks env w market
    obtain ⟨_, _, hm⟩ :=
      foldlM_seedStep_tracks env _ market.TokenA _ (seedStart env w market) st rfl hd0 hm0 hs
    have hmu : st.matchedOrderHashes h = some false ↔ MatchedUnfinished env r.2.1 r.2.2 h := by
      rw [he]
      exact matched_false_iff env st.market st.matchedOrderHashes st.ringStates hm h
    rw [hiff h, ne_eq, hmu]
  · intro henv htok cache hc
    obtain ⟨r, _, hr, _⟩ := marketMatch_total env henv w market cache hc htok
    exact ⟨r, hr⟩

/-- Scenario S2 as a whole round: the order manager offers a, b and b2; the round
finishes, the ring of a and b2 is the one recorded, and the lists hold exactly the
hash of b, which is in a side map and was not matched, while a and b2 were matched
and are not fully finished. In scenario S3 continued by a ring that sells the rest of
order 1, the lists hold the hash of order 1, which was matched and is fully
finished, and not that of order 2. -/
theorem exclusion_after_match_witness :
    (∃ r, marketMatch (exEnvBest [exOrderA, exOrderB, exOrderB2]) exRoundWorld exMarketNew
          = some r ∧
        excludedHashes r.2.1 = [2] ∧ sideHashes r.2.1 = [1, 2, 3] ∧
        fetchedFinished (exEnvBest [exOrderA, exOrderB, exOrderB2]) exRoundWorld.matcher
          exMarketNew = [] ∧
        MatchedUnfinished (exEnvBest [exOrderA, exOrderB, exOrderB2]) r.2.1 r.2.2 1 ∧
        ¬ MatchedUnfinished (exEnvBest [exOrderA, exOrderB, exOrderB2]) r.2.1 r.2.2 2 ∧
        MatchedUnfinished (exEnvBest [exOrderA, exOrderB, exOrderB2]) r.2.1 r.2.2 3) ∧
      ∃ r, marketMatch (exEnvFifty [exOrderA, exOrderB]) exWorldInflight exMarketNew = some r ∧
        excludedHashes r.2.1 = [1] ∧ sideHashes r.2.1 = [1, 2] ∧
        ¬ MatchedUnfinished (exEnvFifty [exOrderA, exOrderB]) r.2.1 r.2.2 1 ∧
        MatchedUnfinished (exEnvFifty [exOrderA, exOrderB]) r.2.1 r.2.2 2 := by
  constructor
  · obtain ⟨r, hr⟩ :=
      (exclusion_after_match (exEnvBest [exOrderA, exOrderB, exOrderB2]) exRoundWorld
        exMarketNew).2 (by
          refine ⟨?_, fun _ _ _ => rfl, ?_⟩
          · intro p s b n ex d o ho
            simp only [exEnvBest, exEnv, List.mem_filter, decide_eq_true_eq] at ho
            exact ho.2.1
          · intro fa fb info h
            simp only [exEnvBest, exEnv, Except.ok.injEq] at h
            subst h
            simp only [List.map_cons, List.map_nil]
            split <;> split <;> rfl) (by decide) GoMap.empty rfl
    have hiff :=
      (exclusion_after_match (exEnvBest [exOrderA, exOrderB, exOrderB2]) exRoundWorld
        exMarketNew).1 r hr
    have hev : (marketMatch (exEnvBest [exOrderA, exOrderB, exOrderB2]) exRoundWorld
        exMarketNew).map (fun r => (excludedHashes r.2.1, sideHashes r.2.1))
          = some ([2], [1, 2, 3]) := by decide
    rw [hr] at hev
    simp only [Option.map_some', Option.some.injEq, Prod.mk.injEq] at hev
    obtain ⟨he, hs⟩ := hev
    have hf : fetchedFinished (exEnvBest [exOrderA, exOrderB, exOrderB2]) exRoundWorld.matcher
        exMarketNew = [] := by decide
    refine ⟨r, hr, he, hs, hf, ?_, ?_, ?_⟩
    · by_contra hmu
      have := (hiff 1).2 (Or.inr ⟨by rw [hs]; simp, hmu⟩)
      rw [he] at this
      simp at this
    · intro hmu
      have := (hiff 2).1 (by rw [he]; simp)
      rw [hf] at this
      rcases this with h1 | h1
      · simp at h1
      · exact h1.2 hmu
    · by_contra hmu
      have := (hiff 3).2 (Or.inr ⟨by rw [hs]; simp, hmu⟩)
      rw [he] at this
      simp at this
  · obtain ⟨r, hr⟩ :=
      (exclusion_after_match (exEnvFifty [exOrderA, exOrderB]) exWorldInflight exMarketNew).2
        (exEnvFifty_wellBehaved _) (by decide) GoMap.empty rfl
    have hiff :=
      (exclusion_after_match (exEnvFifty [exOrderA, exOrderB]) exWorldInflight exMarketNew).1 r hr
    have hev : (marketMatch (exEnvFifty [exOrderA, exOrderB]) exWorldInflight
        exMarketNew).map (fun r => (excludedHashes r.2.1, sideHashes r.2.1))
          = some ([1], [1, 2]) := by decide
    rw [hr] at hev
    simp only [Option.map_some', Option.some.injEq, Prod.mk.injEq] at hev
    obtain ⟨he, hs⟩ := hev
    have hf : fetchedFinished (exEnvFifty [exOrderA, exOrderB]) exWorldInflight.matcher
        exMarketNew = [] := by decide
    refine ⟨r, hr, he, hs, ?_, ?_⟩
    · intro hmu
      have := (hiff 1).1 (by rw [he]; simp)
      rw [hf] at this
      rcases this with h1 | h1
      · simp at h1
      · exact h1.2 hmu
    · by_contra hmu
      have := (hiff 2).2 (Or.inr ⟨by rw [hs]; simp, hmu⟩)
      rw [he] at this
      simp at this

/-- Scenario S1 run from the constructor: the round of block 110 ends, emits one batch
of one ring, of the hash 77, and leaves a round of that ring under order 1. -/
theorem first_round_ends :
    ∃ r, blockTrigger (exEnv [exOrderA, exOrderB]) exFresh 110 = .ended r ∧
      r.2.2.map (fun batch => batch.map fun ring => ring.RawRing.Hash) = [[77]] ∧
      (roundsOf r.1.matcher 1).map (fun s => (s.round, s.ringHash)) = [(110, 77)] := by
  have hev : (blockTrigger (exEnv [exOrderA, exOrderB]) exFresh 110).result.map
      (fun r => (r.2.2.map (fun batch => batch.map fun ring => ring.RawRing.Hash),
        (roundsOf r.1.matcher 1).map fun s => (s.round, s.ringHash)))
        = some ([[77]], [(110, 77)]) := by
    decide
  simp only [Option.map_eq_some', Prod.mk.injEq] at hev
  obtain ⟨r, hr0, hbatch, hrounds⟩ := hev
  refine ⟨r, ?_, hbatch, hrounds⟩
  cases hb : blockTrigger (exEnv [exOrderA, exOrderB]) exFresh 110 with
  | ended a =>
    rw [hb] at hr0
    simp only [Round.result, Option.some.injEq] at hr0
    rw [hr0]
  | died => rw [hb] at hr0; cases hr0
  | raced w0 ms => rw [hb] at hr0; cases hr0

/-! ## C1: rounds of a settled ring -/

/-- C1 fails on the code: from the constructor, the round of block 110 in scenario S1
emits the ring 77 and stores a round of it under order 1; when the event for the ring
77 then arrives, `afterSubmit` returns the matcher as it is, and order 1 still holds
the round of ring 77. In every state reachable from the constructor the handler
returns the matcher as it is, for every ring hash. -/
theorem settled_ring_keeps_its_rounds :
    (∃ r, blockTrigger (exEnv [exOrderA, exOrderB]) exFresh 110 = .ended r ∧
        r.2.2.map (fun batch => batch.map fun ring => ring.RawRing.Hash) = [[77]] ∧
        ∃ m1, afterSubmit r.1.matcher 77 = some (m1, none) ∧
          ∃ s ∈ roundsOf m1 1, s.ringHash = 77) ∧
      ∀ m, Reachable m → ∀ h, afterSubmit m h = some (m, none) := by
  refine ⟨?_, fun m hm h => afterSubmit_of_unknown m h (reachable_minedRings_empty m hm h)⟩
  obtain ⟨r, hr, hbatch, hrounds⟩ := first_round_ends
  have hreach : Reachable r.1.matcher :=
    Reachable.round _ exFresh 110 r (Reachable.init _ _ _) hr
  refine ⟨r, hr, hbatch, r.1.matcher,
    afterSubmit_of_unknown _ 77 (reachable_minedRings_empty _ hreach 77), ?_⟩
  cases hl : roundsOf r.1.matcher 1 with
  | nil => rw [hl] at hrounds; cases hrounds
  | cons s rest =>
    rw [hl] at hrounds
    simp only [List.map_cons, List.cons.injEq, Prod.mk.injEq] at hrounds
    exact ⟨s, List.mem_cons_self _ _, hrounds.1.2⟩

/-! ## C16: when the splice loop stays within bounds -/

/-- C16, amended: `afterSubmit` completes without a runtime panic, and without error,
for every registry state and ring hash `h` such that no order listed by the index
entry of `h` (if there is one) holds `h` more than once; and in every state reachable
from the constructor it completes and returns the matcher as it is. -/
theorem afterSubmit_completes (m : TimingMatcher) (h : Hash) :
    ((∀ ring, m.MinedRings h = some ring →
          ∀ o ∈ ring.orderHashes, countRing h (roundsOf m o) ≤ 1) →
        ∃ m1, afterSubmit m h = some (m1, none)) ∧
      (Reachable m → afterSubmit m h = some (m, none)) := by
  constructor
  · intro honce
    cases hidx : m.MinedRings h with
    | none => exact ⟨m, afterSubmit_of_unknown m h hidx⟩
    | some ring =>
      obtain ⟨m1, hfold, _⟩ :=
        foldlM_afterSubmitOrder_clears h ring.orderHashes
          { m with MinedRings := m.MinedRings.delete h } (honce ring hidx)
      exact ⟨m1, by simp [afterSubmit, hidx, hfold]⟩
  · intro hm
    exact afterSubmit_of_unknown m h (reachable_minedRings_empty m hm h)

/-- The handler completes on the state that the round of scenario S1 leaves, for the
ring 77 of that round; on `exIndexed`, where the ring 7 is indexed for the orders 1
and 2, which hold it once each; and in scenario S5, where the ring 8 is handled after
the ring 7 has already shortened the rounds of order 2, and the entries of the orders
1, 2 and 3 are all erased. -/
theorem afterSubmit_completes_witness :
    (∃ r, blockTrigger (exEnv [exOrderA, exOrderB]) exFresh 110 = .ended r ∧
        afterSubmit r.1.matcher 77 = some (r.1.matcher, none)) ∧
      (∃ m1, afterSubmit exIndexed 7 = some (m1, none)) ∧
      ∃ m1 m2, afterSubmit exShared 7 = some (m1, none) ∧ afterSubmit m1 8 = some (m2, none) ∧
        m2.MatchedOrders 1 = none ∧ m2.MatchedOrders 2 = none ∧ m2.MatchedOrders 3 = none := by
  refine ⟨?_, ?_, ?_⟩
  · obtain ⟨r, hr, _, _⟩ := first_round_ends
    exact ⟨r, hr, (afterSubmit_completes r.1.matcher 77).2
      (Reachable.round _ exFresh 110 r (Reachable.init _ _ _) hr)⟩
  · refine (afterSubmit_completes exIndexed 7).1 ?_
    intro ring hring o ho
    have e : exIndexed.MinedRings 7 = some { ringHash := 7, orderHashes := [1, 2] } := rfl
    rw [e] at hring
    cases hring
    simp only [List.mem_cons, List.mem_singleton, List.not_mem_nil, or_false] at ho
    rcases ho with rfl | rfl <;> decide
  · obtain ⟨m1, h1⟩ := (afterSubmit_completes exShared 7).1 (by
      intro ring hring o ho
      have e : exShared.MinedRings 7 = some { ringHash := 7, orderHashes := [1, 2] } := rfl
      rw [e] at hring
      cases hring
      simp only [List.mem_cons, List.mem_singleton, List.not_mem_nil, or_false] at ho
      rcases ho with rfl | rfl <;> decide)
    have hev : ((afterSubmit exShared 7).bind fun r => (afterSubmit r.1 8).map fun r2 =>
        (r2.2.isNone, (r2.1.MatchedOrders 1).isNone, (r2.1.MatchedOrders 2).isNone,
          (r2.1.MatchedOrders 3).isNone)) = some (true, true, true, true) := by decide
    rw [h1] at hev
    simp only [Option.some_bind, Option.map_eq_some', Prod.mk.injEq] at hev
    obtain ⟨⟨m2, err⟩, h2, herr, ha, hb, hc⟩ := hev
    have herr1 : err = none := by
      cases err with
      | none => rfl
      | some e => cases herr
    subst herr1
    exact ⟨m1, m2, h1, h2, Option.isNone_iff_eq_none.1 ha, Option.isNone_iff_eq_none.1 hb,
      Option.isNone_iff_eq_none.1 hc⟩

end Relay
